import Mathlib

/-!
# TinyLayoutEngine: a shallow embedding of the six-pass layout algorithm

The definitions below follow `src/tinyLayoutEngine.hpp` and `src/tinyLayoutEngine.cpp`.

* `int16_t` values are integers; every store of an arithmetic result into an `int16_t`
  goes through `wrap16` (two's-complement truncation).  Arithmetic inside an expression is
  done on unbounded integers, as C++ promotes the operands to `int` and no 16-bit product or
  sum of the program leaves the 32-bit range.
* `/` of C++ is `Int.tdiv` (truncation toward zero); a division by zero makes the pass
  return `none`.
* The element tree is an inductive type whose constructor is the `elementType` tag.
* `std::string` is `String`; the tokenizer works on the list of its characters.
-/

namespace TinyLayoutEngine

/-! ## Data model (`tinyLayoutEngine.hpp`) -/

inductive Positioning where
  | PositionFree
  | PositionLayout
deriving DecidableEq

inductive Alignment where
  | AlignStretch
  | AlignStart
  | AlignEnd
  | AlignCenter
  | AlignSpaceBetween
  | AlignAuto
deriving DecidableEq

inductive Justification where
  | JustifyStart
  | JustifyEnd
  | JustifyCenter
deriving DecidableEq

inductive LayoutDirection where
  | LayoutRow
  | LayoutColumn
deriving DecidableEq

inductive OverflowMode where
  | OverflowGrow
  | OverflowHide
  | OverflowScroll
deriving DecidableEq

inductive TextAlignment where
  | TextAlignLeft
  | TextAlignRight
  | TextAlignCenter
  | TextAlignJustify
deriving DecidableEq

/-- The sentinel `LengthAuto` of `ComputedLength`. -/
def LengthAuto : Int := -1
/-- The sentinel `LengthNone` of `ComputedLength`. -/
def LengthNone : Int := -2
/-- The sentinel `LengthFull` of `ComputedLength`. -/
def LengthFull : Int := -3

structure Color where
  r : Nat
  g : Nat
  b : Nat
  a : Nat
deriving DecidableEq

/-- The computed layout of an element (`struct ComputedLayout`). -/
structure ComputedLayout where
  x : Int
  y : Int
  minWidth : Int
  minHeight : Int
  width : Int
  height : Int
deriving DecidableEq

/-- The fields of `class BaseElement`; `elementType` is the constructor of `Element`. -/
structure BaseElement where
  layout : ComputedLayout
  borderWidth : Int
  borderRadius : Int
  width : Int
  height : Int
  maxWidth : Int
  maxHeight : Int
  minWidth : Int
  minHeight : Int
  paddingLeft : Int
  paddingRight : Int
  paddingTop : Int
  paddingBottom : Int
  marginLeft : Int
  marginRight : Int
  marginTop : Int
  marginBottom : Int
  grow : Int
  zIndex : Int
  backgroundColor : Color
  borderColor : Color
  positioning : Positioning
  alignSelf : Alignment
  visible : Bool
  displayed : Bool
deriving DecidableEq

/-- The fields `class Container` adds to the base, the children apart. -/
structure ContainerData where
  gap : Int
  overflow : OverflowMode
  layoutDirection : LayoutDirection
  justifyContent : Justification
  alignItems : Alignment
deriving DecidableEq

/-- The fields `class Text` adds to the base. -/
structure TextData where
  text : String
  wrappedText : List String
  color : Color
  textAlign : TextAlignment
  font : Nat
deriving DecidableEq

/-- The fields `class Polygon` adds to the base. -/
structure PolygonData where
  points : List Int
  fill : Bool
  stroke : Bool
deriving DecidableEq

/-- An element of the tree: a container owning its children, a text or a polygon. -/
inductive Element where
  | container (base : BaseElement) (data : ContainerData) (children : List Element)
  | text (base : BaseElement) (data : TextData)
  | polygon (base : BaseElement) (data : PolygonData)

/-- The measurement capability (`class BaseMeasurementContext`): two pure queries. -/
structure BaseMeasurementContext where
  measureTextWidth : String → Nat → Int
  getLineHeight : Int → Nat → Int

/-- Truncation of an integer to `int16_t`. -/
def wrap16 (v : Int) : Int := (v + 32768) % 65536 - 32768

/-- The values an `int16_t` holds. -/
def inInt16 (v : Int) : Prop := -32768 ≤ v ∧ v ≤ 32767

instance (v : Int) : Decidable (inInt16 v) := by unfold inInt16; infer_instance

/-- The `int16_t` returned by `measureTextWidth`. -/
def measureWidth (ctx : BaseMeasurementContext) (s : String) (font : Nat) : Int :=
  wrap16 (ctx.measureTextWidth s font)

/-- The `int16_t` returned by `getLineHeight`. -/
def lineHeight (ctx : BaseMeasurementContext) (lineSpacing : Int) (font : Nat) : Int :=
  wrap16 (ctx.getLineHeight lineSpacing font)

namespace Element

/-- The base fields of an element. -/
def base : Element → BaseElement
  | container b _ _ => b
  | text b _ => b
  | polygon b _ => b

/-- The element with its base fields replaced. -/
def setBase (b : BaseElement) : Element → Element
  | container _ c cs => container b c cs
  | text _ t => text b t
  | polygon _ p => polygon b p

/-- The children of a container; no children for the other elements. -/
def children : Element → List Element
  | container _ _ cs => cs
  | text _ _ => []
  | polygon _ _ => []

/-- The wrapped lines of a text element; none for the other elements. -/
def wrappedText : Element → List String
  | text _ t => t.wrappedText
  | _ => []

end Element

/-- The constructor `BaseElement::BaseElement()`; it leaves `layout` uninitialised, and the
computed layout is given here. -/
def newBaseElement (layout : ComputedLayout) : BaseElement :=
  { layout := layout
    borderWidth := 0
    borderRadius := 0
    width := LengthNone
    height := LengthNone
    maxWidth := LengthNone
    maxHeight := LengthNone
    minWidth := LengthNone
    minHeight := LengthNone
    paddingLeft := 0
    paddingRight := 0
    paddingTop := 0
    paddingBottom := 0
    marginLeft := 0
    marginRight := 0
    marginTop := 0
    marginBottom := 0
    grow := 0
    zIndex := 0
    backgroundColor := ⟨0, 0, 0, 0⟩
    borderColor := ⟨0, 0, 0, 0⟩
    positioning := .PositionFree
    alignSelf := .AlignStretch
    visible := true
    displayed := true }

/-- The computed layout with every field zero. -/
def zeroLayout : ComputedLayout := ⟨0, 0, 0, 0, 0, 0⟩

/-- The container fields the constructor `Container::Container()` sets. -/
def newContainerData : ContainerData :=
  { gap := 0
    overflow := .OverflowGrow
    layoutDirection := .LayoutRow
    justifyContent := .JustifyStart
    alignItems := .AlignStretch }

/-- The text fields the constructor `Text::Text()` sets, with the given text. -/
def newTextData (text : String) : TextData :=
  { text := text
    wrappedText := []
    color := ⟨0, 0, 0, 0⟩
    textAlign := .TextAlignLeft
    font := 0 }

/-- Write `child->layout.width`. -/
def setWidth (w : Int) (e : Element) : Element :=
  e.setBase { e.base with layout := { e.base.layout with width := w } }

/-- Write `child->layout.height`. -/
def setHeight (h : Int) (e : Element) : Element :=
  e.setBase { e.base with layout := { e.base.layout with height := h } }

/-- Write `child->layout.x`. -/
def setX (x : Int) (e : Element) : Element :=
  e.setBase { e.base with layout := { e.base.layout with x := x } }

/-- Write `child->layout.y`. -/
def setY (y : Int) (e : Element) : Element :=
  e.setBase { e.base with layout := { e.base.layout with y := y } }

/-! ## The tokenizer -/

/-- The function `isSpace`. -/
def isSpace (ch : Char) : Bool :=
  ch = ' ' || ch = '\t' || ch = '\n' || ch = '\r' || ch = Char.ofNat 11 || ch = Char.ofNat 12

/-- The first inner loop of `splitStringByWhitesp`: skip the whitespace at `p`. -/
def skipSpaces : List Char → List Char
  | [] => []
  | ch :: rest => if isSpace ch then skipSpaces rest else ch :: rest

/-- The second inner loop of `splitStringByWhitesp`: the characters from `start` up to the
next whitespace, and what is left at `p`. -/
def takeWord : List Char → List Char × List Char
  | [] => ([], [])
  | ch :: rest =>
    if isSpace ch then ([], ch :: rest)
    else ((ch :: (takeWord rest).1), (takeWord rest).2)

/-- The outer loop `while (p < end)` of `splitStringByWhitesp`; every round consumes a
character, so `fuel` rounds suffice for `fuel` characters. -/
def splitLoop : Nat → List Char → List String
  | 0, _ => []
  | _, [] => []
  | fuel + 1, ch :: rest =>
    let p := skipSpaces (ch :: rest)
    let w := takeWord p
    if w.1 = [] then splitLoop fuel w.2
    else String.mk w.1 :: splitLoop fuel w.2

/-- The function `splitStringByWhitesp`; the fuel given is enough for the loop to reach the
end of the string (`splitLoop_fuel`). -/
def splitStringByWhitesp (s : String) : List String :=
  splitLoop s.data.length s.data

/-! ## Zeroing pass -/

mutual
/-- The function `initElements`: zero all widths and heights recursively. -/
def initElements : Element → Element
  | .container b c cs =>
    .container { b with layout := { b.layout with width := 0, height := 0 } } c
      (initElementsList cs)
  | .text b t => .text { b with layout := { b.layout with width := 0, height := 0 } } t
  | .polygon b p => .polygon { b with layout := { b.layout with width := 0, height := 0 } } p
/-- The loop of `initElements` over the children. -/
def initElementsList : List Element → List Element
  | [] => []
  | e :: es => initElements e :: initElementsList es
end

/-! ## First pass: width fit sizing -/

/-- The loop `element->layout.width += child->layout.width` over the given child values. -/
def addLoop : List Int → Int → Int
  | [], acc => acc
  | v :: vs, acc => addLoop vs (wrap16 (acc + v))

/-- The loop `maxChild = (std::max)(maxChild, child->layout...)` over the given child
values. -/
def maxLoop : List Int → Int → Int
  | [], acc => acc
  | v :: vs, acc => maxLoop vs (max acc v)

/-- The sum or maximum a container adds to `sumSpace`, over the children's computed values
`vs` (their widths or min widths; their heights or min heights).  `sumDirection` tells
whether the layout direction is the one that adds up; called with at least one child. -/
def fitAggregate (sumDirection : Bool) (gap : Int) (vs : List Int) (sumSpace : Int) : Int :=
  if sumDirection then
    wrap16 (addLoop vs sumSpace + ((vs.length : Int) - 1) * gap)
  else
    wrap16 (sumSpace + maxLoop vs 0)

/-- The value of `sumSpace` in `computeWidthFitSizing`. -/
def sumSpaceWidth (b : BaseElement) : Int :=
  wrap16 (b.paddingLeft + b.paddingRight + b.borderWidth + b.borderWidth)

/-- The container branch of `computeWidthFitSizing` for `layout.width`, the children
already sized. -/
def containerFitWidth (b : BaseElement) (c : ContainerData) (cs : List Element) : Int :=
  if b.width ≥ 0 then b.width
  else if cs.length > 0 then
    fitAggregate (c.layoutDirection = .LayoutRow) c.gap
      (cs.map fun child => child.base.layout.width) (sumSpaceWidth b)
  else sumSpaceWidth b

/-- The container branch of `computeWidthFitSizing` for `layout.minWidth`, the children
already sized. -/
def containerFitMinWidth (b : BaseElement) (c : ContainerData) (cs : List Element) : Int :=
  if b.minWidth ≥ 0 then b.minWidth
  else if cs.length > 0 then
    fitAggregate (c.layoutDirection = .LayoutRow) c.gap
      (cs.map fun child => child.base.layout.minWidth) (sumSpaceWidth b)
  else sumSpaceWidth b

/-- The text branch of `computeWidthFitSizing` for `layout.width`. -/
def textFitWidth (ctx : BaseMeasurementContext) (b : BaseElement) (t : TextData) : Int :=
  if b.width ≥ 0 then b.width
  else wrap16 (sumSpaceWidth b + measureWidth ctx t.text t.font)

/-- The text branch of `computeWidthFitSizing` for `layout.minWidth`: the longest word. -/
def textFitMinWidth (ctx : BaseMeasurementContext) (b : BaseElement) (t : TextData) : Int :=
  if b.minWidth ≥ 0 then b.minWidth
  else
    wrap16 (sumSpaceWidth b +
      maxLoop ((splitStringByWhitesp t.text).map fun word => measureWidth ctx word t.font) 0)

mutual
/-- The function `computeWidthFitSizing`: children first, then the element itself. -/
def computeWidthFitSizing (ctx : BaseMeasurementContext) : Element → Element
  | .container b c cs =>
    let cs1 := computeWidthFitSizingList ctx cs
    .container { b with layout := { b.layout with
        width := containerFitWidth b c cs1, minWidth := containerFitMinWidth b c cs1 } } c cs1
  | .text b t =>
    .text { b with layout := { b.layout with
        width := textFitWidth ctx b t, minWidth := textFitMinWidth ctx b t } } t
  | .polygon b p =>
    .polygon { b with layout := { b.layout with
        width := sumSpaceWidth b, minWidth := sumSpaceWidth b } } p
/-- The loop of `computeWidthFitSizing` over the children. -/
def computeWidthFitSizingList (ctx : BaseMeasurementContext) : List Element → List Element
  | [] => []
  | e :: es => computeWidthFitSizing ctx e :: computeWidthFitSizingList ctx es
end

/-! ## Second pass: grow and shrink the widths -/

/-- The loop `remaining -= child->layout...; if(i < childCount -1) remaining -= gap` over the
given child values. -/
def remainingLoop (gap : Int) : List Int → Int → Int
  | [], acc => acc
  | [v], acc => wrap16 (acc - v)
  | v :: v2 :: vs, acc => remainingLoop gap (v2 :: vs) (wrap16 (wrap16 (acc - v) - gap))

/-- The body of the loop that distributes the remaining space by flex grow: the new size of
a child of size `size`. -/
def flexGrowSize (remaining flexGrowTotal childFlexGrow size : Int) : Int :=
  if flexGrowTotal > 0 ∧ childFlexGrow > 0 then
    wrap16 (size + wrap16 (Int.tdiv (remaining * childFlexGrow) flexGrowTotal))
  else size

/-- The content grow weight `size > minSize ? 1 : 0` of a child. -/
def contentGrow (size minSize : Int) : Int :=
  if size > minSize then 1 else 0

/-- The body of the loop that distributes the remaining space by content grow. -/
def contentGrowSize (remainingMin contentGrowTotal size minSize : Int) : Int :=
  if contentGrowTotal > 0 ∧ contentGrow size minSize > 0 then
    wrap16 (minSize + wrap16 (Int.tdiv (remainingMin * contentGrow size minSize) contentGrowTotal))
  else size

/-- The body of the loop that shrinks the children proportionally; the division is not
guarded, and `none` is the division by zero. -/
def shrinkSize (available totalMin minSize : Int) : Option Int :=
  if totalMin = 0 then none
  else some (wrap16 (Int.tdiv (available * minSize) totalMin))

/-- The body of the cross-axis loop: stretch, or clamp down to the available size.  The
condition is the C++ `a && b || c`. -/
def crossSize (available : Int) (parentAlignItems childAlignSelf : Alignment) (size : Int) :
    Int :=
  if (parentAlignItems = .AlignStretch ∧ childAlignSelf = .AlignAuto) ∨
      childAlignSelf = .AlignStretch then available
  else if available < size then available
  else size

/-- The value of `availableWidth` in `computeWidthsGrowSizing`. -/
def availableWidth (b : BaseElement) : Int :=
  wrap16 (b.layout.width - (b.paddingLeft + b.paddingRight + b.borderWidth + b.borderWidth))

/-- The value of `remainingWidth` of a row after the first loop. -/
def remainingWidth (b : BaseElement) (c : ContainerData) (cs : List Element) : Int :=
  remainingLoop c.gap (cs.map fun child => child.base.layout.width) (availableWidth b)

/-- The value of `remainingMinWidth` of a row after the first loop. -/
def remainingMinWidth (b : BaseElement) (c : ContainerData) (cs : List Element) : Int :=
  remainingLoop c.gap (cs.map fun child => child.base.layout.minWidth) (availableWidth b)

/-- The value of `flexGrowTotal`. -/
def flexGrowTotal (cs : List Element) : Int :=
  addLoop (cs.map fun child => child.base.grow) 0

/-- The value of `contentGrowTotal` in `computeWidthsGrowSizing`. -/
def contentGrowTotalWidth (cs : List Element) : Int :=
  addLoop (cs.map fun child =>
    contentGrow child.base.layout.width child.base.layout.minWidth) 0

/-- The value of `totalMinWidth`. -/
def totalMinWidth (cs : List Element) : Int :=
  addLoop (cs.map fun child => child.base.layout.minWidth) 0

/-- The shrink loop of `computeWidthsGrowSizing` over the children. -/
def shrinkWidths (available totalMin : Int) : List Element → Option (List Element)
  | [] => some []
  | child :: rest =>
    match shrinkSize available totalMin child.base.layout.minWidth with
    | none => none
    | some w =>
      match shrinkWidths available totalMin rest with
      | none => none
      | some rest1 => some (setWidth w child :: rest1)

/-- The part of `computeWidthsGrowSizing` before the recursion: the children of the
container with their new `layout.width`. -/
def distributeWidths (b : BaseElement) (c : ContainerData) (cs : List Element) :
    Option (List Element) :=
  if c.layoutDirection = .LayoutRow then
    if remainingWidth b c cs ≥ 0 then
      some (cs.map fun child =>
        setWidth (flexGrowSize (remainingWidth b c cs) (flexGrowTotal cs) child.base.grow
          child.base.layout.width) child)
    else if remainingMinWidth b c cs ≥ 0 then
      some (cs.map fun child =>
        setWidth (contentGrowSize (remainingMinWidth b c cs) (contentGrowTotalWidth cs)
          child.base.layout.width child.base.layout.minWidth) child)
    else shrinkWidths (availableWidth b) (totalMinWidth cs) cs
  else
    some (cs.map fun child =>
      setWidth (crossSize (availableWidth b) c.alignItems child.base.alignSelf
        child.base.layout.width) child)

mutual
/-- The function `computeWidthsGrowSizing` run on the element `e` whose base fields read `b`:
the loop of the caller has written the new width into the child before it recurs, and the
recursion descends the children of `e` with the bases the distribution gave them.  Only a
container is entered.  The recursion of the source, on the updated children themselves, is
`computeWidthsGrowSizing_unfold`. -/
def widthsGrowFrom (b : BaseElement) : Element → Option Element
  | .container _ c cs =>
    match distributeWidths b c cs with
    | none => none
    | some cs1 =>
      match widthsGrowChildren cs (cs1.map Element.base) with
      | none => none
      | some cs2 => some (.container b c cs2)
  | .text _ t => some (.text b t)
  | .polygon _ p => some (.polygon b p)
/-- The loop `recur on children` of `computeWidthsGrowSizing`; `bs` are the bases of the
children after the distribution. -/
def widthsGrowChildren : List Element → List BaseElement → Option (List Element)
  | [], _ => some []
  | e :: es, bs =>
    match widthsGrowFrom (bs.headD e.base) e with
    | none => none
    | some e1 =>
      match widthsGrowChildren es bs.tail with
      | none => none
      | some es1 => some (e1 :: es1)
end

/-- The function `computeWidthsGrowSizing`. -/
def computeWidthsGrowSizing (parent : Element) : Option Element :=
  widthsGrowFrom parent.base parent

/-! ## Third pass: wrap the text -/

/-- The loop over the words in `computeTextWrapping`; the state is `wrappedText` and
`currentLine` (`currentLineWidth` is written and never read). -/
def wrapLoop (ctx : BaseMeasurementContext) (font : Nat) (availableWidth : Int) :
    List String → List String → String → List String × String
  | [], wrapped, currentLine => (wrapped, currentLine)
  | word :: rest, wrapped, currentLine =>
    let testLine := if currentLine = "" then word else currentLine ++ " " ++ word
    if measureWidth ctx testLine font > availableWidth ∧ currentLine ≠ "" then
      wrapLoop ctx font availableWidth rest (wrapped ++ [currentLine]) word
    else
      wrapLoop ctx font availableWidth rest wrapped testLine

/-- The value of `availableWidth` in `computeTextWrapping`. -/
def textAvailableWidth (b : BaseElement) : Int :=
  wrap16 (b.layout.width - b.paddingLeft - b.paddingRight - b.borderWidth - b.borderWidth)

/-- The wrapped lines `computeTextWrapping` leaves in a text element. -/
def wrapLines (ctx : BaseMeasurementContext) (font : Nat) (availableWidth : Int)
    (words : List String) : List String :=
  let st := wrapLoop ctx font availableWidth words [] ""
  let wrapped := if st.2 ≠ "" then st.1 ++ [st.2] else st.1
  if wrapped = [] ∧ words ≠ [] then wrapped ++ [words.headD ""] else wrapped

mutual
/-- The function `computeTextWrapping`. -/
def computeTextWrapping (ctx : BaseMeasurementContext) : Element → Element
  | .container b c cs => .container b c (computeTextWrappingList ctx cs)
  | .text b t =>
    let lines := wrapLines ctx t.font (textAvailableWidth b) (splitStringByWhitesp t.text)
    .text b { t with wrappedText := lines }
  | .polygon b p => .polygon b p
/-- The loop of `computeTextWrapping` over the children. -/
def computeTextWrappingList (ctx : BaseMeasurementContext) : List Element → List Element
  | [] => []
  | e :: es => computeTextWrapping ctx e :: computeTextWrappingList ctx es
end

/-! ## Fourth pass: height fit sizing -/

/-- The value of `sumSpace` in `computeHeightFitSizing`. -/
def sumSpaceHeight (b : BaseElement) : Int :=
  wrap16 (b.paddingTop + b.paddingBottom + b.borderWidth + b.borderWidth)

/-- The container branch of `computeHeightFitSizing` for `layout.height`; `cs` are the
children as the first loop of the function left them. -/
def containerFitHeight (b : BaseElement) (c : ContainerData) (cs : List Element) : Int :=
  if b.height ≥ 0 then b.height
  else if cs.length > 0 then
    fitAggregate (c.layoutDirection = .LayoutColumn) c.gap
      (cs.map fun child => child.base.layout.height) (sumSpaceHeight b)
  else sumSpaceHeight b

/-- The container branch of `computeHeightFitSizing` for `layout.minHeight`. -/
def containerFitMinHeight (b : BaseElement) (c : ContainerData) (cs : List Element) : Int :=
  if b.minHeight ≥ 0 then b.minHeight
  else if cs.length > 0 then
    fitAggregate (c.layoutDirection = .LayoutColumn) c.gap
      (cs.map fun child => child.base.layout.minHeight) (sumSpaceHeight b)
  else sumSpaceHeight b

/-- The text branch of `computeHeightFitSizing` for `layout.height`: an explicit height is
added to `sumSpace`, otherwise one line height per wrapped line (`lineSpacing` is 1). -/
def textFitHeight (ctx : BaseMeasurementContext) (b : BaseElement) (t : TextData) : Int :=
  if b.height ≥ 0 then wrap16 (sumSpaceHeight b + b.height)
  else
    wrap16 (sumSpaceHeight b +
      addLoop (t.wrappedText.map fun _ => lineHeight ctx 1 t.font) 0)

/-- The text branch of `computeHeightFitSizing` for `layout.minHeight`: an explicit min
height is added to `sumSpace`, otherwise the computed height. -/
def textFitMinHeight (ctx : BaseMeasurementContext) (b : BaseElement) (t : TextData) : Int :=
  if b.minHeight ≥ 0 then wrap16 (sumSpaceHeight b + b.minHeight)
  else textFitHeight ctx b t

/-- The function `computeHeightFitSizing`.  Its first loop calls `computeWidthFitSizing` on
the children (line 457 of the source), so the function does not descend for heights. -/
def computeHeightFitSizing (ctx : BaseMeasurementContext) : Element → Element
  | .container b c cs =>
    let cs1 := computeWidthFitSizingList ctx cs
    .container { b with layout := { b.layout with
        height := containerFitHeight b c cs1, minHeight := containerFitMinHeight b c cs1 } } c cs1
  | .text b t =>
    .text { b with layout := { b.layout with
        height := textFitHeight ctx b t, minHeight := textFitMinHeight ctx b t } } t
  | .polygon b p =>
    .polygon { b with layout := { b.layout with
        height := sumSpaceHeight b, minHeight := sumSpaceHeight b } } p

/-! ## Fifth pass: grow and shrink the heights -/

/-- The value of `availableHeight` in `computeHeightsGrowSizing`. -/
def availableHeight (b : BaseElement) : Int :=
  wrap16 (b.layout.height - (b.paddingTop + b.paddingBottom + b.borderWidth + b.borderWidth))

/-- The value of `remainingHeight` of a column after the first loop. -/
def remainingHeight (b : BaseElement) (c : ContainerData) (cs : List Element) : Int :=
  remainingLoop c.gap (cs.map fun child => child.base.layout.height) (availableHeight b)

/-- The value of `remainingMinHeight` of a column after the first loop. -/
def remainingMinHeight (b : BaseElement) (c : ContainerData) (cs : List Element) : Int :=
  remainingLoop c.gap (cs.map fun child => child.base.layout.minHeight) (availableHeight b)

/-- The value of `contentGrowTotal` in `computeHeightsGrowSizing`. -/
def contentGrowTotalHeight (cs : List Element) : Int :=
  addLoop (cs.map fun child =>
    contentGrow child.base.layout.height child.base.layout.minHeight) 0

/-- The value of `totalMinHeight`. -/
def totalMinHeight (cs : List Element) : Int :=
  addLoop (cs.map fun child => child.base.layout.minHeight) 0

/-- The shrink loop of `computeHeightsGrowSizing` over the children. -/
def shrinkHeights (available totalMin : Int) : List Element → Option (List Element)
  | [] => some []
  | child :: rest =>
    match shrinkSize available totalMin child.base.layout.minHeight with
    | none => none
    | some h =>
      match shrinkHeights available totalMin rest with
      | none => none
      | some rest1 => some (setHeight h child :: rest1)

/-- The part of `computeHeightsGrowSizing` before the recursion: the children of the
container with their new `layout.height`. -/
def distributeHeights (b : BaseElement) (c : ContainerData) (cs : List Element) :
    Option (List Element) :=
  if c.layoutDirection = .LayoutColumn then
    if remainingHeight b c cs ≥ 0 then
      some (cs.map fun child =>
        setHeight (flexGrowSize (remainingHeight b c cs) (flexGrowTotal cs) child.base.grow
          child.base.layout.height) child)
    else if remainingMinHeight b c cs ≥ 0 then
      some (cs.map fun child =>
        setHeight (contentGrowSize (remainingMinHeight b c cs) (contentGrowTotalHeight cs)
          child.base.layout.height child.base.layout.minHeight) child)
    else shrinkHeights (availableHeight b) (totalMinHeight cs) cs
  else
    some (cs.map fun child =>
      setHeight (crossSize (availableHeight b) c.alignItems child.base.alignSelf
        child.base.layout.height) child)

mutual
/-- The function `computeHeightsGrowSizing` run on the element `e` whose base fields read
`b` (see `widthsGrowFrom`); the recursion of the source is `computeHeightsGrowSizing_unfold`. -/
def heightsGrowFrom (b : BaseElement) : Element → Option Element
  | .container _ c cs =>
    match distributeHeights b c cs with
    | none => none
    | some cs1 =>
      match heightsGrowChildren cs (cs1.map Element.base) with
      | none => none
      | some cs2 => some (.container b c cs2)
  | .text _ t => some (.text b t)
  | .polygon _ p => some (.polygon b p)
/-- The loop `recur on children` of `computeHeightsGrowSizing`. -/
def heightsGrowChildren : List Element → List BaseElement → Option (List Element)
  | [], _ => some []
  | e :: es, bs =>
    match heightsGrowFrom (bs.headD e.base) e with
    | none => none
    | some e1 =>
      match heightsGrowChildren es bs.tail with
      | none => none
      | some es1 => some (e1 :: es1)
end

/-- The function `computeHeightsGrowSizing`. -/
def computeHeightsGrowSizing (parent : Element) : Option Element :=
  heightsGrowFrom parent.base parent

/-! ## Sixth pass: position the elements -/

/-- The row loop of `computePositions`: `start` is `x + pl + blw` (or `y + pt + btw`), the
accumulator is `currentHOffset` (or `currentVOffset`), `set` writes the coordinate and
`size` reads the child's width (or height). -/
def positionMain (start gap : Int) (set : Int → Element → Element) (size : Element → Int) :
    List Element → Int → List Element
  | [], _ => []
  | child :: rest, offset =>
    set (wrap16 (start + offset)) child ::
      positionMain start gap set size rest (wrap16 (offset + (size child + gap)))

/-- The coordinate the cross-axis loop of `computePositions` gives a child: `start` is
`x + pl + blw`, `inner` the parent's size less its padding and border on that axis.  The
conditions are the C++ `a && !alignSelf || b`, and `!alignSelf` holds for `AlignStretch`. -/
def crossPosition (start inner : Int) (parentAlignItems childAlignSelf : Alignment)
    (size : Int) : Int :=
  if (parentAlignItems = .AlignCenter ∧ childAlignSelf = .AlignStretch) ∨
      childAlignSelf = .AlignCenter then
    wrap16 (wrap16 start + Int.tdiv (inner - size) 2)
  else if (parentAlignItems = .AlignEnd ∧ childAlignSelf = .AlignStretch) ∨
      childAlignSelf = .AlignEnd then
    wrap16 (wrap16 start + (inner - size))
  else wrap16 start

/-- The horizontal loop of `computePositions` over the children. -/
def positionX (b : BaseElement) (c : ContainerData) (cs : List Element) : List Element :=
  if c.layoutDirection = .LayoutRow then
    positionMain (b.layout.x + b.paddingLeft + b.borderWidth) c.gap setX
      (fun child => child.base.layout.width) cs 0
  else
    cs.map fun child =>
      setX (crossPosition (b.layout.x + b.paddingLeft + b.borderWidth)
        (b.layout.width - b.paddingLeft - b.borderWidth - b.paddingRight - b.borderWidth)
        c.alignItems child.base.alignSelf child.base.layout.width) child

/-- The vertical loop of `computePositions` over the children. -/
def positionY (b : BaseElement) (c : ContainerData) (cs : List Element) : List Element :=
  if c.layoutDirection = .LayoutColumn then
    positionMain (b.layout.y + b.paddingTop + b.borderWidth) c.gap setY
      (fun child => child.base.layout.height) cs 0
  else
    cs.map fun child =>
      setY (crossPosition (b.layout.y + b.paddingTop + b.borderWidth)
        (b.layout.height - b.paddingTop - b.borderWidth - b.paddingBottom - b.borderWidth)
        c.alignItems child.base.alignSelf child.base.layout.height) child

/-- The part of `computePositions` before the recursion: the children of the container with
their new `layout.x` and `layout.y`. -/
def positionChildren (b : BaseElement) (c : ContainerData) (cs : List Element) :
    List Element :=
  positionY b c (positionX b c cs)

mutual
/-- The function `computePositions` run on the element `e` whose base fields read `b` (see
`widthsGrowFrom`); the recursion of the source is `computePositions_unfold`. -/
def positionsFrom (b : BaseElement) : Element → Element
  | .container _ c cs =>
    .container b c (positionsChildren cs ((positionChildren b c cs).map Element.base))
  | .text _ t => .text b t
  | .polygon _ p => .polygon b p
/-- The loop `recur on children` of `computePositions`. -/
def positionsChildren : List Element → List BaseElement → List Element
  | [], _ => []
  | e :: es, bs => positionsFrom (bs.headD e.base) e :: positionsChildren es bs.tail
end

/-- The function `computePositions`. -/
def computePositions (parent : Element) : Element :=
  positionsFrom parent.base parent

/-! ## The entry point -/

/-- The function `layout`; `none` when a pass divides by zero. -/
def layout (ctx : BaseMeasurementContext) (container : Element) : Option Element :=
  let e1 := computeWidthFitSizing ctx (initElements container)
  match computeWidthsGrowSizing e1 with
  | none => none
  | some e2 =>
    let e4 := computeHeightFitSizing ctx (computeTextWrapping ctx e2)
    match computeHeightsGrowSizing e4 with
    | none => none
    | some e5 => some (computePositions e5)

/-! ## What a call of `layout` reads of the tree it is given -/

/-- A choice of computed fields to forget: the computed width, the computed height, the
computed min width, the wrapped lines, the `x` and the `y` of every element but the root, and
the computed min height of the root. -/
structure Mask where
  width : Bool
  height : Bool
  minWidth : Bool
  wrapped : Bool
  positionX : Bool
  positionY : Bool
  rootMinHeight : Bool
deriving DecidableEq

/-- The computed layout with the fields of the mask set to zero; `root` tells whether the
element is the root of the tree. -/
def eraseLayout (m : Mask) (root : Bool) (l : ComputedLayout) : ComputedLayout :=
  { x := if m.positionX && !root then 0 else l.x
    y := if m.positionY && !root then 0 else l.y
    minWidth := if m.minWidth then 0 else l.minWidth
    minHeight := if m.rootMinHeight && root then 0 else l.minHeight
    width := if m.width then 0 else l.width
    height := if m.height then 0 else l.height }

/-- The base fields with the computed layout erased by the mask. -/
def eraseBase (m : Mask) (root : Bool) (b : BaseElement) : BaseElement :=
  { b with layout := eraseLayout m root b.layout }

/-- The text fields with the wrapped lines erased by the mask. -/
def eraseText (m : Mask) (t : TextData) : TextData :=
  { t with wrappedText := if m.wrapped then [] else t.wrappedText }

mutual
/-- The tree with the computed fields of the mask erased everywhere. -/
def erase (m : Mask) (root : Bool) : Element → Element
  | .container b c cs => .container (eraseBase m root b) c (eraseList m cs)
  | .text b t => .text (eraseBase m root b) (eraseText m t)
  | .polygon b p => .polygon (eraseBase m root b) p
/-- The children of a container erased; none of them is the root. -/
def eraseList (m : Mask) : List Element → List Element
  | [] => []
  | e :: es => erase m false e :: eraseList m es
end

/-- The mask of all the fields `layout` computes. -/
def allComputed : Mask := ⟨true, true, true, true, true, true, true⟩

/-- What `layout` reads of a tree: the tree with every field the call computes erased.  The
shape, the style fields and the texts stay, and so do the position of the root and the
computed min heights of the other elements, which no pass writes. -/
def layoutInput (e : Element) : Element := erase allComputed true e

/-! ## Example inputs -/

/-- A measurement capability with 10 pixels per character and lines 12 pixels high. -/
def tenPixelFont : BaseMeasurementContext :=
  ⟨fun s _ => 10 * (s.length : Int), fun _ _ => 12⟩

/-- A child of computed width 10 and grow 1. -/
def growExampleChild : Element :=
  .text { newBaseElement { zeroLayout with width := 10, minWidth := 10 } with grow := 1 }
    (newTextData "")

/-- The base of a row whose computed width is 30. -/
def growExampleBase : BaseElement :=
  newBaseElement { zeroLayout with width := 30 }

/-- The base of a text whose computed width is 50. -/
def wrapExampleBase : BaseElement :=
  newBaseElement { zeroLayout with width := 50 }

/-- A text with the fixed width `w`. -/
def fixedWidthText (w : Int) : Element :=
  .text { newBaseElement zeroLayout with width := w } (newTextData "")

/-- The base of a row with `paddingLeft = 1`, `paddingRight = 2` and `borderWidth = 3`. -/
def fitExampleBase : BaseElement :=
  { newBaseElement zeroLayout with paddingLeft := 1, paddingRight := 2, borderWidth := 3 }

/-- The base of a row at `x = 0` with `paddingLeft = 2` and `borderWidth = 1`. -/
def positionExampleBase : BaseElement :=
  { newBaseElement zeroLayout with paddingLeft := 2, borderWidth := 1 }

/-- A child of computed width 10. -/
def positionExampleChild : Element :=
  .polygon (newBaseElement { zeroLayout with width := 10 }) ⟨[], false, true⟩

/-- A row of explicit width 0 with `paddingLeft = 1` and one polygon child: the available
width is `-1` and the total min width of the children is 0. -/
def shrinkZeroExample : Element :=
  .container { newBaseElement zeroLayout with width := 0, paddingLeft := 1 } newContainerData
    [.polygon (newBaseElement zeroLayout) ⟨[], false, true⟩]

/-- The children of a row: a text and a column holding a text with grow 1. -/
def idempotenceExampleChildren : List Element :=
  [.text (newBaseElement zeroLayout) (newTextData "aa bb cc dd"),
   .container { newBaseElement zeroLayout with grow := 1 }
     { newContainerData with layoutDirection := .LayoutColumn }
     [.text (newBaseElement zeroLayout) (newTextData "x y")]]

/-- A child of computed width 40 and computed min width 30. -/
def shrinkExampleChild : Element :=
  .polygon (newBaseElement { zeroLayout with width := 40, minWidth := 30 }) ⟨[], false, true⟩

/-- The base of a row whose computed width is 50. -/
def shrinkExampleBase : BaseElement :=
  newBaseElement { zeroLayout with width := 50 }

/-- The base of a row whose computed width is 1 with `paddingLeft = 2`: the available
width is `-1`. -/
def negativeShrinkBase : BaseElement :=
  { newBaseElement { zeroLayout with width := 1 } with paddingLeft := 2 }

/-- A child of computed width 1 and computed min width 1. -/
def negativeShrinkChild : Element :=
  .polygon (newBaseElement { zeroLayout with width := 1, minWidth := 1 }) ⟨[], false, true⟩

/-- The fields of a column whose `alignItems` is `AlignCenter`. -/
def centerColumnData : ContainerData :=
  { newContainerData with layoutDirection := .LayoutColumn, alignItems := .AlignCenter }

/-- A child of computed width 10 with the given `alignSelf`. -/
def alignedChild (alignSelf : Alignment) : Element :=
  .polygon { newBaseElement { zeroLayout with width := 10 } with alignSelf := alignSelf }
    ⟨[], false, true⟩

/-- A text with `paddingTop = 3` and the explicit `minHeight = 10`. -/
def minHeightExampleBase : BaseElement :=
  { newBaseElement zeroLayout with paddingTop := 3, minHeight := 10 }

/-- A column with one text child whose wrapped text has two lines. -/
def heightFitExample : Element :=
  .container (newBaseElement zeroLayout)
    { newContainerData with layoutDirection := .LayoutColumn }
    [.text (newBaseElement zeroLayout) { newTextData "aa bb" with wrappedText := ["aa", "bb"] }]

/-- A column with one polygon child whose computed min height reads `v` before the call. -/
def staleMinHeightExample (v : Int) : Element :=
  .container (newBaseElement zeroLayout)
    { newContainerData with layoutDirection := .LayoutColumn }
    [.polygon (newBaseElement { zeroLayout with minHeight := v }) ⟨[], false, true⟩]

/-- A row of explicit width 200 and gap 5 holding a text and a column with grow 1. -/
def growResetExample : Element :=
  .container { newBaseElement zeroLayout with width := 200 } { newContainerData with gap := 5 }
    idempotenceExampleChildren

mutual
/-- The tree with the computed layout record and the wrapped text of every node blanked:
what stays is the shape of the tree, the element types, the order of the children and every
style field. -/
def styleInputs : Element → Element
  | .container b c cs => .container { b with layout := zeroLayout } c (styleInputsList cs)
  | .text b t => .text { b with layout := zeroLayout } { t with wrappedText := [] }
  | .polygon b p => .polygon { b with layout := zeroLayout } p
/-- The children of a container with their outputs blanked. -/
def styleInputsList : List Element → List Element
  | [] => []
  | e :: es => styleInputs e :: styleInputsList es
end

mutual
/-- The nodes of a tree in the order of a depth-first walk, every node with its subtree. -/
def nodes : Element → List Element
  | .container b c cs => .container b c cs :: nodesList cs
  | .text b t => [.text b t]
  | .polygon b p => [.polygon b p]
/-- The nodes of the trees of a list. -/
def nodesList : List Element → List Element
  | [] => []
  | e :: es => nodes e ++ nodesList es
end

/-- What `layout` produces: the computed layout record and the wrapped text of every node,
in the order of `nodes`. -/
def outputs (e : Element) : List (ComputedLayout × List String) :=
  (nodes e).map fun n => (n.base.layout, n.wrappedText)

/-- A style dimension with every negative value, so each of the sentinels `LengthAuto`,
`LengthNone` and `LengthFull`, replaced by `LengthAuto`. -/
def normalizeLength (v : Int) : Int := if v < 0 then LengthAuto else v

/-- The base fields with the six style dimensions normalized. -/
def normalizeBase (b : BaseElement) : BaseElement :=
  { b with
    width := normalizeLength b.width
    height := normalizeLength b.height
    maxWidth := normalizeLength b.maxWidth
    maxHeight := normalizeLength b.maxHeight
    minWidth := normalizeLength b.minWidth
    minHeight := normalizeLength b.minHeight }

mutual
/-- The tree with the style dimensions of every node normalized: two trees have the same
image exactly when they differ only in which negative value a style dimension holds. -/
def normalizeSentinels : Element → Element
  | .container b c cs => .container (normalizeBase b) c (normalizeSentinelsList cs)
  | .text b t => .text (normalizeBase b) t
  | .polygon b p => .polygon (normalizeBase b) p
/-- The children of a container normalized. -/
def normalizeSentinelsList : List Element → List Element
  | [] => []
  | e :: es => normalizeSentinels e :: normalizeSentinelsList es
end

/-- The base fields of a row with an explicit width, the other style dimensions left at the
sentinels `a` and `b`. -/
def sentinelExampleBase (a b : Int) : BaseElement :=
  { newBaseElement zeroLayout with
    width := 60
    height := a
    minWidth := b
    maxWidth := a
    minHeight := b }

/-- The base fields of a text with the style dimensions left at the sentinels `a` and `b`. -/
def sentinelExampleChild (a b : Int) : BaseElement :=
  { newBaseElement zeroLayout with
    width := a
    height := b
    minWidth := b
    maxHeight := a
    minHeight := a
    grow := 1 }

/-- A row with an explicit width and two texts, the style dimensions left at the sentinels
`a` and `b`. -/
def sentinelExample (a b : Int) : Element :=
  .container (sentinelExampleBase a b) { newContainerData with gap := 5 }
    [.text (sentinelExampleChild a b) (newTextData "aa bb cc dd"),
     .text (sentinelExampleChild b a) (newTextData "x y")]

/-- The computed width and min width of every node, in the order of `nodes`. -/
def widthProfile (e : Element) : List (Int × Int) :=
  (nodes e).map fun n => (n.base.layout.width, n.base.layout.minWidth)

/-- The sum `computeWidthFitSizing` stores in `layout.width` of an element without an explicit
width, before the store reduces it to 16 bits.  The children of a container are read as
the pass has sized them. -/
def exactFitWidth (ctx : BaseMeasurementContext) : Element → Int
  | .container b c cs =>
    b.paddingLeft + b.paddingRight + b.borderWidth + b.borderWidth +
      (if cs.length > 0 then
        if c.layoutDirection = .LayoutRow then
          (cs.map fun child => child.base.layout.width).sum + ((cs.length : Int) - 1) * c.gap
        else maxLoop (cs.map fun child => child.base.layout.width) 0
      else 0)
  | .text b t =>
    b.paddingLeft + b.paddingRight + b.borderWidth + b.borderWidth +
      measureWidth ctx t.text t.font
  | .polygon b _ => b.paddingLeft + b.paddingRight + b.borderWidth + b.borderWidth

/-- The sum `computeWidthFitSizing` stores in `layout.minWidth` of an element without an
explicit min width, before the store reduces it to 16 bits. -/
def exactFitMinWidth (ctx : BaseMeasurementContext) : Element → Int
  | .container b c cs =>
    b.paddingLeft + b.paddingRight + b.borderWidth + b.borderWidth +
      (if cs.length > 0 then
        if c.layoutDirection = .LayoutRow then
          (cs.map fun child => child.base.layout.minWidth).sum +
            ((cs.length : Int) - 1) * c.gap
        else maxLoop (cs.map fun child => child.base.layout.minWidth) 0
      else 0)
  | .text b t =>
    b.paddingLeft + b.paddingRight + b.borderWidth + b.borderWidth +
      maxLoop ((splitStringByWhitesp t.text).map fun word => measureWidth ctx word t.font) 0
  | .polygon b _ => b.paddingLeft + b.paddingRight + b.borderWidth + b.borderWidth

/-- The measured width of a text element is not negative and no word of the text is
measured wider than the whole text; nothing is asked of the other elements. -/
def wordsFit (ctx : BaseMeasurementContext) : Element → Prop
  | .text _ t =>
    0 ≤ measureWidth ctx t.text t.font ∧
      ∀ word ∈ splitStringByWhitesp t.text,
        measureWidth ctx word t.font ≤ measureWidth ctx t.text t.font
  | _ => True

instance (ctx : BaseMeasurementContext) (e : Element) : Decidable (wordsFit ctx e) := by
  cases e <;> unfold wordsFit <;> infer_instance

/-- A row of explicit width 100 holding the text "aaaa" with the explicit width 10. -/
def explicitTextExample : Element :=
  .container { newBaseElement zeroLayout with width := 100 } newContainerData
    [.text { newBaseElement zeroLayout with width := 10 } (newTextData "aaaa")]

/-- A row with gap 5 and no explicit size holding a text and a column with grow 1. -/
def autoExample : Element :=
  .container (newBaseElement zeroLayout) { newContainerData with gap := 5 }
    idempotenceExampleChildren

/-- A measurement capability that answers `-1` for every text and 12 for every line. -/
def errorFont : BaseMeasurementContext :=
  ⟨fun _ _ => -1, fun _ _ => 12⟩

/-- A column with `paddingLeft = 3`, gap 7 and two polygon children with `paddingLeft` 10 and
`paddingRight` 25. -/
def columnFitExample : Element :=
  .container { newBaseElement zeroLayout with paddingLeft := 3 }
    { newContainerData with layoutDirection := .LayoutColumn, gap := 7 }
    [.polygon { newBaseElement zeroLayout with paddingLeft := 10 } ⟨[], false, true⟩,
     .polygon { newBaseElement zeroLayout with paddingRight := 25 } ⟨[], false, true⟩]

/-- A row that holds the text "a", with no explicit size, padding, border or gap. -/
def oneWordExample : Element :=
  .container (newBaseElement zeroLayout) newContainerData
    [.text (newBaseElement zeroLayout) (newTextData "a")]

/-- The maximal runs of non-whitespace characters of a list of characters, in order: the
list is cut at every whitespace character and the empty pieces are dropped. -/
def maximalRuns (l : List Char) : List (List Char) :=
  (l.splitOnP isSpace).filter fun run => !run.isEmpty

/-- The number of children whose computed width is greater than their computed min width:
the children the content grow branch of `computeWidthsGrowSizing` gives space to. -/
def contentGrowCount (cs : List Element) : Nat :=
  cs.countP fun child => decide (child.base.layout.width > child.base.layout.minWidth)

/-- A child of computed width 30 and computed min width 30. -/
def tightExampleChild : Element :=
  .polygon (newBaseElement { zeroLayout with width := 30, minWidth := 30 }) ⟨[], false, true⟩

/-- A child of computed width 40 and computed min width 10. -/
def looseExampleChild : Element :=
  .polygon (newBaseElement { zeroLayout with width := 40, minWidth := 10 }) ⟨[], false, true⟩

/-- The base of a row at `x = 4` of computed width 40 with `paddingLeft = 2`,
`paddingRight = 3` and `borderWidth = 1`: the content box is from 7 to 40. -/
def insideExampleBase : BaseElement :=
  { newBaseElement { zeroLayout with x := 4, width := 40 } with
    paddingLeft := 2
    paddingRight := 3
    borderWidth := 1 }

/-- The transposition of a computed layout record: `width` is swapped with `height` and
`minWidth` with `minHeight`. -/
def transposeLayout (l : ComputedLayout) : ComputedLayout :=
  { l with
    width := l.height
    height := l.width
    minWidth := l.minHeight
    minHeight := l.minWidth }

/-- The transposition of the base fields: `width` is swapped with `height` and `minWidth`
with `minHeight` in the style and in the computed layout, `paddingLeft` with `paddingTop` and
`paddingRight` with `paddingBottom`; `grow`, `alignSelf` and the rest stay. -/
def transposeBase (b : BaseElement) : BaseElement :=
  { b with
    layout := transposeLayout b.layout
    width := b.height
    height := b.width
    minWidth := b.minHeight
    minHeight := b.minWidth
    paddingLeft := b.paddingTop
    paddingTop := b.paddingLeft
    paddingRight := b.paddingBottom
    paddingBottom := b.paddingRight }

/-- Row is swapped with column. -/
def transposeDirection : LayoutDirection → LayoutDirection
  | .LayoutRow => .LayoutColumn
  | .LayoutColumn => .LayoutRow

/-- The container fields with the direction swapped; `gap` and `alignItems` stay. -/
def transposeData (c : ContainerData) : ContainerData :=
  { c with layoutDirection := transposeDirection c.layoutDirection }

mutual
/-- The transposition of a tree: every node transposed. -/
def transpose : Element → Element
  | .container b c cs => .container (transposeBase b) (transposeData c) (transposeList cs)
  | .text b t => .text (transposeBase b) t
  | .polygon b p => .polygon (transposeBase b) p
/-- The children of a container transposed. -/
def transposeList : List Element → List Element
  | [] => []
  | e :: es => transpose e :: transposeList es
end

/-- A column of computed height 100 with gap 5 holding a row with grow 1 and a polygon with
grow 3, both of computed height 10; the row holds a polygon of computed height 50. -/
def transposeExample : Element :=
  .container (newBaseElement { zeroLayout with height := 100 })
    { newContainerData with layoutDirection := .LayoutColumn, gap := 5 }
    [.container { newBaseElement { zeroLayout with height := 10 } with grow := 1 }
        newContainerData
        [.polygon (newBaseElement { zeroLayout with height := 50 }) ⟨[], false, true⟩],
     .polygon { newBaseElement { zeroLayout with height := 10 } with grow := 3 }
        ⟨[], false, true⟩]

/-- What the amended leaf containment asks of a container or text as width fit sizing leaves
it.  An explicit min width is at most the width of the node.  Without an explicit min width,
the sum the pass stores as the min width (`exactFitMinWidth`: padding, border and the total
min width of the children, or the widest word of a text) fits 16 bits and, when the width is
explicit, is at most that width, which says that the total min width is at most the
available width.  With neither explicit, the sum stored as the width fits 16 bits and a text
is measured as `wordsFit` asks. -/
def sizeCovered (ctx : BaseMeasurementContext) (n : Element) : Prop :=
  (n.base.minWidth ≥ 0 → n.base.minWidth ≤ n.base.layout.width) ∧
  (n.base.minWidth < 0 →
    inInt16 (exactFitMinWidth ctx n) ∧
    (n.base.width ≥ 0 → exactFitMinWidth ctx n ≤ n.base.width) ∧
    (n.base.width < 0 → inInt16 (exactFitWidth ctx n) ∧ wordsFit ctx n))

instance (ctx : BaseMeasurementContext) (n : Element) : Decidable (sizeCovered ctx n) := by
  unfold sizeCovered; infer_instance

/-- The premise of the amended leaf containment at a node: `sizeCovered` for a container and
for a text, nothing for a polygon (the pass gives it the same width and min width). -/
def widthCovered (ctx : BaseMeasurementContext) : Element → Prop
  | .container b c cs => sizeCovered ctx (.container b c cs)
  | .text b t => sizeCovered ctx (.text b t)
  | .polygon _ _ => True

instance (ctx : BaseMeasurementContext) (e : Element) : Decidable (widthCovered ctx e) := by
  cases e <;> unfold widthCovered <;> infer_instance

/-- A row of explicit width 100 and explicit min width 500 holding a polygon. -/
def explicitMinExample : Element :=
  .container
    { newBaseElement zeroLayout with
      width := 100
      minWidth := 500 }
    newContainerData [.polygon (newBaseElement zeroLayout) ⟨[], false, true⟩]

/-- A measurement capability with 10 pixels per character that answers 0 for a text of more
than three characters. -/
def shortFont : BaseMeasurementContext :=
  ⟨fun s _ => if s.length > 3 then 0 else 10 * (s.length : Int), fun _ _ => 12⟩

/-- A row of explicit width 100 holding the text "aa bb". -/
def twoWordExample : Element :=
  .container { newBaseElement zeroLayout with width := 100 } newContainerData
    [.text (newBaseElement zeroLayout) (newTextData "aa bb")]

/-- The base of a row at `x = 32760` of computed width 30 with `paddingLeft = 10`. -/
def edgeExampleBase : BaseElement :=
  { newBaseElement { zeroLayout with x := 32760, width := 30 } with paddingLeft := 10 }

/-- The base of a row whose computed width is 100. -/
def wideMinExampleBase : BaseElement :=
  newBaseElement { zeroLayout with width := 100 }

/-- A child of computed width 30000 and computed min width 30000. -/
def wideMinExampleChild : Element :=
  .polygon (newBaseElement { zeroLayout with width := 30000, minWidth := 30000 })
    ⟨[], false, true⟩

/-! # Theorems -/

/-! ## Arithmetic of `int16_t` -/

theorem wrap16_of_inInt16 {v : Int} (h : inInt16 v) : wrap16 v = v := by
  unfold inInt16 at h
  unfold wrap16
  omega

theorem inInt16_wrap16 (v : Int) : inInt16 (wrap16 v) := by
  unfold inInt16 wrap16
  omega

theorem wrap16_idem (v : Int) : wrap16 (wrap16 v) = wrap16 v :=
  wrap16_of_inInt16 (inInt16_wrap16 v)

theorem wrap16_add_left (a b : Int) : wrap16 (wrap16 a + b) = wrap16 (a + b) := by
  unfold wrap16
  omega

theorem wrap16_add_right (a b : Int) : wrap16 (a + wrap16 b) = wrap16 (a + b) := by
  unfold wrap16
  omega

theorem wrap16_sub_left (a b : Int) : wrap16 (wrap16 a - b) = wrap16 (a - b) := by
  unfold wrap16
  omega

theorem wrap16_sub_right (a b : Int) : wrap16 (a - wrap16 b) = wrap16 (a - b) := by
  unfold wrap16
  omega

/-- The loop that adds up wraps at every step, and ends on the wrapped exact sum. -/
theorem wrap16_addLoop (vs : List Int) (acc : Int) :
    wrap16 (addLoop vs acc) = wrap16 (acc + vs.sum) := by
  induction vs generalizing acc with
  | nil => simp [addLoop]
  | cons v vs ih =>
    simp only [addLoop, List.sum_cons]
    rw [ih, wrap16_add_left, add_assoc]

theorem addLoop_cons (v : Int) (vs : List Int) (acc : Int) :
    addLoop (v :: vs) acc = wrap16 (acc + (v :: vs).sum) := by
  induction vs generalizing acc v with
  | nil => simp [addLoop]
  | cons u us ih =>
    have h := ih u (wrap16 (acc + v))
    simp only [addLoop] at h ⊢
    rw [h, wrap16_add_left]
    simp only [List.sum_cons]
    congr 1
    ring

theorem addLoop_of_inInt16 (vs : List Int) (acc : Int) (hacc : inInt16 acc) :
    addLoop vs acc = wrap16 (acc + vs.sum) := by
  cases vs with
  | nil => simp [addLoop, wrap16_of_inInt16 hacc]
  | cons v vs => exact addLoop_cons v vs acc

theorem remainingLoop_cons (gap v : Int) (vs : List Int) (acc : Int) :
    remainingLoop gap (v :: vs) acc = wrap16 (acc - (v :: vs).sum - gap * (vs.length : Int)) := by
  induction vs generalizing acc v with
  | nil => simp [remainingLoop]
  | cons u us ih =>
    have h := ih u (wrap16 (wrap16 (acc - v) - gap))
    simp only [remainingLoop] at h ⊢
    rw [h]
    simp only [List.sum_cons, List.length_cons, Nat.cast_add, Nat.cast_one]
    have e : gap * ((us.length : Int) + 1) = gap * (us.length : Int) + gap := by ring
    rw [e]
    generalize us.sum = s
    generalize gap * (us.length : Int) = t
    unfold wrap16
    omega

/-- The loop that subtracts the children and the gaps between them ends on the wrapped exact
difference. -/
theorem remainingLoop_of_inInt16 (gap : Int) (vs : List Int) (acc : Int) (hacc : inInt16 acc) :
    remainingLoop gap vs acc =
      wrap16 (acc - vs.sum - gap * ((vs.length - 1 : Nat) : Int)) := by
  cases vs with
  | nil => simp [remainingLoop, wrap16_of_inInt16 hacc]
  | cons v vs =>
    rw [remainingLoop_cons]
    simp

theorem maxLoop_eq (vs : List Int) (acc : Int) :
    maxLoop vs acc = vs.foldl max acc := by
  induction vs generalizing acc with
  | nil => rfl
  | cons v vs ih => simp [maxLoop, ih]

/-! ## Accessors -/

@[simp] theorem base_container (b : BaseElement) (c : ContainerData) (cs : List Element) :
    (Element.container b c cs).base = b := rfl

@[simp] theorem base_text (b : BaseElement) (t : TextData) : (Element.text b t).base = b := rfl

@[simp] theorem base_polygon (b : BaseElement) (p : PolygonData) :
    (Element.polygon b p).base = b := rfl

@[simp] theorem children_container (b : BaseElement) (c : ContainerData) (cs : List Element) :
    (Element.container b c cs).children = cs := rfl

@[simp] theorem base_setBase (b : BaseElement) (e : Element) : (e.setBase b).base = b := by
  cases e <;> rfl

@[simp] theorem children_setBase (b : BaseElement) (e : Element) :
    (e.setBase b).children = e.children := by
  cases e <;> rfl

@[simp] theorem setBase_base (e : Element) : e.setBase e.base = e := by
  cases e <;> rfl

@[simp] theorem setBase_setBase (b b2 : BaseElement) (e : Element) :
    (e.setBase b).setBase b2 = e.setBase b2 := by
  cases e <;> rfl

@[simp] theorem setWidth_layout_width (w : Int) (e : Element) :
    (setWidth w e).base.layout.width = w := by
  simp [setWidth]

@[simp] theorem setWidth_setBase (w : Int) (e : Element) :
    (setWidth w e).setBase e.base = e := by
  cases e <;> rfl

theorem setWidth_self (e : Element) : setWidth e.base.layout.width e = e := by
  cases e <;> rfl

/-! ## Shape of the grow pass -/

theorem widthsGrowFrom_base {b : BaseElement} {e r : Element}
    (h : widthsGrowFrom b e = some r) : r.base = b := by
  cases e with
  | container b0 c cs =>
    rw [widthsGrowFrom] at h
    split at h
    · exact absurd h (by simp)
    · split at h
      · exact absurd h (by simp)
      · cases h; rfl
  | text b0 t => rw [widthsGrowFrom] at h; cases h; rfl
  | polygon b0 p => rw [widthsGrowFrom] at h; cases h; rfl

theorem widthsGrowChildren_bases (cs : List Element) :
    ∀ (bs : List BaseElement) (cs2 : List Element), bs.length = cs.length →
      widthsGrowChildren cs bs = some cs2 → cs2.map Element.base = bs := by
  induction cs with
  | nil =>
    intro bs cs2 hlen h
    rw [widthsGrowChildren] at h
    cases h
    simpa using hlen
  | cons e es ih =>
    intro bs cs2 hlen h
    cases bs with
    | nil => simp at hlen
    | cons b0 bs =>
      rw [widthsGrowChildren] at h
      split at h
      · exact absurd h (by simp)
      · rename_i e1 he1
        split at h
        · exact absurd h (by simp)
        · rename_i es1 hes1
          cases h
          simp only [List.headD_cons] at he1
          simp only [List.tail_cons] at hes1
          simp only [List.map_cons, widthsGrowFrom_base he1,
            ih bs es1 (by simpa using hlen) hes1]

theorem shrinkWidths_eq {available totalMin : Int} (cs : List Element) :
    shrinkWidths available totalMin cs =
      if 0 < cs.length ∧ totalMin = 0 then none
      else some (cs.map fun child =>
        setWidth (wrap16 (Int.tdiv (available * child.base.layout.minWidth) totalMin)) child) := by
  induction cs with
  | nil => simp [shrinkWidths]
  | cons e es ih =>
    rw [shrinkWidths, ih]
    by_cases h0 : totalMin = 0
    · simp [shrinkSize, h0]
    · simp [shrinkSize, h0]

/-- The distribution step changes nothing but the computed width of each child. -/
theorem distributeWidths_setBase {b : BaseElement} {c : ContainerData} {cs cs1 : List Element}
    (h : distributeWidths b c cs = some cs1) :
    List.Forall₂ (fun child child1 => child1.setBase child.base = child) cs cs1 := by
  have key : ∀ (f : Element → Int),
      List.Forall₂ (fun child child1 => child1.setBase child.base = child) cs
        (cs.map fun child => setWidth (f child) child) := by
    intro f
    rw [List.forall₂_map_right_iff]
    exact List.forall₂_same.mpr (fun x _ => setWidth_setBase _ x)
  unfold distributeWidths at h
  split at h
  · split at h
    · cases h; exact key _
    · split at h
      · cases h; exact key _
      · rw [shrinkWidths_eq] at h
        split at h
        · exact absurd h (by simp)
        · cases h; exact key _
  · cases h; exact key _

theorem distributeWidths_length {b : BaseElement} {c : ContainerData} {cs cs1 : List Element}
    (h : distributeWidths b c cs = some cs1) : cs1.length = cs.length :=
  (List.Forall₂.length_eq (distributeWidths_setBase h)).symm

/-- What `computeWidthsGrowSizing` returns for a container: the children keep the base
fields the distribution step gave them. -/
theorem computeWidthsGrowSizing_container {b : BaseElement} {c : ContainerData}
    {cs : List Element} {r : Element}
    (h : computeWidthsGrowSizing (.container b c cs) = some r) :
    ∃ cs1 cs2, distributeWidths b c cs = some cs1 ∧ r = .container b c cs2 ∧
      cs2.map Element.base = cs1.map Element.base := by
  unfold computeWidthsGrowSizing at h
  simp only [Element.base] at h
  rw [widthsGrowFrom] at h
  split at h
  · exact absurd h (by simp)
  · rename_i cs1 hcs1
    split at h
    · exact absurd h (by simp)
    · rename_i cs2 hcs2
      cases h
      refine ⟨cs1, cs2, hcs1, rfl, ?_⟩
      exact widthsGrowChildren_bases cs _ cs2
        (by simp [distributeWidths_length hcs1]) hcs2

theorem floor_div_eq_ediv (a b : Int) (hb : 0 < b) : ⌊(a : ℚ) / (b : ℚ)⌋ = a / b := by
  lift b to ℕ using hb.le
  exact_mod_cast Rat.floor_intCast_div_natCast a b

theorem tdiv_eq_floor (a b : Int) (ha : 0 ≤ a) (hb : 0 < b) :
    Int.tdiv a b = ⌊(a : ℚ) / (b : ℚ)⌋ := by
  rw [floor_div_eq_ediv a b hb, Int.tdiv_eq_ediv ha hb.le]

/-- A relation between the children and their bases after a pass, from a pointwise fact. -/
theorem forall₂_of_map_base {P : Element → BaseElement → Prop} {f : Element → Element}
    (cs : List Element) :
    ∀ (cs2 : List Element), cs2.map Element.base = (cs.map f).map Element.base →
      (∀ child ∈ cs, P child (f child).base) →
      List.Forall₂ (fun child child1 => P child child1.base) cs cs2 := by
  induction cs with
  | nil =>
    intro cs2 h _
    have : cs2 = [] := by simpa using h
    subst this
    exact List.Forall₂.nil
  | cons e es ih =>
    intro cs2 h hp
    cases cs2 with
    | nil => simp at h
    | cons e2 es2 =>
      simp only [List.map_cons, List.cons.injEq] at h
      refine List.Forall₂.cons ?_ (ih es2 h.2 (fun child hc => hp child (List.mem_cons_of_mem _ hc)))
      rw [h.1]
      exact hp e (List.mem_cons_self _ _)

theorem distributeWidths_grow {b : BaseElement} {c : ContainerData} {cs : List Element}
    (hrow : c.layoutDirection = .LayoutRow) (hrem : 0 ≤ remainingWidth b c cs) :
    distributeWidths b c cs = some (cs.map fun child =>
        setWidth (flexGrowSize (remainingWidth b c cs) (flexGrowTotal cs) child.base.grow
          child.base.layout.width) child) := by
  unfold distributeWidths
  rw [if_pos hrow, if_pos hrem]

/-- C3 (grow share formula): in a row whose `remainingWidth` is not negative, the division of
the pass at this container is guarded, and whenever the pass returns, a child with positive
grow under a positive `flexGrowTotal` has its width increased by
`floor(remainingWidth * childGrow / flexGrowTotal)` (in 16-bit arithmetic, and exactly when
the sum fits 16 bits), a child with grow 0 keeps its width, and no width changes when
`flexGrowTotal` is 0. -/
theorem grow_share_formula (b : BaseElement) (c : ContainerData) (cs : List Element)
    (hrow : c.layoutDirection = .LayoutRow) (hrem : 0 ≤ remainingWidth b c cs) :
    (distributeWidths b c cs).isSome = true ∧
    ∀ r, computeWidthsGrowSizing (.container b c cs) = some r →
      List.Forall₂ (fun child child1 =>
        (0 < flexGrowTotal cs → 0 < child.base.grow →
          child1.base.layout.width = wrap16 (child.base.layout.width +
            ⌊((remainingWidth b c cs * child.base.grow : Int) : ℚ) / (flexGrowTotal cs : ℚ)⌋) ∧
          (inInt16 (child.base.layout.width +
            ⌊((remainingWidth b c cs * child.base.grow : Int) : ℚ) / (flexGrowTotal cs : ℚ)⌋) →
            child1.base.layout.width = child.base.layout.width +
            ⌊((remainingWidth b c cs * child.base.grow : Int) : ℚ) / (flexGrowTotal cs : ℚ)⌋)) ∧
        (child.base.grow = 0 → child1.base.layout.width = child.base.layout.width) ∧
        (flexGrowTotal cs = 0 → child1.base.layout.width = child.base.layout.width))
        cs r.children := by
  refine ⟨by rw [distributeWidths_grow hrow hrem]; rfl, ?_⟩
  intro r hr
  obtain ⟨cs1, cs2, h1, rfl, h2⟩ := computeWidthsGrowSizing_container hr
  rw [distributeWidths_grow hrow hrem] at h1
  cases h1
  refine forall₂_of_map_base
    (P := fun child b1 =>
      (0 < flexGrowTotal cs → 0 < child.base.grow →
          b1.layout.width = wrap16 (child.base.layout.width +
            ⌊((remainingWidth b c cs * child.base.grow : Int) : ℚ) / (flexGrowTotal cs : ℚ)⌋) ∧
          (inInt16 (child.base.layout.width +
            ⌊((remainingWidth b c cs * child.base.grow : Int) : ℚ) / (flexGrowTotal cs : ℚ)⌋) →
            b1.layout.width = child.base.layout.width +
            ⌊((remainingWidth b c cs * child.base.grow : Int) : ℚ) / (flexGrowTotal cs : ℚ)⌋)) ∧
        (child.base.grow = 0 → b1.layout.width = child.base.layout.width) ∧
        (flexGrowTotal cs = 0 → b1.layout.width = child.base.layout.width))
    cs cs2 h2 ?_
  intro child _
  simp only [setWidth_layout_width]
  refine ⟨fun hG hg => ?_, fun hg => ?_, fun hG => ?_⟩
  · have hw : flexGrowSize (remainingWidth b c cs) (flexGrowTotal cs) child.base.grow
        child.base.layout.width = wrap16 (child.base.layout.width +
          ⌊((remainingWidth b c cs * child.base.grow : Int) : ℚ) / (flexGrowTotal cs : ℚ)⌋) := by
      unfold flexGrowSize
      rw [if_pos ⟨hG, hg⟩, wrap16_add_right,
        tdiv_eq_floor _ _ (mul_nonneg hrem hg.le) hG]
    exact ⟨hw, fun hin => by rw [hw, wrap16_of_inInt16 hin]⟩
  · unfold flexGrowSize
    rw [if_neg (by omega)]
  · unfold flexGrowSize
    rw [if_neg (by omega)]

/-- The floors of the shares `R * g / G` add up to at most `R * Σ g / G`, and miss it by less
than one per unit of weight. -/
theorem share_sum_bounds (R G : Int) (hG : 0 < G) (gs : List Int)
    (hg : ∀ g ∈ gs, 0 ≤ g) :
    G * (gs.map fun g => R * g / G).sum ≤ R * gs.sum ∧
      R * gs.sum - G * (gs.map fun g => R * g / G).sum ≤ (G - 1) * gs.sum := by
  induction gs with
  | nil => simp
  | cons g gs ih =>
    have hg0 : 0 ≤ g := hg g (List.mem_cons_self _ _)
    obtain ⟨ih1, ih2⟩ := ih (fun x hx => hg x (List.mem_cons_of_mem _ hx))
    simp only [List.map_cons, List.sum_cons]
    have e : G * (R * g / G) + (R * g) % G = R * g := Int.ediv_add_emod (R * g) G
    have m0 : 0 ≤ (R * g) % G := Int.emod_nonneg _ hG.ne'
    have m1 : (R * g) % G < G := Int.emod_lt_of_pos _ hG
    have m2 : (R * g) % G ≤ (G - 1) * g := by
      rcases hg0.eq_or_lt with h | h
      · rw [← h]; simp
      · have : (G - 1) * 1 ≤ (G - 1) * g := by
          apply mul_le_mul_of_nonneg_left (by omega) (by omega)
        omega
    constructor
    · rw [mul_add, mul_add]; omega
    · rw [mul_add, mul_add, mul_add]; omega

theorem share_sum_exact (R G : Int) (gs : List Int)
    (hd : ∀ g ∈ gs, G ∣ R * g) :
    G * (gs.map fun g => R * g / G).sum = R * gs.sum := by
  induction gs with
  | nil => simp
  | cons g gs ih =>
    simp only [List.map_cons, List.sum_cons, mul_add]
    rw [ih (fun x hx => hd x (List.mem_cons_of_mem _ hx)),
      Int.mul_ediv_cancel' (hd g (List.mem_cons_self _ _))]

/-- C2 (sum law for row grow): in a row whose exact remaining width
`availableWidth - Σ child.width - gap * (n - 1)` is not negative, whose children have grow
`≥ 0` with a positive total, and where the remaining width, the total grow and every grown
width fit 16 bits, the division at this container is guarded, and whenever the pass returns,
the unconsumed space `availableWidth - (Σ child.width + gap * (n - 1))` after the pass lies
between `0` and `totalGrow - 1`, and is `0` when `totalGrow` divides every product
`remainingWidth * childGrow`. -/
theorem row_grow_sum_law (b : BaseElement) (c : ContainerData) (cs : List Element)
    (hrow : c.layoutDirection = .LayoutRow)
    (hrem : 0 ≤ availableWidth b - (cs.map fun child => child.base.layout.width).sum -
      c.gap * ((cs.length : Int) - 1))
    (hremfit : inInt16 (availableWidth b - (cs.map fun child => child.base.layout.width).sum -
      c.gap * ((cs.length : Int) - 1)))
    (hgrow : ∀ child ∈ cs, 0 ≤ child.base.grow)
    (htotal : 0 < (cs.map fun child => child.base.grow).sum)
    (htotalfit : inInt16 (cs.map fun child => child.base.grow).sum)
    (hnewfit : ∀ child ∈ cs, inInt16 (child.base.layout.width +
      (availableWidth b - (cs.map fun child => child.base.layout.width).sum -
        c.gap * ((cs.length : Int) - 1)) * child.base.grow /
        (cs.map fun child => child.base.grow).sum)) :
    (distributeWidths b c cs).isSome = true ∧
    ∀ r, computeWidthsGrowSizing (.container b c cs) = some r →
      0 ≤ availableWidth b - ((r.children.map fun child => child.base.layout.width).sum +
          c.gap * ((r.children.length : Int) - 1)) ∧
      availableWidth b - ((r.children.map fun child => child.base.layout.width).sum +
          c.gap * ((r.children.length : Int) - 1)) ≤
        (cs.map fun child => child.base.grow).sum - 1 ∧
      ((∀ child ∈ cs, (cs.map fun child => child.base.grow).sum ∣
          (availableWidth b - (cs.map fun child => child.base.layout.width).sum -
            c.gap * ((cs.length : Int) - 1)) * child.base.grow) →
        availableWidth b - ((r.children.map fun child => child.base.layout.width).sum +
          c.gap * ((r.children.length : Int) - 1)) = 0) := by
  -- the exact quantities
  generalize hR : availableWidth b - (cs.map fun child => child.base.layout.width).sum -
      c.gap * ((cs.length : Int) - 1) = R at hrem hremfit hnewfit ⊢
  generalize hG : (cs.map fun child => child.base.grow).sum = G at htotal htotalfit hnewfit ⊢
  have hne : cs ≠ [] := by
    rintro rfl
    simp at hG
    omega
  have hlen : ((cs.length - 1 : Nat) : Int) = (cs.length : Int) - 1 := by
    have : 0 < cs.length := List.length_pos.mpr hne
    omega
  -- the variables of the pass hold the exact values
  have hRm : remainingWidth b c cs = R := by
    unfold remainingWidth
    have ha : inInt16 (availableWidth b) := inInt16_wrap16 _
    rw [remainingLoop_of_inInt16 _ _ _ ha]
    simp only [List.length_map]
    rw [hlen, hR]
    exact wrap16_of_inInt16 hremfit
  have hGm : flexGrowTotal cs = G := by
    unfold flexGrowTotal
    rw [addLoop_of_inInt16 _ _ (by decide), hG, zero_add]
    exact wrap16_of_inInt16 htotalfit
  have hdist := @distributeWidths_grow b c cs hrow (by rw [hRm]; exact hrem)
  refine ⟨by rw [hdist]; rfl, ?_⟩
  intro r hr
  obtain ⟨cs1, cs2, h1, rfl, h2⟩ := computeWidthsGrowSizing_container hr
  rw [hdist] at h1
  cases h1
  -- the widths after the pass
  have hw : (cs2.map fun child => child.base.layout.width) =
      cs.map fun child => child.base.layout.width + R * child.base.grow / G := by
    have : (cs2.map fun child => child.base.layout.width) =
        (cs2.map Element.base).map fun b1 => b1.layout.width := by
      rw [List.map_map]; rfl
    rw [this, h2, List.map_map, List.map_map]
    apply List.map_congr_left
    intro child hc
    simp only [Function.comp_apply, setWidth_layout_width, hRm, hGm]
    unfold flexGrowSize
    have hg := hgrow child hc
    by_cases hpos : 0 < child.base.grow
    · rw [if_pos ⟨htotal, hpos⟩, wrap16_add_right,
        Int.tdiv_eq_ediv (mul_nonneg hrem hg) htotal.le]
      exact wrap16_of_inInt16 (hnewfit child hc)
    · have h0 : child.base.grow = 0 := by omega
      rw [if_neg (by omega), h0]
      simp
  have hlen2 : cs2.length = cs.length := by
    have := congrArg List.length h2
    simpa using this
  have hsum : (cs2.map fun child => child.base.layout.width).sum =
      (cs.map fun child => child.base.layout.width).sum +
        ((cs.map fun child => child.base.grow).map fun g => R * g / G).sum := by
    rw [hw, List.map_map]
    have : (fun child : Element => child.base.layout.width + R * child.base.grow / G) =
        fun child => (fun child : Element => child.base.layout.width) child +
          ((fun g => R * g / G) ∘ fun child : Element => child.base.grow) child := rfl
    rw [this, List.sum_map_add]
  simp only [Element.children]
  rw [hsum, hlen2]
  have hgs : ∀ g ∈ (cs.map fun child => child.base.grow), 0 ≤ g := by
    intro g hg
    obtain ⟨child, hc, rfl⟩ := List.mem_map.mp hg
    exact hgrow child hc
  obtain ⟨b1, b2⟩ := share_sum_bounds R G htotal _ hgs
  have b3 : (∀ child ∈ cs, G ∣ R * child.base.grow) →
      G * ((cs.map fun child => child.base.grow).map fun g => R * g / G).sum =
        R * (cs.map fun child => child.base.grow).sum := by
    intro hdvd
    apply share_sum_exact
    intro g hg
    obtain ⟨child, hc, rfl⟩ := List.mem_map.mp hg
    exact hdvd child hc
  rw [hG] at b1 b2 b3
  generalize ((cs.map fun child => child.base.grow).map fun g => R * g / G).sum = S at b1 b2 b3 ⊢
  have eU : availableWidth b - ((cs.map fun child => child.base.layout.width).sum + S +
      c.gap * ((cs.length : Int) - 1)) = R - S := by
    rw [← hR]; ring
  rw [eU]
  have k1 : G * S ≤ G * R := by rw [mul_comm G R]; exact b1
  have k2 : G * (R - S) ≤ G * (G - 1) := by
    have : G * (R - S) = R * G - G * S := by ring
    rw [this, mul_comm G (G - 1)]; exact b2
  have u1 : S ≤ R := le_of_mul_le_mul_left k1 htotal
  have u2 : R - S ≤ G - 1 := le_of_mul_le_mul_left k2 htotal
  refine ⟨by omega, u2, ?_⟩
  intro hdvd
  have k3 : G * S = G * R := by rw [b3 hdvd, mul_comm]
  have : S = R := mul_left_cancel₀ htotal.ne' k3
  omega

theorem computeWidthFitSizingList_eq_map (ctx : BaseMeasurementContext) (cs : List Element) :
    computeWidthFitSizingList ctx cs = cs.map (computeWidthFitSizing ctx) := by
  induction cs with
  | nil => rw [computeWidthFitSizingList]; rfl
  | cons e es ih => rw [computeWidthFitSizingList, ih]; rfl

theorem fitAggregate_sum (gap : Int) (vs : List Int) (s : Int) :
    fitAggregate true gap vs (wrap16 s) =
      wrap16 (s + vs.sum + gap * ((vs.length : Int) - 1)) := by
  unfold fitAggregate
  rw [if_pos rfl]
  have h := wrap16_addLoop vs (wrap16 s)
  rw [wrap16_add_left] at h
  rw [mul_comm]
  generalize gap * ((vs.length : Int) - 1) = t
  generalize addLoop vs (wrap16 s) = a at h ⊢
  generalize vs.sum = u at h ⊢
  unfold wrap16 at h ⊢
  omega

/-- C8 (row fit-sizing aggregation): for a row with a non-explicit width and at least one
child, `computeWidthFitSizing` leaves the fit-sized children in the container and sets
`layout.width` to `paddingLeft + paddingRight + 2 * borderWidth + Σ child.layout.width +
gap * (n - 1)` over those children, in 16-bit arithmetic, and exactly when the sum fits
16 bits. -/
theorem row_fit_width_aggregation (ctx : BaseMeasurementContext) (b : BaseElement)
    (c : ContainerData) (cs : List Element)
    (hrow : c.layoutDirection = .LayoutRow) (hauto : b.width < 0) (hn : 1 ≤ cs.length) :
    (computeWidthFitSizing ctx (.container b c cs)).children =
      cs.map (computeWidthFitSizing ctx) ∧
    (computeWidthFitSizing ctx (.container b c cs)).base.layout.width =
      wrap16 (b.paddingLeft + b.paddingRight + 2 * b.borderWidth +
        ((cs.map (computeWidthFitSizing ctx)).map fun child => child.base.layout.width).sum +
        c.gap * ((cs.length : Int) - 1)) ∧
    (inInt16 (b.paddingLeft + b.paddingRight + 2 * b.borderWidth +
        ((cs.map (computeWidthFitSizing ctx)).map fun child => child.base.layout.width).sum +
        c.gap * ((cs.length : Int) - 1)) →
      (computeWidthFitSizing ctx (.container b c cs)).base.layout.width =
        b.paddingLeft + b.paddingRight + 2 * b.borderWidth +
        ((cs.map (computeWidthFitSizing ctx)).map fun child => child.base.layout.width).sum +
        c.gap * ((cs.length : Int) - 1)) := by
  have hw : (computeWidthFitSizing ctx (.container b c cs)).base.layout.width =
      wrap16 (b.paddingLeft + b.paddingRight + 2 * b.borderWidth +
        ((cs.map (computeWidthFitSizing ctx)).map fun child => child.base.layout.width).sum +
        c.gap * ((cs.length : Int) - 1)) := by
    rw [computeWidthFitSizing]
    simp only [base_container, computeWidthFitSizingList_eq_map]
    unfold containerFitWidth
    rw [if_neg (by omega), if_pos (by simpa using hn)]
    simp only [hrow, decide_True, sumSpaceWidth]
    rw [fitAggregate_sum]
    simp only [List.length_map]
    congr 1
    ring
  refine ⟨?_, hw, fun hin => ?_⟩
  · rw [computeWidthFitSizing]
    simp only [children_container, computeWidthFitSizingList_eq_map]
  · rw [hw, wrap16_of_inInt16 hin]

@[simp] theorem setX_layout_x (x : Int) (e : Element) : (setX x e).base.layout.x = x := by
  simp [setX]

@[simp] theorem setY_layout_x (y : Int) (e : Element) :
    (setY y e).base.layout.x = e.base.layout.x := by
  simp [setY]

theorem positionsChildren_bases (cs : List Element) :
    ∀ (bs : List BaseElement), bs.length = cs.length →
      (positionsChildren cs bs).map Element.base = bs := by
  induction cs with
  | nil =>
    intro bs hlen
    rw [positionsChildren]
    simpa using hlen
  | cons e es ih =>
    intro bs hlen
    cases bs with
    | nil => simp at hlen
    | cons b0 bs =>
      rw [positionsChildren]
      have hb : (positionsFrom b0 e).base = b0 := by
        cases e <;> rw [positionsFrom] <;> rfl
      simp only [List.headD_cons, List.tail_cons, List.map_cons, hb,
        ih bs (by simpa using hlen)]

theorem positionMain_length (start gap : Int) (set : Int → Element → Element)
    (size : Element → Int) (cs : List Element) :
    ∀ offset, (positionMain start gap set size cs offset).length = cs.length := by
  induction cs with
  | nil => intro offset; rfl
  | cons e es ih => intro offset; simp [positionMain, ih]

/-- The main-axis loop gives child `i` the start plus the sizes and gaps of the children
before it. -/
theorem positionMain_getElem_x (start gap : Int) (size : Element → Int) (cs : List Element) :
    ∀ (offset : Int) (i : Nat) (child1 : Element),
      (positionMain start gap setX size cs offset)[i]? = some child1 →
      child1.base.layout.x =
        wrap16 (start + offset + ((cs.take i).map fun child => size child + gap).sum) := by
  induction cs with
  | nil =>
    intro offset i child1 h
    simp [positionMain] at h
  | cons e es ih =>
    intro offset i child1 h
    cases i with
    | zero =>
      simp only [positionMain, List.getElem?_cons_zero, Option.some.injEq] at h
      subst h
      simp
    | succ i =>
      simp only [positionMain, List.getElem?_cons_succ] at h
      rw [ih _ i child1 h]
      simp only [List.take_succ_cons, List.map_cons, List.sum_cons]
      generalize ((es.take i).map fun child => size child + gap).sum = s
      generalize size e + gap = t
      unfold wrap16
      omega

theorem positionChildren_length (b : BaseElement) (c : ContainerData) (cs : List Element) :
    (positionChildren b c cs).length = cs.length := by
  unfold positionChildren positionY positionX
  split <;> split <;> simp [positionMain_length]

theorem positionChildren_row_x {b : BaseElement} {c : ContainerData} {cs : List Element}
    (hrow : c.layoutDirection = .LayoutRow) (i : Nat) (child1 : Element)
    (h : (positionChildren b c cs)[i]? = some child1) :
    child1.base.layout.x = wrap16 (b.layout.x + b.paddingLeft + b.borderWidth +
      ((cs.take i).map fun child => child.base.layout.width + c.gap).sum) := by
  unfold positionChildren positionY positionX at h
  rw [if_neg (by rw [hrow]; decide), if_pos hrow] at h
  rw [List.getElem?_map] at h
  cases h0 : (positionMain (b.layout.x + b.paddingLeft + b.borderWidth) c.gap setX
      (fun child => child.base.layout.width) cs 0)[i]? with
  | none => rw [h0] at h; simp at h
  | some child0 =>
    rw [h0] at h
    simp only [Option.map_some', Option.some.injEq] at h
    subst h
    rw [setY_layout_x, positionMain_getElem_x _ _ _ _ _ _ _ h0]
    simp

/-- C9 (row positioning offsets): for a row, `computePositions` keeps the number of children
and sets the `x` of child `i` to `parent.x + paddingLeft + borderWidth +
Σ_{j<i} (child_j.width + gap)`, in 16-bit arithmetic, and exactly when the sum fits 16 bits. -/
theorem row_position_offsets (b : BaseElement) (c : ContainerData) (cs : List Element)
    (hrow : c.layoutDirection = .LayoutRow) :
    (computePositions (.container b c cs)).children.length = cs.length ∧
    ∀ (i : Nat) (child1 : Element),
      (computePositions (.container b c cs)).children[i]? = some child1 →
      child1.base.layout.x = wrap16 (b.layout.x + b.paddingLeft + b.borderWidth +
        ((cs.take i).map fun child => child.base.layout.width + c.gap).sum) ∧
      (inInt16 (b.layout.x + b.paddingLeft + b.borderWidth +
        ((cs.take i).map fun child => child.base.layout.width + c.gap).sum) →
        child1.base.layout.x = b.layout.x + b.paddingLeft + b.borderWidth +
          ((cs.take i).map fun child => child.base.layout.width + c.gap).sum) := by
  have hb : (computePositions (.container b c cs)).children.map Element.base =
      (positionChildren b c cs).map Element.base := by
    unfold computePositions
    rw [base_container, positionsFrom, children_container]
    exact positionsChildren_bases cs _ (by simp [positionChildren_length])
  refine ⟨?_, ?_⟩
  · have := congrArg List.length hb
    simpa [positionChildren_length] using this
  · intro i child1 h
    have h1 : ((computePositions (.container b c cs)).children.map Element.base)[i]? =
        some child1.base := by
      rw [List.getElem?_map, h]; rfl
    rw [hb, List.getElem?_map] at h1
    cases h0 : (positionChildren b c cs)[i]? with
    | none => rw [h0] at h1; simp at h1
    | some child0 =>
      rw [h0] at h1
      simp only [Option.map_some', Option.some.injEq] at h1
      have hx := positionChildren_row_x hrow i child0 h0
      rw [h1] at hx
      exact ⟨hx, fun hin => by rw [hx, wrap16_of_inInt16 hin]⟩

@[simp] theorem wrappedText_text (b : BaseElement) (t : TextData) :
    (Element.text b t).wrappedText = t.wrappedText := rfl

theorem wrapLines_single (ctx : BaseMeasurementContext) (font : Nat) (availableWidth : Int)
    (word : String) : wrapLines ctx font availableWidth [word] = [word] := by
  unfold wrapLines
  simp only [wrapLoop, if_pos rfl, ne_eq, not_true_eq_false, and_false, if_false]
  by_cases h : word = ""
  · simp [h]
  · simp [h]

/-- C4 (single oversized word): a text whose tokenization is one word is wrapped into
exactly one line, the word itself, whatever the available width is; in particular when the
available width is smaller than the measured width of the word. -/
theorem single_word_one_line (ctx : BaseMeasurementContext) (b : BaseElement) (t : TextData)
    (word : String) (hword : splitStringByWhitesp t.text = [word]) :
    (computeTextWrapping ctx (.text b t)).wrappedText = [word] := by
  rw [computeTextWrapping]
  simp only [wrappedText_text, hword, wrapLines_single]

/-- C5 (wrap example): with 10 pixels per character, the text `"aa bb cc dd"` in an
available width of 50 is wrapped into the two lines `"aa bb"` and `"cc dd"`. -/
theorem wrap_example (ctx : BaseMeasurementContext) (b : BaseElement) (t : TextData)
    (hctx : ∀ s : String, ctx.measureTextWidth s t.font = 10 * (s.length : Int))
    (htext : t.text = "aa bb cc dd") (hwidth : textAvailableWidth b = 50) :
    (computeTextWrapping ctx (.text b t)).wrappedText = ["aa bb", "cc dd"] := by
  have hwords : splitStringByWhitesp "aa bb cc dd" = ["aa", "bb", "cc", "dd"] := by decide
  have m1 : measureWidth ctx "aa" t.font = 20 := by rw [measureWidth, hctx]; decide
  have m2 : measureWidth ctx "aa bb" t.font = 50 := by rw [measureWidth, hctx]; decide
  have m3 : measureWidth ctx "aa bb cc" t.font = 80 := by rw [measureWidth, hctx]; decide
  have m4 : measureWidth ctx "cc dd" t.font = 50 := by rw [measureWidth, hctx]; decide
  rw [computeTextWrapping]
  simp only [wrappedText_text, htext, hwords, hwidth]
  simp [wrapLines, wrapLoop, m1, m2, m3, m4]

/-! ## The tokenizer -/

theorem skipSpaces_length (l : List Char) : (skipSpaces l).length ≤ l.length := by
  induction l with
  | nil => simp [skipSpaces]
  | cons ch rest ih =>
    rw [skipSpaces]
    split
    · simp only [List.length_cons]; omega
    · simp

theorem takeWord_length (l : List Char) : (takeWord l).2.length ≤ l.length := by
  induction l with
  | nil => simp [takeWord]
  | cons ch rest ih =>
    rw [takeWord]
    split
    · simp
    · simp only [List.length_cons]; omega

theorem skipSpaces_of_not_space {ch : Char} {rest : List Char} (h : isSpace ch = false) :
    skipSpaces (ch :: rest) = ch :: rest := by
  rw [skipSpaces, if_neg (by simp [h])]

theorem skipSpaces_of_space {ch : Char} {rest : List Char} (h : isSpace ch = true) :
    skipSpaces (ch :: rest) = skipSpaces rest := by
  rw [skipSpaces, if_pos h]

/-- A round of the outer loop consumes at least one character. -/
theorem round_length (ch : Char) (rest : List Char) :
    (takeWord (skipSpaces (ch :: rest))).2.length ≤ rest.length := by
  by_cases h : isSpace ch = true
  · rw [skipSpaces_of_space h]
    exact le_trans (takeWord_length _) (skipSpaces_length _)
  · have h0 : isSpace ch = false := by simpa using h
    rw [skipSpaces_of_not_space h0, takeWord, if_neg h]
    exact takeWord_length rest

/-- Fuel beyond the number of characters changes nothing: the loop ends on the empty rest. -/
theorem splitLoop_fuel : ∀ (n m : Nat) (l : List Char), l.length ≤ n → l.length ≤ m →
    splitLoop n l = splitLoop m l := by
  intro n
  induction n with
  | zero =>
    intro m l hn _
    have : l = [] := by simpa using hn
    subst this
    cases m <;> rfl
  | succ n ih =>
    intro m l hn hm
    cases l with
    | nil => cases m <;> rfl
    | cons ch rest =>
      cases m with
      | zero => simp at hm
      | succ m =>
        have hr := round_length ch rest
        simp only [List.length_cons, Nat.add_le_add_iff_right] at hn hm
        simp only [splitLoop]
        rw [ih m _ (le_trans hr hn) (le_trans hr hm)]

theorem takeWord_fst_not_space (l : List Char) : ∀ ch ∈ (takeWord l).1, isSpace ch = false := by
  induction l with
  | nil => simp [takeWord]
  | cons c rest ih =>
    rw [takeWord]
    split
    · simp
    · rename_i h
      intro ch hch
      simp only [List.mem_cons] at hch
      rcases hch with rfl | hch
      · simpa using h
      · exact ih ch hch

/-- Every token is non-empty and holds no whitespace. -/
theorem splitLoop_tokens (fuel : Nat) : ∀ (l : List Char), ∀ w ∈ splitLoop fuel l,
    w.data ≠ [] ∧ ∀ ch ∈ w.data, isSpace ch = false := by
  induction fuel with
  | zero => intro l w hw; simp [splitLoop] at hw
  | succ fuel ih =>
    intro l w hw
    cases l with
    | nil => simp [splitLoop] at hw
    | cons ch rest =>
      simp only [splitLoop] at hw
      split at hw
      · exact ih _ w hw
      · rename_i hne
        simp only [List.mem_cons] at hw
        rcases hw with rfl | hw
        · exact ⟨hne, takeWord_fst_not_space _⟩
        · exact ih _ w hw

theorem splitStringByWhitesp_tokens (s : String) : ∀ w ∈ splitStringByWhitesp s,
    w.data ≠ [] ∧ ∀ ch ∈ w.data, isSpace ch = false :=
  splitLoop_tokens _ _

theorem takeWord_append_space (w rest : List Char) (hw : ∀ ch ∈ w, isSpace ch = false) :
    takeWord (w ++ ' ' :: rest) = (w, ' ' :: rest) := by
  induction w with
  | nil => simp [takeWord, isSpace]
  | cons c cs ih =>
    have hc : isSpace c = false := hw c (List.mem_cons_self _ _)
    have := ih (fun ch hch => hw ch (List.mem_cons_of_mem _ hch))
    simp only [List.cons_append, takeWord, hc]
    simp [this]

theorem takeWord_all (w : List Char) (hw : ∀ ch ∈ w, isSpace ch = false) :
    takeWord w = (w, []) := by
  induction w with
  | nil => simp [takeWord]
  | cons c cs ih =>
    have hc : isSpace c = false := hw c (List.mem_cons_self _ _)
    have := ih (fun ch hch => hw ch (List.mem_cons_of_mem _ hch))
    simp only [takeWord, hc]
    simp [this]

/-! ## Words joined by single spaces -/

theorem intercalate_go_append (s p q : String) (ws : List String) :
    String.intercalate.go (p ++ q) s ws = p ++ String.intercalate.go q s ws := by
  induction ws generalizing q with
  | nil => simp [String.intercalate.go]
  | cons w ws ih =>
    simp only [String.intercalate.go]
    rw [String.append_assoc, String.append_assoc, ← String.append_assoc q, ih]

theorem intercalate_go_snoc (s acc w : String) (ws : List String) :
    String.intercalate.go acc s (ws ++ [w]) = String.intercalate.go acc s ws ++ s ++ w := by
  induction ws generalizing acc with
  | nil => simp [String.intercalate.go]
  | cons v vs ih =>
    simp only [List.cons_append, String.intercalate.go]
    exact ih _

theorem intercalate_single (s w : String) : s.intercalate [w] = w := by
  simp [String.intercalate, String.intercalate.go]

theorem intercalate_snoc (s w : String) (g : List String) (hg : g ≠ []) :
    s.intercalate (g ++ [w]) = s.intercalate g ++ s ++ w := by
  cases g with
  | nil => exact absurd rfl hg
  | cons v vs => simp only [List.cons_append, String.intercalate, intercalate_go_snoc]

theorem intercalate_cons_cons (s w v : String) (vs : List String) :
    s.intercalate (w :: v :: vs) = w ++ s ++ s.intercalate (v :: vs) := by
  simp only [String.intercalate, String.intercalate.go]
  rw [String.append_assoc, intercalate_go_append, intercalate_go_append, String.append_assoc]

theorem intercalate_eq_empty {g : List String} (hne : ∀ w ∈ g, w ≠ "")
    (h : String.intercalate " " g = "") : g = [] := by
  cases g with
  | nil => rfl
  | cons w vs =>
    exfalso
    cases vs with
    | nil =>
      rw [intercalate_single] at h
      exact hne w (List.mem_cons_self _ _) h
    | cons v vs =>
      rw [intercalate_cons_cons] at h
      have := congrArg String.length h
      simp only [String.length_append] at this
      have h1 : (" " : String).length = 1 := by decide
      have h0 : ("" : String).length = 0 := by decide
      omega

/-- Tokenizing words joined by single spaces gives the words back. -/
theorem splitLoop_intercalate (g : List String)
    (hg : ∀ w ∈ g, w.data ≠ [] ∧ ∀ ch ∈ w.data, isSpace ch = false) :
    ∀ fuel, (String.intercalate " " g).data.length ≤ fuel →
      splitLoop fuel (String.intercalate " " g).data = g := by
  induction g with
  | nil =>
    intro fuel _
    have : (String.intercalate " " []).data = [] := rfl
    rw [this]
    cases fuel <;> rfl
  | cons w vs ih =>
    intro fuel hfuel
    obtain ⟨hw1, hw2⟩ := hg w (List.mem_cons_self _ _)
    obtain ⟨c, cs, hcs⟩ := List.exists_cons_of_ne_nil hw1
    have hc : isSpace c = false := hw2 c (by rw [hcs]; exact List.mem_cons_self _ _)
    cases vs with
    | nil =>
      rw [intercalate_single] at hfuel ⊢
      cases fuel with
      | zero => rw [hcs] at hfuel; simp at hfuel
      | succ fuel =>
        rw [hcs, splitLoop]
        simp only [skipSpaces_of_not_space hc]
        rw [← hcs, takeWord_all _ hw2]
        simp only [if_neg hw1]
        cases fuel <;> rfl
    | cons v vs =>
      have hdata : (String.intercalate " " (w :: v :: vs)).data =
          w.data ++ ' ' :: (String.intercalate " " (v :: vs)).data := by
        rw [intercalate_cons_cons]
        simp [String.data_append]
      rw [hdata] at hfuel ⊢
      cases fuel with
      | zero => rw [hcs] at hfuel; simp at hfuel
      | succ fuel =>
        have hv := ih (fun x hx => hg x (List.mem_cons_of_mem _ hx))
        obtain ⟨hv1, hv2⟩ := hg v (List.mem_cons_of_mem _ (List.mem_cons_self _ _))
        have e1 : w.data ++ ' ' :: (String.intercalate " " (v :: vs)).data =
            c :: (cs ++ ' ' :: (String.intercalate " " (v :: vs)).data) := by
          rw [hcs]; rfl
        rw [e1, splitLoop]
        simp only [skipSpaces_of_not_space hc]
        rw [← e1, takeWord_append_space _ _ hw2]
        simp only [if_neg hw1]
        have hlen : (String.intercalate " " (v :: vs)).data.length + 1 ≤ fuel := by
          simp only [List.length_append, List.length_cons] at hfuel
          have : 0 < w.data.length := List.length_pos.mpr hw1
          omega
        cases fuel with
        | zero => simp at hlen
        | succ fuel =>
          -- the round on the space skips it and goes on with the next word
          have hstep : splitLoop (fuel + 1) (' ' :: (String.intercalate " " (v :: vs)).data) =
              splitLoop (fuel + 1) (String.intercalate " " (v :: vs)).data := by
            obtain ⟨c2, cs2, hcs2⟩ := List.exists_cons_of_ne_nil hv1
            have hc2 : isSpace c2 = false :=
              hv2 c2 (by rw [hcs2]; exact List.mem_cons_self _ _)
            obtain ⟨tail, htail⟩ : ∃ tail,
                (String.intercalate " " (v :: vs)).data = c2 :: tail := by
              cases vs with
              | nil => exact ⟨cs2, by rw [intercalate_single, hcs2]⟩
              | cons u us =>
                refine ⟨cs2 ++ ' ' :: (String.intercalate " " (u :: us)).data, ?_⟩
                rw [intercalate_cons_cons]
                simp [String.data_append, hcs2]
            rw [htail]
            simp only [splitLoop]
            rw [skipSpaces_of_space (by decide), skipSpaces_of_not_space hc2]
          rw [hstep, hv (fuel + 1) (by omega)]

theorem splitStringByWhitesp_intercalate (g : List String)
    (hg : ∀ w ∈ g, w.data ≠ [] ∧ ∀ ch ∈ w.data, isSpace ch = false) :
    splitStringByWhitesp (String.intercalate " " g) = g :=
  splitLoop_intercalate g hg _ (le_refl _)

/-! ## The wrapping loop -/

theorem intercalate_nil (s : String) : s.intercalate [] = "" := rfl

/-- The line the loop tries: the current group of words with the next word appended. -/
theorem testLine_eq (g : List String) (word : String) (hg : ∀ w ∈ g, w ≠ "") :
    (if String.intercalate " " g = "" then word
      else String.intercalate " " g ++ " " ++ word) = String.intercalate " " (g ++ [word]) := by
  by_cases h : String.intercalate " " g = ""
  · rw [if_pos h, intercalate_eq_empty hg h]
    exact (intercalate_single _ _).symm
  · rw [if_neg h, intercalate_snoc]
    rintro rfl
    exact h rfl

/-- Invariant of the loop of `computeTextWrapping`: the committed lines and the current line
are groups of consecutive words joined by single spaces; a group of two or more words fits the
available width, and a committed group followed by the first word of the next does not. -/
theorem wrapLoop_groups (ctx : BaseMeasurementContext) (font : Nat) (avail : Int)
    (words : List String) :
    ∀ (gs : List (List String)) (g : List String),
      (∀ w ∈ words, w ≠ "") → (∀ w ∈ g, w ≠ "") → (g = [] → gs = []) →
      (∀ x ∈ gs, x ≠ []) →
      (∀ x ∈ gs ++ [g], 2 ≤ x.length →
        measureWidth ctx (String.intercalate " " x) font ≤ avail) →
      List.Chain' (fun x y => ∃ w, y.head? = some w ∧
        avail < measureWidth ctx (String.intercalate " " x ++ " " ++ w) font) (gs ++ [g]) →
      ∃ gs1 g1,
        wrapLoop ctx font avail words (gs.map (String.intercalate " "))
          (String.intercalate " " g) =
          (gs1.map (String.intercalate " "), String.intercalate " " g1) ∧
        (∀ w ∈ g1, w ≠ "") ∧ (g1 = [] → gs1 = [] ∧ words = []) ∧
        (∀ x ∈ gs1, x ≠ []) ∧
        gs1.flatten ++ g1 = gs.flatten ++ g ++ words ∧
        (∀ x ∈ gs1 ++ [g1], 2 ≤ x.length →
          measureWidth ctx (String.intercalate " " x) font ≤ avail) ∧
        List.Chain' (fun x y => ∃ w, y.head? = some w ∧
          avail < measureWidth ctx (String.intercalate " " x ++ " " ++ w) font)
          (gs1 ++ [g1]) := by
  induction words with
  | nil =>
    intro gs g _ hg hnil hgs hfit hchain
    exact ⟨gs, g, rfl, hg, fun h => ⟨hnil h, rfl⟩, hgs, by simp, hfit, hchain⟩
  | cons word rest ih =>
    intro gs g hwords hg hnil hgs hfit hchain
    have hword : word ≠ "" := hwords word (List.mem_cons_self _ _)
    have hrest : ∀ w ∈ rest, w ≠ "" := fun w hw => hwords w (List.mem_cons_of_mem _ hw)
    rw [wrapLoop]
    simp only [testLine_eq g word hg]
    split
    · -- commit the current line and start a new one with the word
      rename_i hcond
      obtain ⟨hover, hcur⟩ := hcond
      have hgne : g ≠ [] := by
        rintro rfl
        exact hcur rfl
      have hover2 : avail < measureWidth ctx (String.intercalate " " g ++ " " ++ word) font := by
        rw [← intercalate_snoc _ _ _ hgne]
        exact hover
      obtain ⟨gs1, g1, h1, h2, h3, h4, h5, h6, h7⟩ := ih (gs ++ [g]) [word] hrest
        (by simpa using hword) (by simp)
        (by
          intro x hx
          rcases List.mem_append.mp hx with hx | hx
          · exact hgs x hx
          · simp only [List.mem_singleton] at hx; rw [hx]; exact hgne)
        (by
          intro x hx hlen
          rcases List.mem_append.mp hx with hx | hx
          · exact hfit x hx hlen
          · simp only [List.mem_singleton] at hx; rw [hx] at hlen; simp at hlen)
        (by
          rw [List.chain'_append]
          refine ⟨hchain, List.chain'_singleton _, ?_⟩
          intro x hx y hy
          simp only [List.getLast?_append, List.getLast?_singleton, Option.mem_def] at hx
          change some g = some x at hx
          simp only [List.head?_cons, Option.mem_def, Option.some.injEq] at hy
          cases hx
          subst hy
          exact ⟨word, rfl, hover2⟩)
      simp only [List.map_append, List.map_cons, List.map_nil, intercalate_single] at h1
      refine ⟨gs1, g1, h1, h2, ?_, h4, ?_, h6, h7⟩
      · intro h
        have := h3 h
        rw [h, this.1] at h5
        simp at h5
      · rw [h5]; simp
    · -- extend the current line
      rename_i hcond
      obtain ⟨gs1, g1, h1, h2, h3, h4, h5, h6, h7⟩ := ih gs (g ++ [word]) hrest
        (by
          intro w hw
          rcases List.mem_append.mp hw with hw | hw
          · exact hg w hw
          · simp only [List.mem_singleton] at hw; rw [hw]; exact hword)
        (by simp) hgs
        (by
          intro x hx hlen
          rcases List.mem_append.mp hx with hx | hx
          · exact hfit x (List.mem_append_left _ hx) hlen
          · simp only [List.mem_singleton] at hx
            subst hx
            have hgne : g ≠ [] := by
              rintro rfl
              simp at hlen
            have hcur : String.intercalate " " g ≠ "" := fun h =>
              hgne (intercalate_eq_empty hg h)
            by_contra hlt
            exact hcond ⟨by omega, hcur⟩)
        (by
          rw [List.chain'_append] at hchain ⊢
          refine ⟨hchain.1, List.chain'_singleton _, ?_⟩
          intro x hx y hy
          simp only [List.head?_cons, Option.mem_def, Option.some.injEq] at hy
          subst hy
          by_cases hgne : g = []
          · rw [hnil hgne] at hx
            simp at hx
          · obtain ⟨w, hw, hlt⟩ := hchain.2.2 x hx g (by simp)
            refine ⟨w, ?_, hlt⟩
            cases g with
            | nil => exact absurd rfl hgne
            | cons a as => simpa using hw)
      refine ⟨gs1, g1, h1, h2, ?_, h4, ?_, h6, h7⟩
      · intro h
        have := h3 h
        rw [h, this.1] at h5
        simp at h5
      · rw [h5]; simp

/-- The lines `computeTextWrapping` produces from words that are not empty: groups of
consecutive words, fitting and greedy. -/
theorem wrapLines_groups (ctx : BaseMeasurementContext) (font : Nat) (avail : Int)
    (words : List String) (hwords : ∀ w ∈ words, w ≠ "") :
    ∃ groups : List (List String),
      wrapLines ctx font avail words = groups.map (String.intercalate " ") ∧
      (∀ x ∈ groups, x ≠ []) ∧ groups.flatten = words ∧
      (∀ x ∈ groups, 2 ≤ x.length →
        measureWidth ctx (String.intercalate " " x) font ≤ avail) ∧
      List.Chain' (fun x y => ∃ w, y.head? = some w ∧
        avail < measureWidth ctx (String.intercalate " " x ++ " " ++ w) font) groups := by
  obtain ⟨gs1, g1, h1, h2, h3, h4, h5, h6, h7⟩ :=
    wrapLoop_groups ctx font avail words [] [] hwords (by simp) (by simp) (by simp)
      (by simp) (by simp)
  simp only [List.map_nil, intercalate_nil] at h1
  simp only [List.flatten_nil, List.nil_append] at h5
  unfold wrapLines
  simp only [h1]
  by_cases hg1 : g1 = []
  · obtain ⟨rfl, rfl⟩ := h3 hg1
    subst hg1
    refine ⟨[], ?_, by simp, by simp, by simp, List.chain'_nil⟩
    simp [intercalate_nil]
  · have hcur : String.intercalate " " g1 ≠ "" := fun h => hg1 (intercalate_eq_empty h2 h)
    refine ⟨gs1 ++ [g1], ?_, ?_, ?_, h6, h7⟩
    · simp [hcur]
    · intro x hx
      rcases List.mem_append.mp hx with hx | hx
      · exact h4 x hx
      · simp only [List.mem_singleton] at hx; rw [hx]; exact hg1
    · simpa using h5

theorem token_ne_empty {w : String} (h : w.data ≠ []) : w ≠ "" := by
  rintro rfl
  exact h rfl

/-- C6 (wrapping preserves the words and their order): the wrapped lines of a text are the
groups of a partition of its tokenization into non-empty runs of consecutive words, each
joined by single spaces. -/
theorem wrapping_preserves_words (ctx : BaseMeasurementContext) (b : BaseElement)
    (t : TextData) :
    ∃ groups : List (List String),
      (computeTextWrapping ctx (.text b t)).wrappedText =
        groups.map (String.intercalate " ") ∧
      (∀ g ∈ groups, g ≠ []) ∧
      groups.flatten = splitStringByWhitesp t.text := by
  obtain ⟨groups, h1, h2, h3, _, _⟩ :=
    wrapLines_groups ctx t.font (textAvailableWidth b) (splitStringByWhitesp t.text)
      (fun w hw => token_ne_empty (splitStringByWhitesp_tokens t.text w hw).1)
  refine ⟨groups, ?_, h2, h3⟩
  rw [computeTextWrapping]
  exact h1

theorem chain_lines_of_groups {R : List String → List String → Prop}
    {S : String → String → Prop} (f : List String → String)
    (good : List String → Prop) (himp : ∀ x y, good y → R x y → S (f x) (f y)) :
    ∀ groups : List (List String), (∀ g ∈ groups, good g) → List.Chain' R groups →
      List.Chain' S (groups.map f) := by
  intro groups
  induction groups with
  | nil => intro _ _; exact List.chain'_nil
  | cons x rest ih =>
    intro hgood hchain
    cases rest with
    | nil => exact List.chain'_singleton _
    | cons y rest =>
      rw [List.chain'_cons] at hchain
      simp only [List.map_cons]
      rw [List.chain'_cons]
      refine ⟨himp x y (hgood y (by simp)) hchain.1, ?_⟩
      have := ih (fun g hg => hgood g (List.mem_cons_of_mem _ hg)) hchain.2
      simpa using this

/-- C7 (wrapped lines fit and are greedy): after `computeTextWrapping`, every line of two or
more words measures at most the available width, and every line followed by another one,
extended by a space and the first word of the next line, measures more than the available
width. -/
theorem wrapped_lines_fit_and_greedy (ctx : BaseMeasurementContext) (b : BaseElement)
    (t : TextData) :
    (∀ line ∈ (computeTextWrapping ctx (.text b t)).wrappedText,
      2 ≤ (splitStringByWhitesp line).length →
        measureWidth ctx line t.font ≤ textAvailableWidth b) ∧
    List.Chain' (fun line next => ∃ word, (splitStringByWhitesp next).head? = some word ∧
        textAvailableWidth b < measureWidth ctx (line ++ " " ++ word) t.font)
      (computeTextWrapping ctx (.text b t)).wrappedText := by
  obtain ⟨groups, h1, h2, h3, h4, h5⟩ :=
    wrapLines_groups ctx t.font (textAvailableWidth b) (splitStringByWhitesp t.text)
      (fun w hw => token_ne_empty (splitStringByWhitesp_tokens t.text w hw).1)
  have hgood : ∀ g ∈ groups, ∀ w ∈ g, w.data ≠ [] ∧ ∀ ch ∈ w.data, isSpace ch = false := by
    intro g hg w hw
    apply splitStringByWhitesp_tokens t.text
    rw [← h3]
    exact List.mem_flatten.mpr ⟨g, hg, hw⟩
  have hlines : (computeTextWrapping ctx (.text b t)).wrappedText =
      groups.map (String.intercalate " ") := by
    rw [computeTextWrapping]
    exact h1
  rw [hlines]
  constructor
  · intro line hline hlen
    obtain ⟨g, hg, rfl⟩ := List.mem_map.mp hline
    rw [splitStringByWhitesp_intercalate g (hgood g hg)] at hlen
    exact h4 g hg hlen
  · refine chain_lines_of_groups (String.intercalate " ")
      (fun g => ∀ w ∈ g, w.data ≠ [] ∧ ∀ ch ∈ w.data, isSpace ch = false) ?_ groups hgood h5
    intro x y hy hxy
    obtain ⟨w, hw, hlt⟩ := hxy
    exact ⟨w, by rw [splitStringByWhitesp_intercalate y hy]; exact hw, hlt⟩

/-! ## Instances -/

/-- Instance of C2: two children of width 10 and grow 1 in an available width of 30 share the remaining width 10 and each gain 5. -/
theorem row_grow_sum_law_witness :
    (computeWidthsGrowSizing
        (.container growExampleBase newContainerData [growExampleChild, growExampleChild])).map
      (fun r => r.children.map fun child => child.base.layout.width) = some [15, 15] ∧
    ∀ r, computeWidthsGrowSizing
        (.container growExampleBase newContainerData [growExampleChild, growExampleChild]) =
          some r →
      availableWidth growExampleBase -
        ((r.children.map fun child => child.base.layout.width).sum +
          newContainerData.gap * ((r.children.length : Int) - 1)) = 0 :=
  ⟨by decide, fun r hr =>
    ((row_grow_sum_law growExampleBase newContainerData [growExampleChild, growExampleChild]
      rfl (by decide) (by decide) (by decide) (by decide) (by decide) (by decide)).2 r hr).2.2
      (by decide)⟩

/-- Instance of C3: the row of the instance of C2 has a remaining width that is not negative. -/
theorem grow_share_formula_witness :
    0 ≤ remainingWidth growExampleBase newContainerData [growExampleChild, growExampleChild] ∧
    (distributeWidths growExampleBase newContainerData
      [growExampleChild, growExampleChild]).isSome = true :=
  ⟨by decide,
    (grow_share_formula growExampleBase newContainerData [growExampleChild, growExampleChild]
      rfl (by decide)).1⟩

/-- Instance of C4: a word of 34 characters at 10 pixels each in an available width of 50. -/
theorem single_word_one_line_witness :
    textAvailableWidth wrapExampleBase <
      measureWidth tenPixelFont "supercalifragilisticexpialidocious" 0 ∧
    (computeTextWrapping tenPixelFont
      (.text wrapExampleBase (newTextData "supercalifragilisticexpialidocious"))).wrappedText =
        ["supercalifragilisticexpialidocious"] :=
  ⟨by decide,
    single_word_one_line tenPixelFont wrapExampleBase
      (newTextData "supercalifragilisticexpialidocious")
      "supercalifragilisticexpialidocious" (by decide)⟩

/-- Instance of C5 on a text element of computed width 50. -/
theorem wrap_example_witness :
    (computeTextWrapping tenPixelFont
      (.text wrapExampleBase (newTextData "aa bb cc dd"))).wrappedText = ["aa bb", "cc dd"] :=
  wrap_example tenPixelFont wrapExampleBase (newTextData "aa bb cc dd") (fun _ => rfl) rfl
    (by decide)

/-- Instance of C8: three texts of fixed width 10, 20 and 30 with gap 5 in a row whose padding and border add up to 9. -/
theorem row_fit_width_aggregation_witness :
    (computeWidthFitSizing tenPixelFont
      (.container fitExampleBase { newContainerData with gap := 5 }
        [fixedWidthText 10, fixedWidthText 20, fixedWidthText 30])).base.layout.width =
      70 + (1 + 2 + 2 * 3) :=
  ((row_fit_width_aggregation tenPixelFont fitExampleBase { newContainerData with gap := 5 }
    [fixedWidthText 10, fixedWidthText 20, fixedWidthText 30] rfl (by decide)
    (by decide)).2.2 (by decide)).trans (by decide)

/-- Instance of C9: a row at x = 0 with paddingLeft 2, borderWidth 1 and gap 5 places two children of width 10 at 3 and 18. -/
theorem row_position_offsets_witness :
    ∃ child0 child1,
      (computePositions (.container positionExampleBase { newContainerData with gap := 5 }
        [positionExampleChild, positionExampleChild])).children = [child0, child1] ∧
      child0.base.layout.x = 3 ∧ child1.base.layout.x = 18 :=
  ⟨_, _, rfl,
    ((row_position_offsets positionExampleBase { newContainerData with gap := 5 }
      [positionExampleChild, positionExampleChild] rfl).2 0 _ rfl).1.trans (by decide),
    ((row_position_offsets positionExampleBase { newContainerData with gap := 5 }
      [positionExampleChild, positionExampleChild] rfl).2 1 _ rfl).1.trans (by decide)⟩

/-- C10 (no division by zero), refuted on the code: the shrink branch of
`computeWidthsGrowSizing` divides by `totalMinWidth` without a guard, and `layout` on a row
of explicit width 0 with `paddingLeft = 1` and one polygon child reaches that division with
`totalMinWidth = 0`. -/
theorem layout_shrink_divides_by_zero (ctx : BaseMeasurementContext) :
    layout ctx shrinkZeroExample = none ∧
    totalMinWidth (computeWidthFitSizing ctx (initElements shrinkZeroExample)).children = 0 ∧
    shrinkSize (-1) 0 0 = none := by
  exact ⟨rfl, rfl, rfl⟩

/-! ## Induction on the element tree -/

mutual
theorem Element.induct {P : Element → Prop}
    (hc : ∀ b c cs, (∀ e ∈ cs, P e) → P (.container b c cs))
    (ht : ∀ b t, P (.text b t)) (hp : ∀ b p, P (.polygon b p)) : ∀ e, P e
  | .container b c cs => hc b c cs (Element.induct_list hc ht hp cs)
  | .text b t => ht b t
  | .polygon b p => hp b p
theorem Element.induct_list {P : Element → Prop}
    (hc : ∀ b c cs, (∀ e ∈ cs, P e) → P (.container b c cs))
    (ht : ∀ b t, P (.text b t)) (hp : ∀ b p, P (.polygon b p)) :
    ∀ (cs : List Element), ∀ e ∈ cs, P e
  | [] => fun _ h => absurd h (List.not_mem_nil _)
  | e :: es => fun x h => by
    rcases List.mem_cons.mp h with rfl | h
    · exact Element.induct hc ht hp x
    · exact Element.induct_list hc ht hp es x h
end

theorem eraseList_eq_map (m : Mask) (cs : List Element) :
    eraseList m cs = cs.map (erase m false) := by
  induction cs with
  | nil => rw [eraseList]; rfl
  | cons e es ih => rw [eraseList, ih]; rfl

theorem initElementsList_eq_map (cs : List Element) :
    initElementsList cs = cs.map initElements := by
  induction cs with
  | nil => rw [initElementsList]; rfl
  | cons e es ih => rw [initElementsList, ih]; rfl

theorem computeTextWrappingList_eq_map (ctx : BaseMeasurementContext) (cs : List Element) :
    computeTextWrappingList ctx cs = cs.map (computeTextWrapping ctx) := by
  induction cs with
  | nil => rw [computeTextWrappingList]; rfl
  | cons e es ih => rw [computeTextWrappingList, ih]; rfl

/-! ## Erasure and the passes -/

theorem initElements_erase (m : Mask) (root : Bool) (e : Element) :
    initElements (erase m root e) =
      erase { m with width := false, height := false } root (initElements e) := by
  induction e using Element.induct generalizing root with
  | hc b c cs ih =>
    simp only [erase, initElements, eraseList_eq_map, initElementsList_eq_map, List.map_map]
    congr 1
    apply List.map_congr_left
    intro e he
    exact ih e he false
  | ht b t => rfl
  | hp b p => rfl

@[simp] theorem erase_base (m : Mask) (root : Bool) (e : Element) :
    (erase m root e).base = eraseBase m root e.base := by
  cases e <;> rfl

theorem eraseBase_width {m : Mask} (hs : m.width = false) (root : Bool) (b : BaseElement) :
    (eraseBase m root b).layout.width = b.layout.width := by
  simp [eraseBase, eraseLayout, hs]

theorem eraseBase_height {m : Mask} (hs : m.height = false) (root : Bool) (b : BaseElement) :
    (eraseBase m root b).layout.height = b.layout.height := by
  simp [eraseBase, eraseLayout, hs]

theorem eraseBase_minWidth {m : Mask} (hs : m.minWidth = false) (root : Bool)
    (b : BaseElement) : (eraseBase m root b).layout.minWidth = b.layout.minWidth := by
  simp [eraseBase, eraseLayout, hs]

theorem eraseBase_minHeight_child (m : Mask) (b : BaseElement) :
    (eraseBase m false b).layout.minHeight = b.layout.minHeight := by
  simp [eraseBase, eraseLayout]

theorem map_width_erase {m : Mask} (hs : m.width = false) (cs : List Element) :
    ((cs.map (erase m false)).map fun child => child.base.layout.width) =
      cs.map fun child => child.base.layout.width := by
  rw [List.map_map]
  apply List.map_congr_left
  intro e _
  simp [eraseBase_width hs]

theorem map_height_erase {m : Mask} (hs : m.height = false) (cs : List Element) :
    ((cs.map (erase m false)).map fun child => child.base.layout.height) =
      cs.map fun child => child.base.layout.height := by
  rw [List.map_map]
  apply List.map_congr_left
  intro e _
  simp [eraseBase_height hs]

theorem map_minWidth_erase {m : Mask} (hs : m.minWidth = false) (cs : List Element) :
    ((cs.map (erase m false)).map fun child => child.base.layout.minWidth) =
      cs.map fun child => child.base.layout.minWidth := by
  rw [List.map_map]
  apply List.map_congr_left
  intro e _
  simp [eraseBase_minWidth hs]

theorem map_minHeight_erase (m : Mask) (cs : List Element) :
    ((cs.map (erase m false)).map fun child => child.base.layout.minHeight) =
      cs.map fun child => child.base.layout.minHeight := by
  rw [List.map_map]
  apply List.map_congr_left
  intro e _
  simp [eraseBase_minHeight_child]

theorem containerFitWidth_erase (m1 : Mask) {m : Mask} (hs : m.width = false) (root : Bool)
    (b : BaseElement) (c : ContainerData) (cs : List Element) :
    containerFitWidth (eraseBase m1 root b) c (cs.map (erase m false)) =
      containerFitWidth b c cs := by
  unfold containerFitWidth
  rw [map_width_erase hs]
  simp [eraseBase, sumSpaceWidth]

theorem containerFitMinWidth_erase (m1 : Mask) {m : Mask} (hs : m.minWidth = false)
    (root : Bool) (b : BaseElement) (c : ContainerData) (cs : List Element) :
    containerFitMinWidth (eraseBase m1 root b) c (cs.map (erase m false)) =
      containerFitMinWidth b c cs := by
  unfold containerFitMinWidth
  rw [map_minWidth_erase hs]
  simp [eraseBase, sumSpaceWidth]

theorem computeWidthFitSizing_erase (ctx : BaseMeasurementContext) (m : Mask)
    (root : Bool) (e : Element) :
    computeWidthFitSizing ctx (erase m root e) =
      erase { m with width := false, minWidth := false } root
        (computeWidthFitSizing ctx e) := by
  induction e using Element.induct generalizing root with
  | hc b c cs ih =>
    have hcs : (cs.map (erase m false)).map (computeWidthFitSizing ctx) =
        (cs.map (computeWidthFitSizing ctx)).map
          (erase { m with width := false, minWidth := false } false) := by
      rw [List.map_map, List.map_map]
      apply List.map_congr_left
      intro e he
      exact ih e he false
    simp only [erase, computeWidthFitSizing, eraseList_eq_map,
      computeWidthFitSizingList_eq_map]
    rw [hcs, containerFitWidth_erase m (m := { m with width := false, minWidth := false }) rfl,
      containerFitMinWidth_erase m (m := { m with width := false, minWidth := false }) rfl]
    congr 1
  | ht b t =>
    simp only [erase, computeWidthFitSizing]
    congr 1
  | hp b p =>
    simp only [erase, computeWidthFitSizing]
    congr 1

theorem erase_setWidth {m : Mask} (hs : m.width = false) (root : Bool) (w : Int)
    (e : Element) : erase m root (setWidth w e) = setWidth w (erase m root e) := by
  cases e <;> simp [setWidth, erase, eraseBase, eraseLayout, hs, Element.setBase, Element.base]

theorem availableWidth_erase {m : Mask} (hs : m.width = false) (root : Bool)
    (b : BaseElement) : availableWidth (eraseBase m root b) = availableWidth b := by
  simp [availableWidth, eraseBase, eraseLayout, hs]

theorem map_grow_erase (m : Mask) (cs : List Element) :
    ((cs.map (erase m false)).map fun child => child.base.grow) =
      cs.map fun child => child.base.grow := by
  rw [List.map_map]
  apply List.map_congr_left
  intro e _
  simp [eraseBase]

theorem distributeWidths_erase {m1 m : Mask} (hs1 : m1.width = false) (hs : m.width = false)
    (hm : m.minWidth = false) (root : Bool) (b : BaseElement) (c : ContainerData)
    (cs : List Element) :
    distributeWidths (eraseBase m1 root b) c (cs.map (erase m false)) =
      (distributeWidths b c cs).map (List.map (erase m false)) := by
  have hrw : remainingWidth (eraseBase m1 root b) c (cs.map (erase m false)) =
      remainingWidth b c cs := by
    unfold remainingWidth
    rw [map_width_erase hs, availableWidth_erase hs1]
  have hrmw : remainingMinWidth (eraseBase m1 root b) c (cs.map (erase m false)) =
      remainingMinWidth b c cs := by
    unfold remainingMinWidth
    rw [map_minWidth_erase hm, availableWidth_erase hs1]
  have hfg : flexGrowTotal (cs.map (erase m false)) = flexGrowTotal cs := by
    unfold flexGrowTotal
    rw [map_grow_erase]
  have hcg : contentGrowTotalWidth (cs.map (erase m false)) = contentGrowTotalWidth cs := by
    unfold contentGrowTotalWidth
    rw [List.map_map]
    congr 1
    apply List.map_congr_left
    intro e _
    simp [eraseBase_width hs, eraseBase_minWidth hm]
  have htm : totalMinWidth (cs.map (erase m false)) = totalMinWidth cs := by
    unfold totalMinWidth
    rw [map_minWidth_erase hm]
  have hmap : ∀ (f : BaseElement → Int),
      (∀ b0, f (eraseBase m false b0) = f b0) →
      ((cs.map (erase m false)).map fun child => setWidth (f child.base) child) =
        (cs.map fun child => setWidth (f child.base) child).map (erase m false) := by
    intro f hf
    rw [List.map_map, List.map_map]
    apply List.map_congr_left
    intro e _
    simp only [Function.comp_apply, erase_base, hf, erase_setWidth hs]
  unfold distributeWidths
  rw [hrw, hrmw, hfg, hcg, htm, availableWidth_erase hs1, shrinkWidths_eq, shrinkWidths_eq]
  split
  · split
    · rw [Option.map_some']
      congr 1
      exact hmap (fun b0 => flexGrowSize (remainingWidth b c cs) (flexGrowTotal cs) b0.grow
        b0.layout.width) (fun b0 => by beta_reduce; rw [eraseBase_width hs]; rfl)
    · split
      · rw [Option.map_some']
        congr 1
        exact hmap (fun b0 => contentGrowSize (remainingMinWidth b c cs)
          (contentGrowTotalWidth cs) b0.layout.width b0.layout.minWidth)
          (fun b0 => by beta_reduce; rw [eraseBase_width hs, eraseBase_minWidth hm])
      · simp only [List.length_map]
        split
        · rfl
        · rw [Option.map_some']
          congr 1
          exact hmap (fun b0 => wrap16 (Int.tdiv (availableWidth b * b0.layout.minWidth)
            (totalMinWidth cs))) (fun b0 => by beta_reduce; rw [eraseBase_minWidth hm])
  · rw [Option.map_some']
    congr 1
    exact hmap (fun b0 => crossSize (availableWidth b) c.alignItems b0.alignSelf
      b0.layout.width) (fun b0 => by beta_reduce; rw [eraseBase_width hs]; rfl)

theorem widthsGrowChildren_erase {m : Mask} (cs : List Element)
    (ih : ∀ e ∈ cs, ∀ (b : BaseElement) (r r2 : Bool),
      widthsGrowFrom (eraseBase m r b) (erase m r2 e) =
        (widthsGrowFrom b e).map (erase m r)) :
    ∀ bs : List BaseElement,
      widthsGrowChildren (cs.map (erase m false)) (bs.map (eraseBase m false)) =
        (widthsGrowChildren cs bs).map (List.map (erase m false)) := by
  induction cs with
  | nil => intro bs; simp [widthsGrowChildren]
  | cons e es ihl =>
    intro bs
    have hhead : (bs.map (eraseBase m false)).headD (erase m false e).base =
        eraseBase m false (bs.headD e.base) := by
      cases bs <;> simp
    have htail : (bs.map (eraseBase m false)).tail = bs.tail.map (eraseBase m false) := by
      cases bs <;> simp
    simp only [List.map_cons, widthsGrowChildren]
    rw [hhead, htail, ih e (List.mem_cons_self _ _),
      ihl (fun x hx => ih x (List.mem_cons_of_mem _ hx))]
    cases widthsGrowFrom (bs.headD e.base) e with
    | none => rfl
    | some e1 =>
      cases widthsGrowChildren es bs.tail with
      | none => rfl
      | some es1 => rfl

theorem widthsGrowFrom_erase {m : Mask} (hs : m.width = false) (hm : m.minWidth = false)
    (e : Element) : ∀ (b : BaseElement) (r r2 : Bool),
      widthsGrowFrom (eraseBase m r b) (erase m r2 e) =
        (widthsGrowFrom b e).map (erase m r) := by
  induction e using Element.induct with
  | hc b0 c cs ih =>
    intro b r r2
    simp only [erase, widthsGrowFrom, eraseList_eq_map]
    rw [distributeWidths_erase hs hs hm]
    cases distributeWidths b c cs with
    | none => rfl
    | some cs1 =>
      simp only [Option.map_some']
      have : (cs1.map (erase m false)).map Element.base =
          (cs1.map Element.base).map (eraseBase m false) := by
        rw [List.map_map, List.map_map]
        apply List.map_congr_left
        intro e _
        simp
      rw [this, widthsGrowChildren_erase cs ih]
      cases widthsGrowChildren cs (cs1.map Element.base) with
      | none => rfl
      | some cs2 => simp [erase, eraseList_eq_map]
  | ht b0 t => intro b r r2; simp [erase, widthsGrowFrom]
  | hp b0 p => intro b r r2; simp [erase, widthsGrowFrom]

theorem computeWidthsGrowSizing_erase {m : Mask} (hs : m.width = false)
    (hm : m.minWidth = false) (root : Bool) (e : Element) :
    computeWidthsGrowSizing (erase m root e) =
      (computeWidthsGrowSizing e).map (erase m root) := by
  unfold computeWidthsGrowSizing
  rw [erase_base, widthsGrowFrom_erase hs hm]

/-- Erasure of the children does not look at the choice for the min height of the root. -/
theorem erase_child_rootMinHeight (m : Mask) (v : Bool) (e : Element) :
    erase { m with rootMinHeight := v } false e = erase m false e := by
  induction e using Element.induct with
  | hc b c cs ih =>
    simp only [erase, eraseList_eq_map]
    congr 1
    · simp [eraseBase, eraseLayout]
    · apply List.map_congr_left
      intro e he
      exact ih e he
  | ht b t => simp [erase, eraseBase, eraseLayout, eraseText]
  | hp b p => simp [erase, eraseBase, eraseLayout]

theorem mask_minWidth_self {m : Mask} (hm : m.minWidth = false) :
    { m with minWidth := false } = m := by
  cases m
  simp at hm
  simp [hm]

theorem mask_width_minWidth_self {m : Mask} (hs : m.width = false) (hm : m.minWidth = false) :
    { m with width := false, minWidth := false } = m := by
  cases m
  simp at hs hm
  simp [hs, hm]

theorem computeTextWrapping_erase (ctx : BaseMeasurementContext) (m : Mask)
    (hs : m.width = false) (root : Bool) (e : Element) :
    computeTextWrapping ctx (erase m root e) =
      erase { m with wrapped := false } root (computeTextWrapping ctx e) := by
  induction e using Element.induct generalizing root with
  | hc b c cs ih =>
    simp only [erase, computeTextWrapping, eraseList_eq_map, computeTextWrappingList_eq_map,
      List.map_map]
    congr 1
    apply List.map_congr_left
    intro e he
    exact ih e he false
  | ht b t =>
    simp only [erase, computeTextWrapping]
    congr 1
    simp [eraseText, textAvailableWidth, eraseBase, eraseLayout, hs]
  | hp b p => rfl

theorem containerFitHeight_erase (m1 : Mask) {m : Mask} (hs : m.height = false) (root : Bool)
    (b : BaseElement) (c : ContainerData) (cs : List Element) :
    containerFitHeight (eraseBase m1 root b) c (cs.map (erase m false)) =
      containerFitHeight b c cs := by
  unfold containerFitHeight
  rw [map_height_erase hs]
  simp [eraseBase, sumSpaceHeight]

theorem containerFitMinHeight_erase (m1 m : Mask) (root : Bool)
    (b : BaseElement) (c : ContainerData) (cs : List Element) :
    containerFitMinHeight (eraseBase m1 root b) c (cs.map (erase m false)) =
      containerFitMinHeight b c cs := by
  unfold containerFitMinHeight
  rw [map_minHeight_erase]
  simp [eraseBase, sumSpaceHeight]

theorem computeHeightFitSizing_erase (ctx : BaseMeasurementContext) (m : Mask)
    (hs : m.width = false) (hh : m.height = false) (hm : m.minWidth = false)
    (hw : m.wrapped = false) (root : Bool) (e : Element) :
    computeHeightFitSizing ctx (erase m root e) =
      erase { m with rootMinHeight := false } root (computeHeightFitSizing ctx e) := by
  cases e with
  | container b c cs =>
    have hcs : (cs.map (erase m false)).map (computeWidthFitSizing ctx) =
        (cs.map (computeWidthFitSizing ctx)).map (erase m false) := by
      rw [List.map_map, List.map_map]
      apply List.map_congr_left
      intro e _
      simp only [Function.comp_apply]
      rw [computeWidthFitSizing_erase ctx m false e, mask_width_minWidth_self hs hm]
    have hcs2 : (cs.map (computeWidthFitSizing ctx)).map
        (erase { m with rootMinHeight := false } false) =
        (cs.map (computeWidthFitSizing ctx)).map (erase m false) := by
      apply List.map_congr_left
      intro e _
      exact erase_child_rootMinHeight m false e
    simp only [erase, computeHeightFitSizing, eraseList_eq_map,
      computeWidthFitSizingList_eq_map]
    rw [hcs, hcs2, containerFitHeight_erase m hh, containerFitMinHeight_erase]
    congr 1
    simp [eraseBase, eraseLayout, hs, hh]
  | text b t =>
    simp only [erase, computeHeightFitSizing]
    congr 1
    simp [eraseBase, eraseLayout, hs, hh, textFitHeight, textFitMinHeight, sumSpaceHeight,
      eraseText, hw]
  | polygon b p =>
    simp only [erase, computeHeightFitSizing]
    congr 1
    simp [eraseBase, eraseLayout, hs, hh, sumSpaceHeight]

@[simp] theorem setHeight_layout_height (h : Int) (e : Element) :
    (setHeight h e).base.layout.height = h := by
  simp [setHeight]

@[simp] theorem setHeight_setBase (h : Int) (e : Element) :
    (setHeight h e).setBase e.base = e := by
  cases e <;> rfl

theorem shrinkHeights_eq {available totalMin : Int} (cs : List Element) :
    shrinkHeights available totalMin cs =
      if 0 < cs.length ∧ totalMin = 0 then none
      else some (cs.map fun child =>
        setHeight (wrap16 (Int.tdiv (available * child.base.layout.minHeight) totalMin))
          child) := by
  induction cs with
  | nil => simp [shrinkHeights]
  | cons e es ih =>
    rw [shrinkHeights, ih]
    by_cases h0 : totalMin = 0
    · simp [shrinkSize, h0]
    · simp [shrinkSize, h0]

theorem erase_setHeight {m : Mask} (hs : m.height = false) (root : Bool) (h : Int)
    (e : Element) : erase m root (setHeight h e) = setHeight h (erase m root e) := by
  cases e <;> simp [setHeight, erase, eraseBase, eraseLayout, hs, Element.setBase, Element.base]

theorem availableHeight_erase {m : Mask} (hs : m.height = false) (root : Bool)
    (b : BaseElement) : availableHeight (eraseBase m root b) = availableHeight b := by
  simp [availableHeight, eraseBase, eraseLayout, hs]

theorem distributeHeights_erase {m1 m : Mask} (hs1 : m1.height = false) (hs : m.height = false)
    (root : Bool) (b : BaseElement) (c : ContainerData) (cs : List Element) :
    distributeHeights (eraseBase m1 root b) c (cs.map (erase m false)) =
      (distributeHeights b c cs).map (List.map (erase m false)) := by
  have hrw : remainingHeight (eraseBase m1 root b) c (cs.map (erase m false)) =
      remainingHeight b c cs := by
    unfold remainingHeight
    rw [map_height_erase hs, availableHeight_erase hs1]
  have hrmw : remainingMinHeight (eraseBase m1 root b) c (cs.map (erase m false)) =
      remainingMinHeight b c cs := by
    unfold remainingMinHeight
    rw [map_minHeight_erase, availableHeight_erase hs1]
  have hfg : flexGrowTotal (cs.map (erase m false)) = flexGrowTotal cs := by
    unfold flexGrowTotal
    rw [map_grow_erase]
  have hcg : contentGrowTotalHeight (cs.map (erase m false)) = contentGrowTotalHeight cs := by
    unfold contentGrowTotalHeight
    rw [List.map_map]
    congr 1
    apply List.map_congr_left
    intro e _
    simp [eraseBase_height hs, eraseBase_minHeight_child]
  have htm : totalMinHeight (cs.map (erase m false)) = totalMinHeight cs := by
    unfold totalMinHeight
    rw [map_minHeight_erase]
  have hmap : ∀ (f : BaseElement → Int),
      (∀ b0, f (eraseBase m false b0) = f b0) →
      ((cs.map (erase m false)).map fun child => setHeight (f child.base) child) =
        (cs.map fun child => setHeight (f child.base) child).map (erase m false) := by
    intro f hf
    rw [List.map_map, List.map_map]
    apply List.map_congr_left
    intro e _
    simp only [Function.comp_apply, erase_base, hf, erase_setHeight hs]
  unfold distributeHeights
  rw [hrw, hrmw, hfg, hcg, htm, availableHeight_erase hs1, shrinkHeights_eq, shrinkHeights_eq]
  split
  · split
    · rw [Option.map_some']
      congr 1
      exact hmap (fun b0 => flexGrowSize (remainingHeight b c cs) (flexGrowTotal cs) b0.grow
        b0.layout.height) (fun b0 => by beta_reduce; rw [eraseBase_height hs]; rfl)
    · split
      · rw [Option.map_some']
        congr 1
        exact hmap (fun b0 => contentGrowSize (remainingMinHeight b c cs)
          (contentGrowTotalHeight cs) b0.layout.height b0.layout.minHeight)
          (fun b0 => by beta_reduce; rw [eraseBase_height hs, eraseBase_minHeight_child])
      · simp only [List.length_map]
        split
        · rfl
        · rw [Option.map_some']
          congr 1
          exact hmap (fun b0 => wrap16 (Int.tdiv (availableHeight b * b0.layout.minHeight)
            (totalMinHeight cs))) (fun b0 => by beta_reduce; rw [eraseBase_minHeight_child])
  · rw [Option.map_some']
    congr 1
    exact hmap (fun b0 => crossSize (availableHeight b) c.alignItems b0.alignSelf
      b0.layout.height) (fun b0 => by beta_reduce; rw [eraseBase_height hs]; rfl)

theorem heightsGrowChildren_erase {m : Mask} (cs : List Element)
    (ih : ∀ e ∈ cs, ∀ (b : BaseElement) (r r2 : Bool),
      heightsGrowFrom (eraseBase m r b) (erase m r2 e) =
        (heightsGrowFrom b e).map (erase m r)) :
    ∀ bs : List BaseElement,
      heightsGrowChildren (cs.map (erase m false)) (bs.map (eraseBase m false)) =
        (heightsGrowChildren cs bs).map (List.map (erase m false)) := by
  induction cs with
  | nil => intro bs; simp [heightsGrowChildren]
  | cons e es ihl =>
    intro bs
    have hhead : (bs.map (eraseBase m false)).headD (erase m false e).base =
        eraseBase m false (bs.headD e.base) := by
      cases bs <;> simp
    have htail : (bs.map (eraseBase m false)).tail = bs.tail.map (eraseBase m false) := by
      cases bs <;> simp
    simp only [List.map_cons, heightsGrowChildren]
    rw [hhead, htail, ih e (List.mem_cons_self _ _),
      ihl (fun x hx => ih x (List.mem_cons_of_mem _ hx))]
    cases heightsGrowFrom (bs.headD e.base) e with
    | none => rfl
    | some e1 =>
      cases heightsGrowChildren es bs.tail with
      | none => rfl
      | some es1 => rfl

theorem heightsGrowFrom_erase {m : Mask} (hs : m.height = false)
    (e : Element) : ∀ (b : BaseElement) (r r2 : Bool),
      heightsGrowFrom (eraseBase m r b) (erase m r2 e) =
        (heightsGrowFrom b e).map (erase m r) := by
  induction e using Element.induct with
  | hc b0 c cs ih =>
    intro b r r2
    simp only [erase, heightsGrowFrom, eraseList_eq_map]
    rw [distributeHeights_erase hs hs]
    cases distributeHeights b c cs with
    | none => rfl
    | some cs1 =>
      simp only [Option.map_some']
      have : (cs1.map (erase m false)).map Element.base =
          (cs1.map Element.base).map (eraseBase m false) := by
        rw [List.map_map, List.map_map]
        apply List.map_congr_left
        intro e _
        simp
      rw [this, heightsGrowChildren_erase cs ih]
      cases heightsGrowChildren cs (cs1.map Element.base) with
      | none => rfl
      | some cs2 => simp [erase, eraseList_eq_map]
  | ht b0 t => intro b r r2; simp [erase, heightsGrowFrom]
  | hp b0 p => intro b r r2; simp [erase, heightsGrowFrom]

theorem computeHeightsGrowSizing_erase {m : Mask} (hs : m.height = false) (root : Bool)
    (e : Element) :
    computeHeightsGrowSizing (erase m root e) =
      (computeHeightsGrowSizing e).map (erase m root) := by
  unfold computeHeightsGrowSizing
  rw [erase_base, heightsGrowFrom_erase hs]

/-- Writing `x` into an element whose subtree is erased by `m` and whose own base is erased
by `m2`. -/
theorem setX_erase (m m2 : Mask) (root : Bool) (x : Int) (e : Element) :
    setX x ((erase m root e).setBase (eraseBase m2 root e.base)) =
      (erase m root (setX x e)).setBase
        (eraseBase { m2 with positionX := false } root (setX x e).base) := by
  cases e <;> simp [setX, erase, eraseBase, eraseLayout, Element.setBase, Element.base]

theorem setY_erase (m m2 : Mask) (root : Bool) (y : Int) (e : Element) :
    setY y ((erase m root e).setBase (eraseBase m2 root e.base)) =
      (erase m root (setY y e)).setBase
        (eraseBase { m2 with positionY := false } root (setY y e).base) := by
  cases e <;> simp [setY, erase, eraseBase, eraseLayout, Element.setBase, Element.base]

theorem positionMain_map (F G : Element → Element) (start gap : Int)
    (set : Int → Element → Element) (size : Element → Int)
    (hset : ∀ x e, set x (F e) = G (set x e))
    (hsize : ∀ e, size (F e) = size e) (cs : List Element) :
    ∀ offset, positionMain start gap set size (cs.map F) offset =
      (positionMain start gap set size cs offset).map G := by
  induction cs with
  | nil => intro offset; rfl
  | cons e es ih =>
    intro offset
    simp only [List.map_cons, positionMain, hset, hsize, ih]

theorem positionX_erase (m1 m m2 : Mask) (hs1 : m1.width = false) (hx1 : m1.positionX = false)
    (hs : m2.width = false) (root : Bool) (b : BaseElement) (c : ContainerData)
    (cs : List Element) :
    positionX (eraseBase m1 root b) c
        (cs.map fun e => (erase m false e).setBase (eraseBase m2 false e.base)) =
      (positionX b c cs).map fun e =>
        (erase m false e).setBase (eraseBase { m2 with positionX := false } false e.base) := by
  have hbx : (eraseBase m1 root b).layout.x = b.layout.x := by
    simp [eraseBase, eraseLayout, hx1]
  unfold positionX
  split
  · rw [hbx]
    exact positionMain_map _ _ _ _ _ _ (fun x e => setX_erase m m2 false x e)
      (fun e => by simp [eraseBase_width hs]) cs 0
  · rw [List.map_map, List.map_map]
    apply List.map_congr_left
    intro e _
    simp only [Function.comp_apply, base_setBase, eraseBase_width hs, eraseBase_width hs1, hbx,
      setX_erase]
    rfl

theorem positionY_erase (m1 m m2 : Mask) (hs1 : m1.height = false) (hy1 : m1.positionY = false)
    (hs : m2.height = false) (root : Bool) (b : BaseElement) (c : ContainerData)
    (cs : List Element) :
    positionY (eraseBase m1 root b) c
        (cs.map fun e => (erase m false e).setBase (eraseBase m2 false e.base)) =
      (positionY b c cs).map fun e =>
        (erase m false e).setBase (eraseBase { m2 with positionY := false } false e.base) := by
  have hby : (eraseBase m1 root b).layout.y = b.layout.y := by
    simp [eraseBase, eraseLayout, hy1]
  unfold positionY
  split
  · rw [hby]
    exact positionMain_map _ _ _ _ _ _ (fun y e => setY_erase m m2 false y e)
      (fun e => by simp [eraseBase_height hs]) cs 0
  · rw [List.map_map, List.map_map]
    apply List.map_congr_left
    intro e _
    simp only [Function.comp_apply, base_setBase, eraseBase_height hs, eraseBase_height hs1,
      hby, setY_erase]
    rfl

theorem positionChildren_erase (m1 m : Mask) (hs1 : m1.width = false)
    (hh1 : m1.height = false) (hx1 : m1.positionX = false) (hy1 : m1.positionY = false)
    (hs : m.width = false) (hh : m.height = false) (root : Bool) (b : BaseElement) (c : ContainerData)
    (cs : List Element) :
    (positionChildren (eraseBase m1 root b) c (cs.map (erase m false))).map Element.base =
      ((positionChildren b c cs).map Element.base).map
        (eraseBase { m with positionX := false, positionY := false } false) := by
  have h0 : cs.map (erase m false) =
      cs.map fun e => (erase m false e).setBase (eraseBase m false e.base) := by
    apply List.map_congr_left
    intro e _
    rw [← erase_base, setBase_base]
  unfold positionChildren
  rw [h0, positionX_erase m1 m m hs1 hx1 hs,
    positionY_erase m1 m { m with positionX := false } hh1 hy1 hh]
  rw [List.map_map, List.map_map]
  apply List.map_congr_left
  intro e _
  simp

theorem positionsChildren_erase {m m2 : Mask} (cs : List Element)
    (ih : ∀ e ∈ cs, ∀ (b : BaseElement) (r r2 : Bool),
      positionsFrom (eraseBase m2 r b) (erase m r2 e) = erase m2 r (positionsFrom b e)) :
    ∀ bs : List BaseElement, bs.length = cs.length →
      positionsChildren (cs.map (erase m false)) (bs.map (eraseBase m2 false)) =
        (positionsChildren cs bs).map (erase m2 false) := by
  induction cs with
  | nil => intro bs _; simp [positionsChildren]
  | cons e es ihl =>
    intro bs hlen
    cases bs with
    | nil => simp at hlen
    | cons b0 bs =>
      simp only [List.map_cons, positionsChildren, List.headD_cons, List.tail_cons]
      rw [ih e (List.mem_cons_self _ _),
        ihl (fun x hx => ih x (List.mem_cons_of_mem _ hx)) bs (by simpa using hlen)]

theorem positionsFrom_erase {m : Mask} (hs : m.width = false) (hh : m.height = false)
    (e : Element) :
    ∀ (b : BaseElement) (r r2 : Bool),
      positionsFrom (eraseBase { m with positionX := false, positionY := false } r b)
          (erase m r2 e) =
        erase { m with positionX := false, positionY := false } r (positionsFrom b e) := by
  induction e using Element.induct with
  | hc b0 c cs ih =>
    intro b r r2
    simp only [erase, positionsFrom, eraseList_eq_map]
    rw [positionChildren_erase { m with positionX := false, positionY := false } m
      hs hh rfl rfl hs hh, positionsChildren_erase cs ih _ (by simp [positionChildren_length])]
  | ht b0 t => intro b r r2; simp [erase, positionsFrom, eraseText]
  | hp b0 p => intro b r r2; simp [erase, positionsFrom]

theorem computePositions_erase {m : Mask} (hs : m.width = false) (hh : m.height = false)
    (e : Element) :
    computePositions (erase m true e) =
      erase { m with positionX := false, positionY := false } true (computePositions e) := by
  unfold computePositions
  rw [← positionsFrom_erase hs hh e e.base true true, erase_base]
  congr 1
  simp [eraseBase, eraseLayout]

/-! ## `layout` reads its input only through `layoutInput` -/

theorem erase_none (root : Bool) (e : Element) :
    erase ⟨false, false, false, false, false, false, false⟩ root e = e := by
  induction e using Element.induct generalizing root with
  | hc b c cs ih =>
    simp only [erase, eraseList_eq_map]
    congr 1
    conv => rhs; rw [← List.map_id cs]
    apply List.map_congr_left
    intro e he
    exact ih e he false
  | ht b t => rfl
  | hp b p => rfl

/-- The result of `layout` depends on the given tree only through `layoutInput`. -/
theorem layout_layoutInput (ctx : BaseMeasurementContext) (e : Element) :
    layout ctx (layoutInput e) = layout ctx e := by
  have h1 : initElements (erase allComputed true e) =
      erase ⟨false, false, true, true, true, true, true⟩ true (initElements e) :=
    initElements_erase _ _ _
  have h2 : ∀ x,
      computeWidthFitSizing ctx (erase ⟨false, false, true, true, true, true, true⟩ true x) =
      erase ⟨false, false, false, true, true, true, true⟩ true (computeWidthFitSizing ctx x) :=
    fun x => computeWidthFitSizing_erase ctx _ _ x
  have h3 : ∀ x,
      computeWidthsGrowSizing (erase ⟨false, false, false, true, true, true, true⟩ true x) =
      (computeWidthsGrowSizing x).map
        (erase ⟨false, false, false, true, true, true, true⟩ true) :=
    fun x => computeWidthsGrowSizing_erase rfl rfl _ x
  have h4 : ∀ x,
      computeTextWrapping ctx (erase ⟨false, false, false, true, true, true, true⟩ true x) =
      erase ⟨false, false, false, false, true, true, true⟩ true (computeTextWrapping ctx x) :=
    fun x => computeTextWrapping_erase ctx _ rfl _ x
  have h5 : ∀ x,
      computeHeightFitSizing ctx (erase ⟨false, false, false, false, true, true, true⟩ true x) =
      erase ⟨false, false, false, false, true, true, false⟩ true
        (computeHeightFitSizing ctx x) :=
    fun x => computeHeightFitSizing_erase ctx _ rfl rfl rfl rfl _ x
  have h6 : ∀ x,
      computeHeightsGrowSizing (erase ⟨false, false, false, false, true, true, false⟩ true x) =
      (computeHeightsGrowSizing x).map
        (erase ⟨false, false, false, false, true, true, false⟩ true) :=
    fun x => computeHeightsGrowSizing_erase rfl _ x
  have h7 : ∀ x,
      computePositions (erase ⟨false, false, false, false, true, true, false⟩ true x) =
      computePositions x := by
    intro x
    have := computePositions_erase (m := ⟨false, false, false, false, true, true, false⟩)
      rfl rfl x
    rw [this]
    exact erase_none true _
  simp only [layout, layoutInput, h1, h2, h3]
  cases computeWidthsGrowSizing (computeWidthFitSizing ctx (initElements e)) with
  | none => rfl
  | some e2 =>
    simp only [Option.map_some', h4, h5, h6]
    cases computeHeightsGrowSizing
        (computeHeightFitSizing ctx (computeTextWrapping ctx e2)) with
    | none => rfl
    | some e5 => simp only [Option.map_some', h7]

/-! ## `layout` leaves `layoutInput` as it is -/

theorem erase_initElements {m : Mask} (hs : m.width = true) (hh : m.height = true)
    (root : Bool) (e : Element) :
    erase m root (initElements e) = erase m root e := by
  induction e using Element.induct generalizing root with
  | hc b c cs ih =>
    simp only [erase, initElements, eraseList_eq_map, initElementsList_eq_map, List.map_map]
    congr 1
    · simp [eraseBase, eraseLayout, hs, hh]
    · apply List.map_congr_left
      intro e he
      exact ih e he false
  | ht b t => simp [erase, initElements, eraseBase, eraseLayout, hs, hh]
  | hp b p => simp [erase, initElements, eraseBase, eraseLayout, hs, hh]

theorem erase_computeWidthFitSizing (ctx : BaseMeasurementContext) {m : Mask}
    (hs : m.width = true) (hm : m.minWidth = true) (root : Bool) (e : Element) :
    erase m root (computeWidthFitSizing ctx e) = erase m root e := by
  induction e using Element.induct generalizing root with
  | hc b c cs ih =>
    simp only [erase, computeWidthFitSizing, eraseList_eq_map,
      computeWidthFitSizingList_eq_map, List.map_map]
    congr 1
    · simp [eraseBase, eraseLayout, hs, hm]
    · apply List.map_congr_left
      intro e he
      exact ih e he false
  | ht b t => simp [erase, computeWidthFitSizing, eraseBase, eraseLayout, hs, hm]
  | hp b p => simp [erase, computeWidthFitSizing, eraseBase, eraseLayout, hs, hm]

theorem erase_setWidth_of_size {m : Mask} (hs : m.width = true) (root : Bool) (w : Int)
    (e : Element) : erase m root (setWidth w e) = erase m root e := by
  cases e <;> simp [setWidth, erase, eraseBase, eraseLayout, hs, Element.setBase, Element.base]

theorem erase_setHeight_of_size {m : Mask} (hs : m.height = true) (root : Bool) (h : Int)
    (e : Element) : erase m root (setHeight h e) = erase m root e := by
  cases e <;> simp [setHeight, erase, eraseBase, eraseLayout, hs, Element.setBase, Element.base]

/-- The distribution step writes a width into each child and nothing else. -/
theorem distributeWidths_setWidth {b : BaseElement} {c : ContainerData} {cs cs1 : List Element}
    (h : distributeWidths b c cs = some cs1) :
    List.Forall₂ (fun child child1 => ∃ w, child1 = setWidth w child) cs cs1 := by
  have key : ∀ (f : Element → Int),
      List.Forall₂ (fun child child1 => ∃ w, child1 = setWidth w child) cs
        (cs.map fun child => setWidth (f child) child) := by
    intro f
    rw [List.forall₂_map_right_iff]
    exact List.forall₂_same.mpr (fun x _ => ⟨f x, rfl⟩)
  unfold distributeWidths at h
  split at h
  · split at h
    · cases h; exact key _
    · split at h
      · cases h; exact key _
      · rw [shrinkWidths_eq] at h
        split at h
        · exact absurd h (by simp)
        · cases h; exact key _
  · cases h; exact key _

theorem setBase_setWidth_base (w : Int) (e : Element) :
    e.setBase (setWidth w e).base = setWidth w e := by
  cases e <;> rfl

theorem erase_widthsGrowChildren {m : Mask} (hs : m.width = true) (cs : List Element)
    (ih : ∀ e ∈ cs, ∀ (b : BaseElement) (root : Bool) (r : Element),
      widthsGrowFrom b e = some r → erase m root r = erase m root (e.setBase b)) :
    ∀ (cs1 cs2 : List Element),
      List.Forall₂ (fun child child1 => ∃ w, child1 = setWidth w child) cs cs1 →
      widthsGrowChildren cs (cs1.map Element.base) = some cs2 →
      cs2.map (erase m false) = cs.map (erase m false) := by
  induction cs with
  | nil =>
    intro cs1 cs2 _ h
    rw [widthsGrowChildren] at h
    cases h
    rfl
  | cons e es ihl =>
    intro cs1 cs2 hrel h
    cases hrel with
    | cons hhead htail =>
      rename_i e1 es1
      obtain ⟨w, rfl⟩ := hhead
      rw [widthsGrowChildren] at h
      simp only [List.map_cons, List.headD_cons, List.tail_cons] at h
      split at h
      · exact absurd h (by simp)
      · rename_i r hr
        split at h
        · exact absurd h (by simp)
        · rename_i rs hrs
          cases h
          simp only [List.map_cons]
          rw [ih e (List.mem_cons_self _ _) _ false r hr, setBase_setWidth_base,
            erase_setWidth_of_size hs,
            ihl (fun x hx => ih x (List.mem_cons_of_mem _ hx)) es1 rs htail hrs]

theorem erase_widthsGrowFrom {m : Mask} (hs : m.width = true) (e : Element) :
    ∀ (b : BaseElement) (root : Bool) (r : Element),
      widthsGrowFrom b e = some r → erase m root r = erase m root (e.setBase b) := by
  induction e using Element.induct with
  | hc b0 c cs ih =>
    intro b root r h
    rw [widthsGrowFrom] at h
    split at h
    · exact absurd h (by simp)
    · rename_i cs1 hcs1
      split at h
      · exact absurd h (by simp)
      · rename_i cs2 hcs2
        cases h
        simp only [erase, Element.setBase, eraseList_eq_map]
        rw [erase_widthsGrowChildren hs cs ih cs1 cs2 (distributeWidths_setWidth hcs1) hcs2]
  | ht b0 t => intro b root r h; rw [widthsGrowFrom] at h; cases h; rfl
  | hp b0 p => intro b root r h; rw [widthsGrowFrom] at h; cases h; rfl

theorem erase_computeWidthsGrowSizing {m : Mask} (hs : m.width = true) (root : Bool)
    {e r : Element} (h : computeWidthsGrowSizing e = some r) :
    erase m root r = erase m root e := by
  unfold computeWidthsGrowSizing at h
  rw [erase_widthsGrowFrom hs e _ root r h, setBase_base]

theorem erase_computeTextWrapping (ctx : BaseMeasurementContext) {m : Mask}
    (hw : m.wrapped = true) (root : Bool) (e : Element) :
    erase m root (computeTextWrapping ctx e) = erase m root e := by
  induction e using Element.induct generalizing root with
  | hc b c cs ih =>
    simp only [erase, computeTextWrapping, eraseList_eq_map, computeTextWrappingList_eq_map,
      List.map_map]
    congr 1
    apply List.map_congr_left
    intro e he
    exact ih e he false
  | ht b t => simp [erase, computeTextWrapping, eraseText, hw]
  | hp b p => rfl

theorem erase_computeHeightFitSizing (ctx : BaseMeasurementContext) {m : Mask}
    (hs : m.width = true) (hh : m.height = true) (hm : m.minWidth = true)
    (hr : m.rootMinHeight = true) (e : Element) :
    erase m true (computeHeightFitSizing ctx e) = erase m true e := by
  cases e with
  | container b c cs =>
    simp only [erase, computeHeightFitSizing, eraseList_eq_map,
      computeWidthFitSizingList_eq_map, List.map_map]
    congr 1
    · simp [eraseBase, eraseLayout, hh, hr]
    · apply List.map_congr_left
      intro e _
      exact erase_computeWidthFitSizing ctx hs hm false e
  | text b t => simp [erase, computeHeightFitSizing, eraseBase, eraseLayout, hh, hr]
  | polygon b p => simp [erase, computeHeightFitSizing, eraseBase, eraseLayout, hh, hr]

/-- The distribution step writes a height into each child and nothing else. -/
theorem distributeHeights_setHeight {b : BaseElement} {c : ContainerData}
    {cs cs1 : List Element} (h : distributeHeights b c cs = some cs1) :
    List.Forall₂ (fun child child1 => ∃ v, child1 = setHeight v child) cs cs1 := by
  have key : ∀ (f : Element → Int),
      List.Forall₂ (fun child child1 => ∃ v, child1 = setHeight v child) cs
        (cs.map fun child => setHeight (f child) child) := by
    intro f
    rw [List.forall₂_map_right_iff]
    exact List.forall₂_same.mpr (fun x _ => ⟨f x, rfl⟩)
  unfold distributeHeights at h
  split at h
  · split at h
    · cases h; exact key _
    · split at h
      · cases h; exact key _
      · rw [shrinkHeights_eq] at h
        split at h
        · exact absurd h (by simp)
        · cases h; exact key _
  · cases h; exact key _

theorem setBase_setHeight_base (v : Int) (e : Element) :
    e.setBase (setHeight v e).base = setHeight v e := by
  cases e <;> rfl

theorem erase_heightsGrowChildren {m : Mask} (hs : m.height = true) (cs : List Element)
    (ih : ∀ e ∈ cs, ∀ (b : BaseElement) (root : Bool) (r : Element),
      heightsGrowFrom b e = some r → erase m root r = erase m root (e.setBase b)) :
    ∀ (cs1 cs2 : List Element),
      List.Forall₂ (fun child child1 => ∃ v, child1 = setHeight v child) cs cs1 →
      heightsGrowChildren cs (cs1.map Element.base) = some cs2 →
      cs2.map (erase m false) = cs.map (erase m false) := by
  induction cs with
  | nil =>
    intro cs1 cs2 _ h
    rw [heightsGrowChildren] at h
    cases h
    rfl
  | cons e es ihl =>
    intro cs1 cs2 hrel h
    cases hrel with
    | cons hhead htail =>
      rename_i e1 es1
      obtain ⟨v, rfl⟩ := hhead
      rw [heightsGrowChildren] at h
      simp only [List.map_cons, List.headD_cons, List.tail_cons] at h
      split at h
      · exact absurd h (by simp)
      · rename_i r hr
        split at h
        · exact absurd h (by simp)
        · rename_i rs hrs
          cases h
          simp only [List.map_cons]
          rw [ih e (List.mem_cons_self _ _) _ false r hr, setBase_setHeight_base,
            erase_setHeight_of_size hs,
            ihl (fun x hx => ih x (List.mem_cons_of_mem _ hx)) es1 rs htail hrs]

theorem erase_heightsGrowFrom {m : Mask} (hs : m.height = true) (e : Element) :
    ∀ (b : BaseElement) (root : Bool) (r : Element),
      heightsGrowFrom b e = some r → erase m root r = erase m root (e.setBase b) := by
  induction e using Element.induct with
  | hc b0 c cs ih =>
    intro b root r h
    rw [heightsGrowFrom] at h
    split at h
    · exact absurd h (by simp)
    · rename_i cs1 hcs1
      split at h
      · exact absurd h (by simp)
      · rename_i cs2 hcs2
        cases h
        simp only [erase, Element.setBase, eraseList_eq_map]
        rw [erase_heightsGrowChildren hs cs ih cs1 cs2 (distributeHeights_setHeight hcs1) hcs2]
  | ht b0 t => intro b root r h; rw [heightsGrowFrom] at h; cases h; rfl
  | hp b0 p => intro b root r h; rw [heightsGrowFrom] at h; cases h; rfl

theorem erase_computeHeightsGrowSizing {m : Mask} (hs : m.height = true) (root : Bool)
    {e r : Element} (h : computeHeightsGrowSizing e = some r) :
    erase m root r = erase m root e := by
  unfold computeHeightsGrowSizing at h
  rw [erase_heightsGrowFrom hs e _ root r h, setBase_base]

theorem erase_setX_of_position {m : Mask} (hx : m.positionX = true) (x : Int) (e : Element) :
    erase m false (setX x e) = erase m false e := by
  cases e <;> simp [setX, erase, eraseBase, eraseLayout, hx, Element.setBase, Element.base]

theorem erase_setY_of_position {m : Mask} (hy : m.positionY = true) (y : Int) (e : Element) :
    erase m false (setY y e) = erase m false e := by
  cases e <;> simp [setY, erase, eraseBase, eraseLayout, hy, Element.setBase, Element.base]

theorem positionMain_forall₂ (start gap : Int) (set : Int → Element → Element)
    (size : Element → Int) (cs : List Element) :
    ∀ offset, List.Forall₂ (fun child child1 => ∃ v, child1 = set v child) cs
      (positionMain start gap set size cs offset) := by
  induction cs with
  | nil => intro offset; exact List.Forall₂.nil
  | cons e es ih =>
    intro offset
    rw [positionMain]
    exact List.Forall₂.cons ⟨_, rfl⟩ (ih _)

theorem forall₂_chain {R S T : Element → Element → Prop}
    (h : ∀ a b c, R a b → S b c → T a c) :
    ∀ (l1 l2 l3 : List Element), List.Forall₂ R l1 l2 → List.Forall₂ S l2 l3 →
      List.Forall₂ T l1 l3 := by
  intro l1
  induction l1 with
  | nil =>
    intro l2 l3 h1 h2
    cases h1
    cases h2
    exact List.Forall₂.nil
  | cons a as ih =>
    intro l2 l3 h1 h2
    cases h1 with
    | cons hab hrest =>
      cases h2 with
      | cons hbc hrest2 => exact List.Forall₂.cons (h _ _ _ hab hbc) (ih _ _ hrest hrest2)

/-- The positioning of the children writes an `x` and a `y` into each child and nothing
else. -/
theorem positionChildren_forall₂ (b : BaseElement) (c : ContainerData) (cs : List Element) :
    List.Forall₂ (fun child child1 => ∃ x y, child1 = setY y (setX x child)) cs
      (positionChildren b c cs) := by
  have hX : List.Forall₂ (fun child child1 => ∃ x, child1 = setX x child) cs
      (positionX b c cs) := by
    unfold positionX
    split
    · exact positionMain_forall₂ _ _ _ _ _ _
    · rw [List.forall₂_map_right_iff]
      exact List.forall₂_same.mpr (fun x _ => ⟨_, rfl⟩)
  have hY : List.Forall₂ (fun child child1 => ∃ y, child1 = setY y child) (positionX b c cs)
      (positionY b c (positionX b c cs)) := by
    unfold positionY
    split
    · exact positionMain_forall₂ _ _ _ _ _ _
    · rw [List.forall₂_map_right_iff]
      exact List.forall₂_same.mpr (fun x _ => ⟨_, rfl⟩)
  unfold positionChildren
  refine forall₂_chain ?_ _ _ _ hX hY
  rintro a b0 c0 ⟨x, rfl⟩ ⟨y, rfl⟩
  exact ⟨x, y, rfl⟩

theorem setBase_position_base (x y : Int) (e : Element) :
    e.setBase (setY y (setX x e)).base = setY y (setX x e) := by
  cases e <;> rfl

theorem erase_positionsChildren {m : Mask} (hx : m.positionX = true)
    (hy : m.positionY = true) (cs : List Element)
    (ih : ∀ e ∈ cs, ∀ (b : BaseElement) (root : Bool),
      erase m root (positionsFrom b e) = erase m root (e.setBase b)) :
    ∀ (cs1 : List Element),
      List.Forall₂ (fun child child1 => ∃ x y, child1 = setY y (setX x child)) cs cs1 →
      (positionsChildren cs (cs1.map Element.base)).map (erase m false) =
        cs.map (erase m false) := by
  induction cs with
  | nil =>
    intro cs1 _
    rw [positionsChildren]
  | cons e es ihl =>
    intro cs1 hrel
    cases hrel with
    | cons hhead htail =>
      rename_i e1 es1
      obtain ⟨x, y, rfl⟩ := hhead
      rw [positionsChildren]
      simp only [List.map_cons, List.headD_cons, List.tail_cons]
      rw [ih e (List.mem_cons_self _ _), setBase_position_base, erase_setY_of_position hy,
        erase_setX_of_position hx,
        ihl (fun x hx => ih x (List.mem_cons_of_mem _ hx)) es1 htail]

theorem erase_positionsFrom {m : Mask} (hx : m.positionX = true) (hy : m.positionY = true)
    (e : Element) : ∀ (b : BaseElement) (root : Bool),
      erase m root (positionsFrom b e) = erase m root (e.setBase b) := by
  induction e using Element.induct with
  | hc b0 c cs ih =>
    intro b root
    simp only [positionsFrom, erase, Element.setBase, eraseList_eq_map]
    rw [erase_positionsChildren hx hy cs ih _ (positionChildren_forall₂ b c cs)]
  | ht b0 t => intro b root; rfl
  | hp b0 p => intro b root; rfl

theorem erase_computePositions {m : Mask} (hx : m.positionX = true)
    (hy : m.positionY = true) (root : Bool) (e : Element) :
    erase m root (computePositions e) = erase m root e := by
  unfold computePositions
  rw [erase_positionsFrom hx hy, setBase_base]

/-- The tree `layout` returns has the `layoutInput` of the tree it was given: the shape, the
style fields, the texts, the position of the root and the computed min heights of the other
elements are as before. -/
theorem layoutInput_layout (ctx : BaseMeasurementContext) {e r : Element}
    (h : layout ctx e = some r) : layoutInput r = layoutInput e := by
  unfold layout at h
  simp only at h
  split at h
  · exact absurd h (by simp)
  · rename_i e2 he2
    split at h
    · exact absurd h (by simp)
    · rename_i e5 he5
      cases h
      unfold layoutInput
      rw [erase_computePositions rfl rfl, erase_computeHeightsGrowSizing rfl true he5,
        erase_computeHeightFitSizing ctx rfl rfl rfl rfl, erase_computeTextWrapping ctx rfl,
        erase_computeWidthsGrowSizing rfl true he2, erase_computeWidthFitSizing ctx rfl rfl,
        erase_initElements rfl rfl]

/-- C1 (idempotence of `layout`): when `layout` returns a tree for a root container and a
measurement capability, running `layout` on that tree with the same capability returns the
same tree, so every computed field and every `wrappedText` is as after the first call. -/
theorem layout_idempotent (ctx : BaseMeasurementContext) (b : BaseElement)
    (c : ContainerData) (cs : List Element) (r : Element)
    (h : layout ctx (.container b c cs) = some r) : layout ctx r = some r := by
  rw [← layout_layoutInput ctx r, layoutInput_layout ctx h, layout_layoutInput ctx, h]

/-- Instance of C1: a row of explicit width 200 with gap 5 holding a text and a column. -/
theorem layout_idempotent_witness :
    ∃ r, layout tenPixelFont
        (.container { newBaseElement zeroLayout with width := 200 }
          { newContainerData with gap := 5 } idempotenceExampleChildren) = some r ∧
      layout tenPixelFont r = some r :=
  ⟨_, rfl, layout_idempotent tenPixelFont { newBaseElement zeroLayout with width := 200 }
    { newContainerData with gap := 5 } idempotenceExampleChildren _ rfl⟩

/-! ## The recursive passes satisfy the recursion of the source -/

theorem widthsGrowFrom_setBase (b b2 : BaseElement) (e : Element) :
    widthsGrowFrom b (e.setBase b2) = widthsGrowFrom b e := by
  cases e <;> simp [Element.setBase, widthsGrowFrom]

theorem setWidth_eq_setBase (w : Int) (e : Element) :
    setWidth w e = e.setBase (setWidth w e).base := by
  cases e <;> rfl

theorem widthsGrowChildren_eq_mapM (cs : List Element) :
    ∀ cs1 : List Element,
      List.Forall₂ (fun child child1 => ∃ w, child1 = setWidth w child) cs cs1 →
      widthsGrowChildren cs (cs1.map Element.base) = cs1.mapM computeWidthsGrowSizing := by
  induction cs with
  | nil =>
    intro cs1 h
    cases h
    rfl
  | cons e es ih =>
    intro cs1 h
    cases h with
    | cons hhead htail =>
      rename_i e1 es1
      obtain ⟨w, rfl⟩ := hhead
      rw [widthsGrowChildren, List.mapM_cons]
      simp only [List.map_cons, List.headD_cons, List.tail_cons]
      rw [ih es1 htail]
      have : computeWidthsGrowSizing (setWidth w e) = widthsGrowFrom (setWidth w e).base e := by
        unfold computeWidthsGrowSizing
        conv => lhs; rw [setWidth_eq_setBase w e, widthsGrowFrom_setBase, base_setBase]
      rw [this]
      cases widthsGrowFrom (setWidth w e).base e with
      | none => rfl
      | some r =>
        cases List.mapM computeWidthsGrowSizing es1 with
        | none => rfl
        | some rs => rfl

/-- The recursion of `computeWidthsGrowSizing` as the source writes it: distribute the widths
over the children, then run the pass on every child. -/
theorem computeWidthsGrowSizing_unfold (b : BaseElement) (c : ContainerData)
    (cs : List Element) :
    computeWidthsGrowSizing (.container b c cs) =
      (distributeWidths b c cs).bind fun cs1 =>
        (cs1.mapM computeWidthsGrowSizing).map (Element.container b c) := by
  rw [show computeWidthsGrowSizing (.container b c cs) =
    widthsGrowFrom b (.container b c cs) from rfl, widthsGrowFrom]
  cases h : distributeWidths b c cs with
  | none => rfl
  | some cs1 =>
    simp only [Option.some_bind]
    rw [widthsGrowChildren_eq_mapM cs cs1 (distributeWidths_setWidth h)]
    cases List.mapM computeWidthsGrowSizing cs1 with
    | none => rfl
    | some cs2 => rfl

/-- Only a container is entered by the recursion: a text or a polygon is left as it is. -/
theorem computeWidthsGrowSizing_text_polygon (b : BaseElement) (t : TextData)
    (p : PolygonData) :
    computeWidthsGrowSizing (.text b t) = some (.text b t) ∧
      computeWidthsGrowSizing (.polygon b p) = some (.polygon b p) :=
  ⟨rfl, rfl⟩

theorem heightsGrowFrom_setBase (b b2 : BaseElement) (e : Element) :
    heightsGrowFrom b (e.setBase b2) = heightsGrowFrom b e := by
  cases e <;> simp [Element.setBase, heightsGrowFrom]

theorem setHeight_eq_setBase (v : Int) (e : Element) :
    setHeight v e = e.setBase (setHeight v e).base := by
  cases e <;> rfl

theorem heightsGrowChildren_eq_mapM (cs : List Element) :
    ∀ cs1 : List Element,
      List.Forall₂ (fun child child1 => ∃ v, child1 = setHeight v child) cs cs1 →
      heightsGrowChildren cs (cs1.map Element.base) = cs1.mapM computeHeightsGrowSizing := by
  induction cs with
  | nil =>
    intro cs1 h
    cases h
    rfl
  | cons e es ih =>
    intro cs1 h
    cases h with
    | cons hhead htail =>
      rename_i e1 es1
      obtain ⟨v, rfl⟩ := hhead
      rw [heightsGrowChildren, List.mapM_cons]
      simp only [List.map_cons, List.headD_cons, List.tail_cons]
      rw [ih es1 htail]
      have : computeHeightsGrowSizing (setHeight v e) =
          heightsGrowFrom (setHeight v e).base e := by
        unfold computeHeightsGrowSizing
        conv => lhs; rw [setHeight_eq_setBase v e, heightsGrowFrom_setBase, base_setBase]
      rw [this]
      cases heightsGrowFrom (setHeight v e).base e with
      | none => rfl
      | some r =>
        cases List.mapM computeHeightsGrowSizing es1 with
        | none => rfl
        | some rs => rfl

/-- The recursion of `computeHeightsGrowSizing` as the source writes it. -/
theorem computeHeightsGrowSizing_unfold (b : BaseElement) (c : ContainerData)
    (cs : List Element) :
    computeHeightsGrowSizing (.container b c cs) =
      (distributeHeights b c cs).bind fun cs1 =>
        (cs1.mapM computeHeightsGrowSizing).map (Element.container b c) := by
  rw [show computeHeightsGrowSizing (.container b c cs) =
    heightsGrowFrom b (.container b c cs) from rfl, heightsGrowFrom]
  cases h : distributeHeights b c cs with
  | none => rfl
  | some cs1 =>
    simp only [Option.some_bind]
    rw [heightsGrowChildren_eq_mapM cs cs1 (distributeHeights_setHeight h)]
    cases List.mapM computeHeightsGrowSizing cs1 with
    | none => rfl
    | some cs2 => rfl

theorem positionsFrom_setBase (b b2 : BaseElement) (e : Element) :
    positionsFrom b (e.setBase b2) = positionsFrom b e := by
  cases e <;> simp [Element.setBase, positionsFrom]

theorem position_eq_setBase (x y : Int) (e : Element) :
    setY y (setX x e) = e.setBase (setY y (setX x e)).base := by
  cases e <;> rfl

theorem positionsChildren_eq_map (cs : List Element) :
    ∀ cs1 : List Element,
      List.Forall₂ (fun child child1 => ∃ x y, child1 = setY y (setX x child)) cs cs1 →
      positionsChildren cs (cs1.map Element.base) = cs1.map computePositions := by
  induction cs with
  | nil =>
    intro cs1 h
    cases h
    rfl
  | cons e es ih =>
    intro cs1 h
    cases h with
    | cons hhead htail =>
      rename_i e1 es1
      obtain ⟨x, y, rfl⟩ := hhead
      rw [positionsChildren]
      simp only [List.map_cons, List.headD_cons, List.tail_cons]
      rw [ih es1 htail]
      have : computePositions (setY y (setX x e)) =
          positionsFrom (setY y (setX x e)).base e := by
        unfold computePositions
        conv => lhs; rw [position_eq_setBase x y e, positionsFrom_setBase, base_setBase]
      rw [this]

/-- The recursion of `computePositions` as the source writes it: position the children, then
run the pass on every child. -/
theorem computePositions_unfold (b : BaseElement) (c : ContainerData) (cs : List Element) :
    computePositions (.container b c cs) =
      .container b c ((positionChildren b c cs).map computePositions) := by
  rw [show computePositions (.container b c cs) =
    positionsFrom b (.container b c cs) from rfl, positionsFrom,
    positionsChildren_eq_map cs _ (positionChildren_forall₂ b c cs)]

/-! ## The shrink branch and the cross axis of the width pass -/

theorem distributeWidths_shrink {b : BaseElement} {c : ContainerData} {cs : List Element}
    (hrow : c.layoutDirection = .LayoutRow) (hrem : remainingWidth b c cs < 0)
    (hmin : remainingMinWidth b c cs < 0) (htotal : totalMinWidth cs ≠ 0) :
    distributeWidths b c cs = some (cs.map fun child =>
        setWidth (wrap16 (Int.tdiv (availableWidth b * child.base.layout.minWidth)
          (totalMinWidth cs))) child) := by
  unfold distributeWidths
  rw [if_pos hrow, if_neg (by omega), if_neg (by omega), shrinkWidths_eq,
    if_neg (fun h => htotal h.2)]

theorem distributeWidths_column {b : BaseElement} {c : ContainerData} {cs : List Element}
    (hcol : c.layoutDirection = .LayoutColumn) :
    distributeWidths b c cs = some (cs.map fun child =>
      setWidth (crossSize (availableWidth b) c.alignItems child.base.alignSelf
        child.base.layout.width) child) := by
  unfold distributeWidths
  rw [if_neg (by rw [hcol]; decide)]

theorem totalMinWidth_eq (cs : List Element) :
    totalMinWidth cs = wrap16 (cs.map fun child => child.base.layout.minWidth).sum := by
  unfold totalMinWidth
  rw [addLoop_of_inInt16 _ _ (by decide), zero_add]

/-- C14 (shrink formula), amended: in a row with `remainingWidth < 0`, `remainingMinWidth < 0`
and `totalMinWidth ≠ 0`, the division of the pass at this container has a divisor that is
not zero, and whenever the pass returns, every child has the width
`availableWidth * child.minWidth / totalMinWidth` with the quotient truncated toward zero
and stored in 16 bits, `totalMinWidth` being the 16-bit sum of the computed min widths of
the children.  The quotient is the mathematical floor when
`availableWidth * child.minWidth ≥ 0` and `totalMinWidth > 0`, and the width is that floor
when it fits 16 bits. -/
theorem shrink_formula (b : BaseElement) (c : ContainerData) (cs : List Element)
    (hrow : c.layoutDirection = .LayoutRow) (hrem : remainingWidth b c cs < 0)
    (hmin : remainingMinWidth b c cs < 0) (htotal : totalMinWidth cs ≠ 0) :
    (distributeWidths b c cs).isSome = true ∧
    totalMinWidth cs = wrap16 (cs.map fun child => child.base.layout.minWidth).sum ∧
    ∀ r, computeWidthsGrowSizing (.container b c cs) = some r →
      List.Forall₂ (fun child child1 =>
        child1.base.layout.width =
          wrap16 (Int.tdiv (availableWidth b * child.base.layout.minWidth)
            (totalMinWidth cs)) ∧
        (0 ≤ availableWidth b * child.base.layout.minWidth → 0 < totalMinWidth cs →
          Int.tdiv (availableWidth b * child.base.layout.minWidth) (totalMinWidth cs) =
            ⌊((availableWidth b * child.base.layout.minWidth : Int) : ℚ) /
              (totalMinWidth cs : ℚ)⌋ ∧
          (inInt16 ⌊((availableWidth b * child.base.layout.minWidth : Int) : ℚ) /
              (totalMinWidth cs : ℚ)⌋ →
            child1.base.layout.width =
              ⌊((availableWidth b * child.base.layout.minWidth : Int) : ℚ) /
                (totalMinWidth cs : ℚ)⌋)))
        cs r.children := by
  have hdist := distributeWidths_shrink hrow hrem hmin htotal
  refine ⟨by rw [hdist]; rfl, totalMinWidth_eq cs, ?_⟩
  intro r hr
  obtain ⟨cs1, cs2, h1, rfl, h2⟩ := computeWidthsGrowSizing_container hr
  rw [hdist] at h1
  cases h1
  refine forall₂_of_map_base
    (P := fun child b1 =>
      b1.layout.width =
          wrap16 (Int.tdiv (availableWidth b * child.base.layout.minWidth)
            (totalMinWidth cs)) ∧
        (0 ≤ availableWidth b * child.base.layout.minWidth → 0 < totalMinWidth cs →
          Int.tdiv (availableWidth b * child.base.layout.minWidth) (totalMinWidth cs) =
            ⌊((availableWidth b * child.base.layout.minWidth : Int) : ℚ) /
              (totalMinWidth cs : ℚ)⌋ ∧
          (inInt16 ⌊((availableWidth b * child.base.layout.minWidth : Int) : ℚ) /
              (totalMinWidth cs : ℚ)⌋ →
            b1.layout.width =
              ⌊((availableWidth b * child.base.layout.minWidth : Int) : ℚ) /
                (totalMinWidth cs : ℚ)⌋)))
    cs cs2 h2 ?_
  intro child _
  refine ⟨setWidth_layout_width _ _, fun hnum hden => ?_⟩
  have hfloor := tdiv_eq_floor _ _ hnum hden
  refine ⟨hfloor, fun hin => ?_⟩
  rw [setWidth_layout_width, hfloor]
  exact wrap16_of_inInt16 hin

/-- Instance of C14, amended: an available width of 50 shared by two children of min width
30 gives each the width 25. -/
theorem shrink_formula_witness :
    remainingWidth shrinkExampleBase newContainerData
      [shrinkExampleChild, shrinkExampleChild] < 0 ∧
    (computeWidthsGrowSizing (.container shrinkExampleBase newContainerData
      [shrinkExampleChild, shrinkExampleChild])).map
      (fun r => r.children.map fun child => child.base.layout.width) = some [25, 25] ∧
    (distributeWidths shrinkExampleBase newContainerData
      [shrinkExampleChild, shrinkExampleChild]).isSome = true :=
  ⟨by decide, by decide,
    (shrink_formula shrinkExampleBase newContainerData
      [shrinkExampleChild, shrinkExampleChild] rfl (by decide) (by decide) (by decide)).1⟩

/-- C14 as stated fails: with an available width of `-1` and two children of min width 1 the
shrink branch is taken, the pass gives both children the width `0`, and the floor of
`-1 * 1 / 2` is `-1`. -/
theorem shrink_formula_not_floor :
    remainingWidth negativeShrinkBase newContainerData
      [negativeShrinkChild, negativeShrinkChild] < 0 ∧
    remainingMinWidth negativeShrinkBase newContainerData
      [negativeShrinkChild, negativeShrinkChild] < 0 ∧
    totalMinWidth [negativeShrinkChild, negativeShrinkChild] ≠ 0 ∧
    (computeWidthsGrowSizing (.container negativeShrinkBase newContainerData
      [negativeShrinkChild, negativeShrinkChild])).map
      (fun r => r.children.map fun child => child.base.layout.width) = some [0, 0] ∧
    ⌊((availableWidth negativeShrinkBase * negativeShrinkChild.base.layout.minWidth : Int) : ℚ) /
      (totalMinWidth [negativeShrinkChild, negativeShrinkChild] : ℚ)⌋ = -1 := by
  refine ⟨by decide, by decide, by decide, by decide, ?_⟩
  rw [floor_div_eq_ediv _ _ (by decide)]
  decide

/-! ## The style inputs are not written -/

theorem styleInputsList_eq_map (cs : List Element) :
    styleInputsList cs = cs.map styleInputs := by
  induction cs with
  | nil => rw [styleInputsList]; rfl
  | cons e es ih => rw [styleInputsList, ih]; rfl

theorem styleInputs_erase (m : Mask) (e : Element) :
    ∀ root, styleInputs (erase m root e) = styleInputs e := by
  induction e using Element.induct with
  | hc b c cs ih =>
    intro root
    rw [erase, styleInputs, styleInputs, eraseList_eq_map, styleInputsList_eq_map,
      styleInputsList_eq_map, List.map_map]
    congr 1
    exact List.map_congr_left fun e he => ih e he false
  | ht b t => intro root; rfl
  | hp b p => intro root; rfl

/-- C12 (layout changes only outputs): when `layout` returns `r` for the tree `t`, the trees
`r` and `t` are equal once the computed layout record and the wrapped text of every node are
blanked: they have the same shape, the same element types in the same order, and every style
field of every node (sizes, paddings, margins, border, grow, alignment, gap, direction, text,
font and the rest) is unchanged. -/
theorem layout_changes_only_outputs (ctx : BaseMeasurementContext) (t r : Element)
    (h : layout ctx t = some r) : styleInputs r = styleInputs t := by
  have h1 := congrArg styleInputs (layoutInput_layout ctx h)
  unfold layoutInput at h1
  rwa [styleInputs_erase, styleInputs_erase] at h1

/-- Instance of C12: a row of explicit width 200 with gap 5 holding a text and a column. -/
theorem layout_changes_only_outputs_witness :
    ∃ r, layout tenPixelFont growResetExample = some r ∧
      styleInputs r = styleInputs growResetExample :=
  ⟨_, rfl, layout_changes_only_outputs tenPixelFont growResetExample _ rfl⟩

/-! ## The cross axis -/

/-- C15 (column stretch rule), amended: for a column, the pass at this container returns,
and whenever `computeWidthsGrowSizing` returns, a child has the width `availableWidth` when
the `alignItems` of the parent is `Stretch` and its own `alignSelf` is `Auto`, or when its
own `alignSelf` is `Stretch` whatever the parent has; every other child has its width
clamped down to `availableWidth` when it exceeds it and unchanged otherwise. -/
theorem column_stretch_rule (b : BaseElement) (c : ContainerData) (cs : List Element)
    (hcol : c.layoutDirection = .LayoutColumn) :
    (distributeWidths b c cs).isSome = true ∧
    ∀ r, computeWidthsGrowSizing (.container b c cs) = some r →
      List.Forall₂ (fun child child1 =>
        ((c.alignItems = .AlignStretch ∧ child.base.alignSelf = .AlignAuto) ∨
            child.base.alignSelf = .AlignStretch →
          child1.base.layout.width = availableWidth b) ∧
        (¬ ((c.alignItems = .AlignStretch ∧ child.base.alignSelf = .AlignAuto) ∨
            child.base.alignSelf = .AlignStretch) →
          (availableWidth b < child.base.layout.width →
            child1.base.layout.width = availableWidth b) ∧
          (¬ availableWidth b < child.base.layout.width →
            child1.base.layout.width = child.base.layout.width)))
        cs r.children := by
  have hdist := @distributeWidths_column b c cs hcol
  refine ⟨by rw [hdist]; rfl, ?_⟩
  intro r hr
  obtain ⟨cs1, cs2, h1, rfl, h2⟩ := computeWidthsGrowSizing_container hr
  rw [hdist] at h1
  cases h1
  refine forall₂_of_map_base
    (P := fun child b1 =>
      ((c.alignItems = .AlignStretch ∧ child.base.alignSelf = .AlignAuto) ∨
            child.base.alignSelf = .AlignStretch →
          b1.layout.width = availableWidth b) ∧
        (¬ ((c.alignItems = .AlignStretch ∧ child.base.alignSelf = .AlignAuto) ∨
            child.base.alignSelf = .AlignStretch) →
          (availableWidth b < child.base.layout.width →
            b1.layout.width = availableWidth b) ∧
          (¬ availableWidth b < child.base.layout.width →
            b1.layout.width = child.base.layout.width)))
    cs cs2 h2 ?_
  intro child _
  rw [setWidth_layout_width]
  unfold crossSize
  refine ⟨fun h => by rw [if_pos h], fun h => ⟨fun h2 => ?_, fun h2 => ?_⟩⟩
  · rw [if_neg h, if_pos h2]
  · rw [if_neg h, if_neg h2]

/-- Instance of C15, amended: in a column of available width 50 whose `alignItems` is
`Center`, a child of width 10 with `alignSelf = Stretch` gets the width 50 and one with
`alignSelf = Auto` keeps the width 10. -/
theorem column_stretch_rule_witness :
    centerColumnData.layoutDirection = .LayoutColumn ∧
    (computeWidthsGrowSizing (.container shrinkExampleBase centerColumnData
      [alignedChild .AlignStretch, alignedChild .AlignAuto])).map
      (fun r => r.children.map fun child => child.base.layout.width) = some [50, 10] ∧
    (distributeWidths shrinkExampleBase centerColumnData
      [alignedChild .AlignStretch, alignedChild .AlignAuto]).isSome = true :=
  ⟨rfl, by decide,
    (column_stretch_rule shrinkExampleBase centerColumnData
      [alignedChild .AlignStretch, alignedChild .AlignAuto] rfl).1⟩

/-- C15 as stated fails: under a column whose `alignItems` is `Center` and whose available
width is 50, a child of width 10 with `alignSelf = Stretch` is not left at 10 (the available
width does not exceed... it is set to 50). -/
theorem column_stretch_child_under_center :
    centerColumnData.layoutDirection = .LayoutColumn ∧
    centerColumnData.alignItems = .AlignCenter ∧
    (alignedChild .AlignStretch).base.alignSelf = .AlignStretch ∧
    (alignedChild .AlignStretch).base.layout.width = 10 ∧
    availableWidth shrinkExampleBase = 50 ∧
    (computeWidthsGrowSizing (.container shrinkExampleBase centerColumnData
      [alignedChild .AlignStretch])).map
      (fun r => r.children.map fun child => child.base.layout.width) = some [50] := by
  decide

/-- C16 (cross-axis alignment uses the effective alignment), refuted on the code: under a
column whose `alignItems` is `Center` and whose inner width is 50, `computePositions` leaves
a child of width 10 with `alignSelf = Auto` at the base `x` (the claim centers it at 20) and
centers the child with `alignSelf = Stretch` (whose effective alignment is not `Center`);
the child with `alignSelf = Start` is not shifted. -/
theorem column_center_skips_auto_child :
    (computePositions (.container shrinkExampleBase centerColumnData
      [alignedChild .AlignAuto, alignedChild .AlignStretch, alignedChild .AlignStart])).children.map
      (fun child => (child.base.alignSelf, child.base.layout.x)) =
      [(.AlignAuto, 0), (.AlignStretch, 20), (.AlignStart, 0)] ∧
    Int.tdiv (50 - 10) 2 = 20 := by
  decide

/-! ## Height fit sizing -/

/-- C19 (text min height), amended: for every text element `computeHeightFitSizing` sets
`layout.minHeight` to the 16-bit sum of `paddingTop + paddingBottom + 2 * borderWidth` and
the `minHeight` style when that style is explicit (`≥ 0`), and to the computed
`layout.height` of the element otherwise. -/
theorem text_minHeight_rule (ctx : BaseMeasurementContext) (b : BaseElement) (t : TextData) :
    (computeHeightFitSizing ctx (.text b t)).base.layout.minHeight =
      (if b.minHeight ≥ 0 then
        wrap16 (b.paddingTop + b.paddingBottom + 2 * b.borderWidth + b.minHeight)
      else (computeHeightFitSizing ctx (.text b t)).base.layout.height) ∧
    (b.minHeight ≥ 0 →
      inInt16 (b.paddingTop + b.paddingBottom + 2 * b.borderWidth + b.minHeight) →
      (computeHeightFitSizing ctx (.text b t)).base.layout.minHeight =
        b.paddingTop + b.paddingBottom + 2 * b.borderWidth + b.minHeight) := by
  have key : (computeHeightFitSizing ctx (.text b t)).base.layout.minHeight =
      (if b.minHeight ≥ 0 then
        wrap16 (b.paddingTop + b.paddingBottom + 2 * b.borderWidth + b.minHeight)
      else (computeHeightFitSizing ctx (.text b t)).base.layout.height) := by
    simp only [computeHeightFitSizing, base_text, textFitMinHeight, sumSpaceHeight]
    split
    · rw [wrap16_add_left]
      congr 1
      ring
    · rfl
  refine ⟨key, fun h hin => ?_⟩
  rw [key, if_pos h, wrap16_of_inInt16 hin]

/-- C19 as stated fails: a text with `paddingTop = 3` and the explicit `minHeight = 10` gets
the computed min height 13. -/
theorem text_minHeight_adds_padding :
    minHeightExampleBase.minHeight = 10 ∧
    (computeHeightFitSizing tenPixelFont
      (.text minHeightExampleBase (newTextData "a"))).base.layout.minHeight = 13 :=
  ⟨rfl, rfl⟩

/-- C17 (height fit sizing sizes text by wrapped lines), refuted on the code: run on a column
that holds a text with two wrapped lines and line height 12, `computeHeightFitSizing` leaves
the computed height of the text at its old value 0 (the claim gives 24) and gives the column
the height 0; after `layout` on the same tree the text has one wrapped line and the height
0 as well. -/
theorem height_fit_skips_children :
    lineHeight tenPixelFont 1 0 = 12 ∧
    (computeHeightFitSizing tenPixelFont heightFitExample).children.map
      (fun child => (child.wrappedText.length, child.base.height, child.base.layout.height)) =
      [(2, -2, 0)] ∧
    (computeHeightFitSizing tenPixelFont heightFitExample).base.layout.height = 0 ∧
    (layout tenPixelFont heightFitExample).map (fun r => r.children.map
      fun child => (child.wrappedText.length, child.base.layout.height)) = some [(1, 0)] := by
  decide

/-- C18 (widths are final after the width grow pass), refuted on the code: in a row of
explicit width 200 and gap 5 holding a text and a column with grow 1, the width pass gives
the column the width 85 and its text child the width 85, and after `layout` both have the
width 30 of the fit sizing that `computeHeightFitSizing` runs again on the children. -/
theorem layout_resets_grown_widths :
    ((computeWidthsGrowSizing
      (computeWidthFitSizing tenPixelFont (initElements growResetExample))).map
      fun r => r.children.map fun child =>
        (child.base.layout.width, child.children.map fun e => e.base.layout.width)) =
      some [(110, []), (85, [85])] ∧
    ((layout tenPixelFont growResetExample).map
      fun r => r.children.map fun child =>
        (child.base.layout.width, child.children.map fun e => e.base.layout.width)) =
      some [(110, []), (30, [30])] := by
  decide

/-- C11 (computed layout fully overwritten), refuted on the code: two columns with one
polygon child that differ only in the computed min height the child has before the call (0
and 7) get different computed min heights from `layout`, at the root and at the child: no
pass writes the min height of an element other than the root, and the min height of the root
is computed from it. -/
theorem layout_reads_stale_minHeight :
    styleInputs (staleMinHeightExample 0) = styleInputs (staleMinHeightExample 7) ∧
    (staleMinHeightExample 0).base.layout.x = (staleMinHeightExample 7).base.layout.x ∧
    (staleMinHeightExample 0).base.layout.y = (staleMinHeightExample 7).base.layout.y ∧
    ((layout tenPixelFont (staleMinHeightExample 0)).map fun r =>
      (r.base.layout.minHeight, r.children.map fun child => child.base.layout.minHeight)) =
      some (0, [0]) ∧
    ((layout tenPixelFont (staleMinHeightExample 7)).map fun r =>
      (r.base.layout.minHeight, r.children.map fun child => child.base.layout.minHeight)) =
      some (7, [7]) := by
  refine ⟨rfl, rfl, rfl, ?_, ?_⟩ <;> decide

/-! ## The sentinels of the style dimensions -/

theorem normalizeSentinelsList_eq_map (cs : List Element) :
    normalizeSentinelsList cs = cs.map normalizeSentinels := by
  induction cs with
  | nil => rw [normalizeSentinelsList]; rfl
  | cons e es ih => rw [normalizeSentinelsList, ih]; rfl

theorem normalizeLength_ite {α : Type} (v : Int) (g : Int → α) (x : α) :
    (if normalizeLength v ≥ 0 then g (normalizeLength v) else x) =
      if v ≥ 0 then g v else x := by
  unfold normalizeLength LengthAuto
  by_cases h : v < 0
  · rw [if_pos h, if_neg (by decide), if_neg (by omega)]
  · rw [if_neg h]

@[simp] theorem normalizeSentinels_base (e : Element) :
    (normalizeSentinels e).base = normalizeBase e.base := by
  cases e <;> simp [normalizeSentinels]

@[simp] theorem normalizeBase_layout (b : BaseElement) : (normalizeBase b).layout = b.layout :=
  rfl

@[simp] theorem normalizeBase_grow (b : BaseElement) : (normalizeBase b).grow = b.grow := rfl

@[simp] theorem normalizeBase_alignSelf (b : BaseElement) :
    (normalizeBase b).alignSelf = b.alignSelf := rfl

theorem normalizeSentinels_setBase (b : BaseElement) (e : Element) :
    normalizeSentinels (e.setBase b) = (normalizeSentinels e).setBase (normalizeBase b) := by
  cases e <;> simp [normalizeSentinels, Element.setBase]

theorem map_normalize_layout {α : Type} (g : BaseElement → α)
    (hg : ∀ b, g (normalizeBase b) = g b) (cs : List Element) :
    ((cs.map normalizeSentinels).map fun child => g child.base) =
      cs.map fun child => g child.base := by
  rw [List.map_map]
  apply List.map_congr_left
  intro e _
  simp only [Function.comp_apply, normalizeSentinels_base, hg]

theorem initElements_normalize (e : Element) :
    initElements (normalizeSentinels e) = normalizeSentinels (initElements e) := by
  induction e using Element.induct with
  | hc b c cs ih =>
    simp only [normalizeSentinels, initElements, normalizeSentinelsList_eq_map,
      initElementsList_eq_map, List.map_map]
    congr 1
    exact List.map_congr_left fun e he => ih e he
  | ht b t => rfl
  | hp b p => rfl

theorem sumSpaceWidth_normalize (b : BaseElement) :
    sumSpaceWidth (normalizeBase b) = sumSpaceWidth b := rfl

theorem sumSpaceHeight_normalize (b : BaseElement) :
    sumSpaceHeight (normalizeBase b) = sumSpaceHeight b := rfl

theorem containerFitWidth_normalize (b : BaseElement) (c : ContainerData) (cs : List Element) :
    containerFitWidth (normalizeBase b) c (cs.map normalizeSentinels) =
      containerFitWidth b c cs := by
  unfold containerFitWidth
  rw [map_normalize_layout (fun b => b.layout.width) (fun _ => rfl), sumSpaceWidth_normalize,
    List.length_map]
  exact normalizeLength_ite b.width (fun v => v) _

theorem containerFitMinWidth_normalize (b : BaseElement) (c : ContainerData)
    (cs : List Element) :
    containerFitMinWidth (normalizeBase b) c (cs.map normalizeSentinels) =
      containerFitMinWidth b c cs := by
  unfold containerFitMinWidth
  rw [map_normalize_layout (fun b => b.layout.minWidth) (fun _ => rfl),
    sumSpaceWidth_normalize, List.length_map]
  exact normalizeLength_ite b.minWidth (fun v => v) _

theorem computeWidthFitSizing_normalize (ctx : BaseMeasurementContext) (e : Element) :
    computeWidthFitSizing ctx (normalizeSentinels e) =
      normalizeSentinels (computeWidthFitSizing ctx e) := by
  induction e using Element.induct with
  | hc b c cs ih =>
    have hcs : (cs.map normalizeSentinels).map (computeWidthFitSizing ctx) =
        (cs.map (computeWidthFitSizing ctx)).map normalizeSentinels := by
      rw [List.map_map, List.map_map]
      exact List.map_congr_left fun e he => ih e he
    simp only [normalizeSentinels, computeWidthFitSizing, normalizeSentinelsList_eq_map,
      computeWidthFitSizingList_eq_map]
    rw [hcs, containerFitWidth_normalize, containerFitMinWidth_normalize]
    rfl
  | ht b t =>
    simp only [normalizeSentinels, computeWidthFitSizing]
    have hw : textFitWidth ctx (normalizeBase b) t = textFitWidth ctx b t :=
      normalizeLength_ite b.width (fun v => v) _
    have hm : textFitMinWidth ctx (normalizeBase b) t = textFitMinWidth ctx b t :=
      normalizeLength_ite b.minWidth (fun v => v) _
    rw [hw, hm]
    rfl
  | hp b p => rfl

theorem normalize_setWidth (w : Int) (e : Element) :
    normalizeSentinels (setWidth w e) = setWidth w (normalizeSentinels e) := by
  cases e <;> rfl

theorem normalize_setHeight (w : Int) (e : Element) :
    normalizeSentinels (setHeight w e) = setHeight w (normalizeSentinels e) := by
  cases e <;> rfl

theorem normalize_setX (w : Int) (e : Element) :
    normalizeSentinels (setX w e) = setX w (normalizeSentinels e) := by
  cases e <;> rfl

theorem normalize_setY (w : Int) (e : Element) :
    normalizeSentinels (setY w e) = setY w (normalizeSentinels e) := by
  cases e <;> rfl

theorem availableWidth_normalize (b : BaseElement) :
    availableWidth (normalizeBase b) = availableWidth b := rfl

theorem availableHeight_normalize (b : BaseElement) :
    availableHeight (normalizeBase b) = availableHeight b := rfl

theorem map_set_normalize (set : Int → Element → Element)
    (hset : ∀ v e, normalizeSentinels (set v e) = set v (normalizeSentinels e))
    (g : BaseElement → Int) (hg : ∀ b, g (normalizeBase b) = g b) (cs : List Element) :
    ((cs.map normalizeSentinels).map fun child => set (g child.base) child) =
      (cs.map fun child => set (g child.base) child).map normalizeSentinels := by
  rw [List.map_map, List.map_map]
  apply List.map_congr_left
  intro e _
  simp only [Function.comp_apply, normalizeSentinels_base, hg, hset]

theorem distributeWidths_normalize (b : BaseElement) (c : ContainerData) (cs : List Element) :
    distributeWidths (normalizeBase b) c (cs.map normalizeSentinels) =
      (distributeWidths b c cs).map (List.map normalizeSentinels) := by
  have hrw : remainingWidth (normalizeBase b) c (cs.map normalizeSentinels) =
      remainingWidth b c cs := by
    unfold remainingWidth
    rw [map_normalize_layout (fun b => b.layout.width) (fun _ => rfl), availableWidth_normalize]
  have hrmw : remainingMinWidth (normalizeBase b) c (cs.map normalizeSentinels) =
      remainingMinWidth b c cs := by
    unfold remainingMinWidth
    rw [map_normalize_layout (fun b => b.layout.minWidth) (fun _ => rfl),
      availableWidth_normalize]
  have hfg : flexGrowTotal (cs.map normalizeSentinels) = flexGrowTotal cs := by
    unfold flexGrowTotal
    rw [map_normalize_layout (fun b => b.grow) (fun _ => rfl)]
  have hcg : contentGrowTotalWidth (cs.map normalizeSentinels) = contentGrowTotalWidth cs := by
    unfold contentGrowTotalWidth
    rw [map_normalize_layout (fun b => contentGrow b.layout.width b.layout.minWidth)
      (fun _ => rfl)]
  have htm : totalMinWidth (cs.map normalizeSentinels) = totalMinWidth cs := by
    unfold totalMinWidth
    rw [map_normalize_layout (fun b => b.layout.minWidth) (fun _ => rfl)]
  unfold distributeWidths
  rw [hrw, hrmw, hfg, hcg, htm, availableWidth_normalize, shrinkWidths_eq, shrinkWidths_eq]
  split
  · split
    · rw [Option.map_some']
      congr 1
      exact map_set_normalize setWidth normalize_setWidth
        (fun b0 => flexGrowSize (remainingWidth b c cs) (flexGrowTotal cs) b0.grow
          b0.layout.width) (fun _ => rfl) cs
    · split
      · rw [Option.map_some']
        congr 1
        exact map_set_normalize setWidth normalize_setWidth
          (fun b0 => contentGrowSize (remainingMinWidth b c cs)
            (contentGrowTotalWidth cs) b0.layout.width b0.layout.minWidth) (fun _ => rfl) cs
      · simp only [List.length_map]
        split
        · rfl
        · rw [Option.map_some']
          congr 1
          exact map_set_normalize setWidth normalize_setWidth
            (fun b0 => wrap16 (Int.tdiv (availableWidth b * b0.layout.minWidth)
              (totalMinWidth cs))) (fun _ => rfl) cs
  · rw [Option.map_some']
    congr 1
    exact map_set_normalize setWidth normalize_setWidth
      (fun b0 => crossSize (availableWidth b) c.alignItems b0.alignSelf
        b0.layout.width) (fun _ => rfl) cs

theorem widthsGrowChildren_normalize (cs : List Element)
    (ih : ∀ e ∈ cs, ∀ b : BaseElement,
      widthsGrowFrom (normalizeBase b) (normalizeSentinels e) =
        (widthsGrowFrom b e).map normalizeSentinels) :
    ∀ bs : List BaseElement,
      widthsGrowChildren (cs.map normalizeSentinels) (bs.map normalizeBase) =
        (widthsGrowChildren cs bs).map (List.map normalizeSentinels) := by
  induction cs with
  | nil => intro bs; simp [widthsGrowChildren]
  | cons e es ihl =>
    intro bs
    have hhead : (bs.map normalizeBase).headD (normalizeSentinels e).base =
        normalizeBase (bs.headD e.base) := by
      cases bs <;> simp
    have htail : (bs.map normalizeBase).tail = bs.tail.map normalizeBase := by
      cases bs <;> simp
    simp only [List.map_cons, widthsGrowChildren]
    rw [hhead, htail, ih e (List.mem_cons_self _ _),
      ihl (fun x hx => ih x (List.mem_cons_of_mem _ hx))]
    cases widthsGrowFrom (bs.headD e.base) e with
    | none => rfl
    | some e1 =>
      cases widthsGrowChildren es bs.tail with
      | none => rfl
      | some es1 => rfl

theorem map_base_normalize (cs : List Element) :
    (cs.map normalizeSentinels).map Element.base = (cs.map Element.base).map normalizeBase := by
  rw [List.map_map, List.map_map]
  apply List.map_congr_left
  intro e _
  simp

theorem widthsGrowFrom_normalize (e : Element) : ∀ b : BaseElement,
    widthsGrowFrom (normalizeBase b) (normalizeSentinels e) =
      (widthsGrowFrom b e).map normalizeSentinels := by
  induction e using Element.induct with
  | hc b0 c cs ih =>
    intro b
    simp only [normalizeSentinels, widthsGrowFrom, normalizeSentinelsList_eq_map]
    rw [distributeWidths_normalize]
    cases distributeWidths b c cs with
    | none => rfl
    | some cs1 =>
      simp only [Option.map_some']
      rw [map_base_normalize, widthsGrowChildren_normalize cs ih]
      cases widthsGrowChildren cs (cs1.map Element.base) with
      | none => rfl
      | some cs2 => simp [normalizeSentinels, normalizeSentinelsList_eq_map]
  | ht b0 t => intro b; simp [normalizeSentinels, widthsGrowFrom]
  | hp b0 p => intro b; simp [normalizeSentinels, widthsGrowFrom]

theorem computeWidthsGrowSizing_normalize (e : Element) :
    computeWidthsGrowSizing (normalizeSentinels e) =
      (computeWidthsGrowSizing e).map normalizeSentinels := by
  unfold computeWidthsGrowSizing
  rw [normalizeSentinels_base, widthsGrowFrom_normalize]

theorem computeTextWrapping_normalize (ctx : BaseMeasurementContext) (e : Element) :
    computeTextWrapping ctx (normalizeSentinels e) =
      normalizeSentinels (computeTextWrapping ctx e) := by
  induction e using Element.induct with
  | hc b c cs ih =>
    simp only [normalizeSentinels, computeTextWrapping, normalizeSentinelsList_eq_map,
      computeTextWrappingList_eq_map, List.map_map]
    congr 1
    exact List.map_congr_left fun e he => ih e he
  | ht b t => rfl
  | hp b p => rfl

theorem computeHeightFitSizing_normalize (ctx : BaseMeasurementContext) (e : Element) :
    computeHeightFitSizing ctx (normalizeSentinels e) =
      normalizeSentinels (computeHeightFitSizing ctx e) := by
  cases e with
  | container b c cs =>
    have hcs : (cs.map normalizeSentinels).map (computeWidthFitSizing ctx) =
        (cs.map (computeWidthFitSizing ctx)).map normalizeSentinels := by
      rw [List.map_map, List.map_map]
      exact List.map_congr_left fun e _ => computeWidthFitSizing_normalize ctx e
    have hh : containerFitHeight (normalizeBase b) c
        ((cs.map (computeWidthFitSizing ctx)).map normalizeSentinels) =
        containerFitHeight b c (cs.map (computeWidthFitSizing ctx)) := by
      unfold containerFitHeight
      rw [map_normalize_layout (fun b => b.layout.height) (fun _ => rfl),
        sumSpaceHeight_normalize, List.length_map]
      exact normalizeLength_ite b.height (fun v => v) _
    have hm : containerFitMinHeight (normalizeBase b) c
        ((cs.map (computeWidthFitSizing ctx)).map normalizeSentinels) =
        containerFitMinHeight b c (cs.map (computeWidthFitSizing ctx)) := by
      unfold containerFitMinHeight
      rw [map_normalize_layout (fun b => b.layout.minHeight) (fun _ => rfl),
        sumSpaceHeight_normalize, List.length_map]
      exact normalizeLength_ite b.minHeight (fun v => v) _
    simp only [normalizeSentinels, computeHeightFitSizing, normalizeSentinelsList_eq_map,
      computeWidthFitSizingList_eq_map]
    rw [hcs, hh, hm]
    rfl
  | text b t =>
    simp only [normalizeSentinels, computeHeightFitSizing]
    have hh : textFitHeight ctx (normalizeBase b) t = textFitHeight ctx b t :=
      normalizeLength_ite b.height (fun v => wrap16 (sumSpaceHeight b + v)) _
    have hm : textFitMinHeight ctx (normalizeBase b) t = textFitMinHeight ctx b t := by
      unfold textFitMinHeight
      rw [hh]
      exact normalizeLength_ite b.minHeight (fun v => wrap16 (sumSpaceHeight b + v)) _
    rw [hh, hm]
    rfl
  | polygon b p => rfl

theorem distributeHeights_normalize (b : BaseElement) (c : ContainerData) (cs : List Element) :
    distributeHeights (normalizeBase b) c (cs.map normalizeSentinels) =
      (distributeHeights b c cs).map (List.map normalizeSentinels) := by
  have hrw : remainingHeight (normalizeBase b) c (cs.map normalizeSentinels) =
      remainingHeight b c cs := by
    unfold remainingHeight
    rw [map_normalize_layout (fun b => b.layout.height) (fun _ => rfl),
      availableHeight_normalize]
  have hrmw : remainingMinHeight (normalizeBase b) c (cs.map normalizeSentinels) =
      remainingMinHeight b c cs := by
    unfold remainingMinHeight
    rw [map_normalize_layout (fun b => b.layout.minHeight) (fun _ => rfl),
      availableHeight_normalize]
  have hfg : flexGrowTotal (cs.map normalizeSentinels) = flexGrowTotal cs := by
    unfold flexGrowTotal
    rw [map_normalize_layout (fun b => b.grow) (fun _ => rfl)]
  have hcg : contentGrowTotalHeight (cs.map normalizeSentinels) =
      contentGrowTotalHeight cs := by
    unfold contentGrowTotalHeight
    rw [map_normalize_layout (fun b => contentGrow b.layout.height b.layout.minHeight)
      (fun _ => rfl)]
  have htm : totalMinHeight (cs.map normalizeSentinels) = totalMinHeight cs := by
    unfold totalMinHeight
    rw [map_normalize_layout (fun b => b.layout.minHeight) (fun _ => rfl)]
  unfold distributeHeights
  rw [hrw, hrmw, hfg, hcg, htm, availableHeight_normalize, shrinkHeights_eq, shrinkHeights_eq]
  split
  · split
    · rw [Option.map_some']
      congr 1
      exact map_set_normalize setHeight normalize_setHeight
        (fun b0 => flexGrowSize (remainingHeight b c cs) (flexGrowTotal cs) b0.grow
          b0.layout.height) (fun _ => rfl) cs
    · split
      · rw [Option.map_some']
        congr 1
        exact map_set_normalize setHeight normalize_setHeight
          (fun b0 => contentGrowSize (remainingMinHeight b c cs)
            (contentGrowTotalHeight cs) b0.layout.height b0.layout.minHeight)
          (fun _ => rfl) cs
      · simp only [List.length_map]
        split
        · rfl
        · rw [Option.map_some']
          congr 1
          exact map_set_normalize setHeight normalize_setHeight
            (fun b0 => wrap16 (Int.tdiv (availableHeight b * b0.layout.minHeight)
              (totalMinHeight cs))) (fun _ => rfl) cs
  · rw [Option.map_some']
    congr 1
    exact map_set_normalize setHeight normalize_setHeight
      (fun b0 => crossSize (availableHeight b) c.alignItems b0.alignSelf
        b0.layout.height) (fun _ => rfl) cs

theorem heightsGrowChildren_normalize (cs : List Element)
    (ih : ∀ e ∈ cs, ∀ b : BaseElement,
      heightsGrowFrom (normalizeBase b) (normalizeSentinels e) =
        (heightsGrowFrom b e).map normalizeSentinels) :
    ∀ bs : List BaseElement,
      heightsGrowChildren (cs.map normalizeSentinels) (bs.map normalizeBase) =
        (heightsGrowChildren cs bs).map (List.map normalizeSentinels) := by
  induction cs with
  | nil => intro bs; simp [heightsGrowChildren]
  | cons e es ihl =>
    intro bs
    have hhead : (bs.map normalizeBase).headD (normalizeSentinels e).base =
        normalizeBase (bs.headD e.base) := by
      cases bs <;> simp
    have htail : (bs.map normalizeBase).tail = bs.tail.map normalizeBase := by
      cases bs <;> simp
    simp only [List.map_cons, heightsGrowChildren]
    rw [hhead, htail, ih e (List.mem_cons_self _ _),
      ihl (fun x hx => ih x (List.mem_cons_of_mem _ hx))]
    cases heightsGrowFrom (bs.headD e.base) e with
    | none => rfl
    | some e1 =>
      cases heightsGrowChildren es bs.tail with
      | none => rfl
      | some es1 => rfl

theorem heightsGrowFrom_normalize (e : Element) : ∀ b : BaseElement,
    heightsGrowFrom (normalizeBase b) (normalizeSentinels e) =
      (heightsGrowFrom b e).map normalizeSentinels := by
  induction e using Element.induct with
  | hc b0 c cs ih =>
    intro b
    simp only [normalizeSentinels, heightsGrowFrom, normalizeSentinelsList_eq_map]
    rw [distributeHeights_normalize]
    cases distributeHeights b c cs with
    | none => rfl
    | some cs1 =>
      simp only [Option.map_some']
      rw [map_base_normalize, heightsGrowChildren_normalize cs ih]
      cases heightsGrowChildren cs (cs1.map Element.base) with
      | none => rfl
      | some cs2 => simp [normalizeSentinels, normalizeSentinelsList_eq_map]
  | ht b0 t => intro b; simp [normalizeSentinels, heightsGrowFrom]
  | hp b0 p => intro b; simp [normalizeSentinels, heightsGrowFrom]

theorem computeHeightsGrowSizing_normalize (e : Element) :
    computeHeightsGrowSizing (normalizeSentinels e) =
      (computeHeightsGrowSizing e).map normalizeSentinels := by
  unfold computeHeightsGrowSizing
  rw [normalizeSentinels_base, heightsGrowFrom_normalize]

theorem positionChildren_normalize (b : BaseElement) (c : ContainerData) (cs : List Element) :
    positionChildren (normalizeBase b) c (cs.map normalizeSentinels) =
      (positionChildren b c cs).map normalizeSentinels := by
  have hx : positionX (normalizeBase b) c (cs.map normalizeSentinels) =
      (positionX b c cs).map normalizeSentinels := by
    unfold positionX
    split
    · exact positionMain_map _ _ _ _ _ _ (fun x e => (normalize_setX x e).symm)
        (fun e => by simp) cs 0
    · exact map_set_normalize setX normalize_setX
        (fun b0 => crossPosition (b.layout.x + b.paddingLeft + b.borderWidth)
          (b.layout.width - b.paddingLeft - b.borderWidth - b.paddingRight - b.borderWidth)
          c.alignItems b0.alignSelf b0.layout.width) (fun _ => rfl) cs
  have hy : ∀ cs : List Element, positionY (normalizeBase b) c (cs.map normalizeSentinels) =
      (positionY b c cs).map normalizeSentinels := by
    intro cs
    unfold positionY
    split
    · exact positionMain_map _ _ _ _ _ _ (fun x e => (normalize_setY x e).symm)
        (fun e => by simp) cs 0
    · exact map_set_normalize setY normalize_setY
        (fun b0 => crossPosition (b.layout.y + b.paddingTop + b.borderWidth)
          (b.layout.height - b.paddingTop - b.borderWidth - b.paddingBottom - b.borderWidth)
          c.alignItems b0.alignSelf b0.layout.height) (fun _ => rfl) cs
  unfold positionChildren
  rw [hx, hy]

theorem positionsChildren_normalize (cs : List Element)
    (ih : ∀ e ∈ cs, ∀ b : BaseElement,
      positionsFrom (normalizeBase b) (normalizeSentinels e) =
        normalizeSentinels (positionsFrom b e)) :
    ∀ bs : List BaseElement,
      positionsChildren (cs.map normalizeSentinels) (bs.map normalizeBase) =
        (positionsChildren cs bs).map normalizeSentinels := by
  induction cs with
  | nil => intro bs; simp [positionsChildren]
  | cons e es ihl =>
    intro bs
    have hhead : (bs.map normalizeBase).headD (normalizeSentinels e).base =
        normalizeBase (bs.headD e.base) := by
      cases bs <;> simp
    have htail : (bs.map normalizeBase).tail = bs.tail.map normalizeBase := by
      cases bs <;> simp
    simp only [List.map_cons, positionsChildren]
    rw [hhead, htail, ih e (List.mem_cons_self _ _),
      ihl (fun x hx => ih x (List.mem_cons_of_mem _ hx))]

theorem positionsFrom_normalize (e : Element) : ∀ b : BaseElement,
    positionsFrom (normalizeBase b) (normalizeSentinels e) =
      normalizeSentinels (positionsFrom b e) := by
  induction e using Element.induct with
  | hc b0 c cs ih =>
    intro b
    simp only [normalizeSentinels, positionsFrom, normalizeSentinelsList_eq_map]
    rw [positionChildren_normalize, map_base_normalize, positionsChildren_normalize cs ih]
  | ht b0 t => intro b; simp [normalizeSentinels, positionsFrom]
  | hp b0 p => intro b; simp [normalizeSentinels, positionsFrom]

theorem computePositions_normalize (e : Element) :
    computePositions (normalizeSentinels e) = normalizeSentinels (computePositions e) := by
  unfold computePositions
  rw [normalizeSentinels_base, positionsFrom_normalize]

theorem layout_normalize (ctx : BaseMeasurementContext) (e : Element) :
    layout ctx (normalizeSentinels e) = (layout ctx e).map normalizeSentinels := by
  simp only [layout, initElements_normalize, computeWidthFitSizing_normalize,
    computeWidthsGrowSizing_normalize]
  cases computeWidthsGrowSizing (computeWidthFitSizing ctx (initElements e)) with
  | none => rfl
  | some e2 =>
    simp only [Option.map_some', computeTextWrapping_normalize,
      computeHeightFitSizing_normalize, computeHeightsGrowSizing_normalize]
    cases computeHeightsGrowSizing (computeHeightFitSizing ctx (computeTextWrapping ctx e2)) with
    | none => rfl
    | some e5 => simp only [Option.map_some', computePositions_normalize]

theorem nodesList_eq_flatten (cs : List Element) :
    nodesList cs = (cs.map nodes).flatten := by
  induction cs with
  | nil => rw [nodesList]; rfl
  | cons e es ih => rw [nodesList, ih]; rfl

theorem nodes_normalize (e : Element) :
    nodes (normalizeSentinels e) = (nodes e).map normalizeSentinels := by
  induction e using Element.induct with
  | hc b c cs ih =>
    simp only [normalizeSentinels, nodes, normalizeSentinelsList_eq_map, nodesList_eq_flatten,
      List.map_cons, List.map_flatten, List.map_map]
    congr 2
    exact List.map_congr_left fun e he => ih e he
  | ht b t => rfl
  | hp b p => rfl

theorem outputs_normalize (e : Element) : outputs (normalizeSentinels e) = outputs e := by
  unfold outputs
  rw [nodes_normalize, List.map_map]
  apply List.map_congr_left
  intro n _
  cases n <;> rfl

/-- C20 (sentinel equivalence): two trees that are equal once every negative value of the
style dimensions `width`, `height`, `minWidth`, `minHeight`, `maxWidth`, `maxHeight` of
every node is replaced by `LengthAuto`, so two trees that differ only in which of the
sentinels `LengthAuto`, `LengthNone`, `LengthFull` (or other negative value) these dimensions
hold, get the same computed layout records and wrapped texts from `layout`, and `layout`
returns for one of them exactly when it returns for the other. -/
theorem sentinel_equivalence (ctx : BaseMeasurementContext) (t t2 : Element)
    (h : normalizeSentinels t = normalizeSentinels t2) :
    (layout ctx t).map outputs = (layout ctx t2).map outputs := by
  have key : ∀ e, (layout ctx e).map outputs = (layout ctx (normalizeSentinels e)).map outputs := by
    intro e
    rw [layout_normalize, Option.map_map]
    congr 1
    funext r
    exact (outputs_normalize r).symm
  rw [key t, key t2, h]

/-- Instance of C20: a row with two texts whose style dimensions hold `LengthAuto` and
`LengthNone` in one tree, `LengthFull` and `LengthAuto` in the other. -/
theorem sentinel_equivalence_witness :
    normalizeSentinels (sentinelExample LengthAuto LengthNone) =
      normalizeSentinels (sentinelExample LengthFull LengthAuto) ∧
    (sentinelExample LengthAuto LengthNone).base.height ≠
      (sentinelExample LengthFull LengthAuto).base.height ∧
    (layout tenPixelFont (sentinelExample LengthAuto LengthNone)).isSome = true ∧
    (layout tenPixelFont (sentinelExample LengthAuto LengthNone)).map outputs =
      (layout tenPixelFont (sentinelExample LengthFull LengthAuto)).map outputs :=
  ⟨rfl, by decide, by decide,
    sentinel_equivalence tenPixelFont (sentinelExample LengthAuto LengthNone)
      (sentinelExample LengthFull LengthAuto) rfl⟩

/-! ## The nodes of a tree -/

theorem nodes_container (b : BaseElement) (c : ContainerData) (cs : List Element) :
    nodes (.container b c cs) = .container b c cs :: (cs.map nodes).flatten := by
  rw [nodes, nodesList_eq_flatten]

theorem mem_nodes_self (e : Element) : e ∈ nodes e := by
  cases e <;> simp [nodes]

theorem mem_nodes_child {b : BaseElement} {c : ContainerData} {cs : List Element}
    {child n : Element} (hc : child ∈ cs) (hn : n ∈ nodes child) :
    n ∈ nodes (.container b c cs) := by
  rw [nodes_container]
  refine List.mem_cons_of_mem _ (List.mem_flatten.2 ⟨nodes child, ?_, hn⟩)
  exact List.mem_map.2 ⟨child, hc, rfl⟩

theorem widthProfile_container (b : BaseElement) (c : ContainerData) (cs : List Element) :
    widthProfile (.container b c cs) =
      (b.layout.width, b.layout.minWidth) :: (cs.map widthProfile).flatten := by
  unfold widthProfile
  rw [nodes_container, List.map_cons, List.map_flatten, List.map_map]
  rfl

theorem widthProfile_erase {m : Mask} (hs : m.width = false) (hm : m.minWidth = false)
    (e : Element) : ∀ root, widthProfile (erase m root e) = widthProfile e := by
  induction e using Element.induct with
  | hc b c cs ih =>
    intro root
    rw [erase, widthProfile_container, widthProfile_container, eraseList_eq_map, List.map_map,
      eraseBase_width hs, eraseBase_minWidth hm]
    congr 2
    exact List.map_congr_left fun e he => ih e he false
  | ht b t =>
    intro root
    simp [erase, widthProfile, nodes, eraseBase_width hs, eraseBase_minWidth hm]
  | hp b p =>
    intro root
    simp [erase, widthProfile, nodes, eraseBase_width hs, eraseBase_minWidth hm]

theorem computeTextWrapping_base (ctx : BaseMeasurementContext) (e : Element) :
    (computeTextWrapping ctx e).base = e.base := by
  cases e <;> simp [computeTextWrapping]

theorem computeWidthFitSizing_idem (ctx : BaseMeasurementContext) (e : Element) :
    computeWidthFitSizing ctx (computeWidthFitSizing ctx e) = computeWidthFitSizing ctx e := by
  have hA : ∀ x, computeWidthFitSizing ctx
      (erase ⟨true, false, true, false, false, false, false⟩ true x) =
      computeWidthFitSizing ctx x := by
    intro x
    rw [computeWidthFitSizing_erase]
    exact erase_none true _
  rw [← hA (computeWidthFitSizing ctx e), erase_computeWidthFitSizing ctx rfl rfl, hA]


theorem map_eq_of_map_eq {α β γ δ : Type} (f : α → γ) (f2 : β → γ) (g : α → δ) (h : β → δ)
    (hfg : ∀ a b, f a = f2 b → g a = h b) :
    ∀ (l1 : List α) (l2 : List β), l1.map f = l2.map f2 → l1.map g = l2.map h := by
  intro l1
  induction l1 with
  | nil =>
    intro l2 hl
    cases l2 with
    | nil => rfl
    | cons b l2 => simp at hl
  | cons a l1 ih =>
    intro l2 hl
    cases l2 with
    | nil => simp at hl
    | cons b l2 =>
      simp only [List.map_cons, List.cons.injEq] at hl ⊢
      exact ⟨hfg a b hl.1, ih l2 hl.2⟩

/-- Width fit sizing gives the same widths to two trees that differ in the computed widths
and the wrapped texts only. -/
theorem widthProfile_refit (ctx : BaseMeasurementContext) (a b : Element)
    (h : erase ⟨true, false, false, true, false, false, false⟩ false a =
      erase ⟨true, false, false, true, false, false, false⟩ false
        (computeWidthFitSizing ctx b)) :
    widthProfile (computeWidthFitSizing ctx a) = widthProfile (computeWidthFitSizing ctx b) := by
  have hA : ∀ x, widthProfile (computeWidthFitSizing ctx
      (erase ⟨true, false, false, true, false, false, false⟩ false x)) =
      widthProfile (computeWidthFitSizing ctx x) := by
    intro x
    rw [computeWidthFitSizing_erase]
    exact widthProfile_erase rfl rfl _ false
  rw [← hA a, h, hA, computeWidthFitSizing_idem]

theorem fit_initElements_container (ctx : BaseMeasurementContext) (b : BaseElement)
    (c : ContainerData) (cs : List Element) :
    ∃ bF, computeWidthFitSizing ctx (initElements (.container b c cs)) =
      .container bF c ((cs.map initElements).map (computeWidthFitSizing ctx)) :=
  ⟨_, by rw [initElements, computeWidthFitSizing, initElementsList_eq_map,
    computeWidthFitSizingList_eq_map]⟩

/-- After `computeHeightFitSizing` the children of a container have the widths of width fit
sizing again, whatever widths they had. -/
theorem widthProfile_heightFit (ctx : BaseMeasurementContext) (bF : BaseElement)
    (c : ContainerData) (cs0 cs2 : List Element)
    (h : cs2.map (erase ⟨true, false, false, true, false, false, false⟩ false) =
      (cs0.map (computeWidthFitSizing ctx)).map
        (erase ⟨true, false, false, true, false, false, false⟩ false)) :
    widthProfile (computeHeightFitSizing ctx (.container bF c cs2)) =
      widthProfile (.container bF c (cs0.map (computeWidthFitSizing ctx))) := by
  simp only [computeHeightFitSizing, computeWidthFitSizingList_eq_map, widthProfile_container]
  congr 2
  rw [List.map_map, List.map_map]
  rw [List.map_map] at h
  exact map_eq_of_map_eq _ _ _ _ (fun a b hab => widthProfile_refit ctx a b hab) _ _ h

/-- The computed widths and min widths of the tree `layout` returns are those of width fit
sizing: `computeHeightFitSizing` sizes the widths of the children of the root again. -/
theorem layout_widthProfile (ctx : BaseMeasurementContext) {t r : Element}
    (h : layout ctx t = some r) :
    widthProfile r = widthProfile (computeWidthFitSizing ctx (initElements t)) := by
  unfold layout at h
  simp only at h
  split at h
  · exact absurd h (by simp)
  · rename_i e2 he2
    split at h
    · exact absurd h (by simp)
    · rename_i e5 he5
      cases h
      have h1 : widthProfile (computePositions e5) =
          widthProfile (computeHeightFitSizing ctx (computeTextWrapping ctx e2)) := by
        rw [← widthProfile_erase (m := ⟨false, true, false, false, true, true, false⟩) rfl rfl
            (computePositions e5) true,
          erase_computePositions rfl rfl, erase_computeHeightsGrowSizing rfl true he5,
          widthProfile_erase rfl rfl]
      rw [h1]
      have h2 : erase ⟨true, false, false, true, false, false, false⟩ true
          (computeTextWrapping ctx e2) =
          erase ⟨true, false, false, true, false, false, false⟩ true
            (computeWidthFitSizing ctx (initElements t)) := by
        rw [erase_computeTextWrapping ctx rfl, erase_computeWidthsGrowSizing rfl true he2]
      cases t with
      | container b c cs =>
        obtain ⟨bF, hF⟩ := fit_initElements_container ctx b c cs
        rw [hF] at he2 h2 ⊢
        obtain ⟨cs1, cs2, -, rfl, -⟩ := computeWidthsGrowSizing_container he2
        simp only [computeTextWrapping, computeTextWrappingList_eq_map, erase,
          eraseList_eq_map, Element.container.injEq] at h2 ⊢
        exact widthProfile_heightFit ctx bF c _ _ h2.2.2
      | text b d =>
        cases he2
        rfl
      | polygon b p =>
        cases he2
        rfl

/-! ## Width fit sizing keeps the min width below the width -/

theorem maxLoop_mono (cs : List Element) (f g : Element → Int)
    (h : ∀ child ∈ cs, f child ≤ g child) :
    ∀ a b : Int, a ≤ b → maxLoop (cs.map f) a ≤ maxLoop (cs.map g) b := by
  induction cs with
  | nil => intro a b hab; exact hab
  | cons e es ih =>
    intro a b hab
    simp only [List.map_cons, maxLoop]
    exact ih (fun x hx => h x (List.mem_cons_of_mem _ hx)) _ _
      (max_le_max hab (h e (List.mem_cons_self _ _)))

theorem maxLoop_le (vs : List Int) (bound : Int) (h : ∀ v ∈ vs, v ≤ bound) :
    ∀ a : Int, a ≤ bound → maxLoop vs a ≤ bound := by
  induction vs with
  | nil => intro a ha; exact ha
  | cons v vs ih =>
    intro a ha
    rw [maxLoop]
    exact ih (fun x hx => h x (List.mem_cons_of_mem _ hx)) _
      (max_le ha (h v (List.mem_cons_self _ _)))

theorem containerFitWidth_exact (ctx : BaseMeasurementContext) {b : BaseElement}
    (c : ContainerData) (cs : List Element) (h : b.width < 0) :
    containerFitWidth b c cs = wrap16 (exactFitWidth ctx (.container b c cs)) := by
  rw [exactFitWidth]
  unfold containerFitWidth sumSpaceWidth
  rw [if_neg (not_le.2 h)]
  split
  · by_cases hrow : c.layoutDirection = .LayoutRow
    · rw [if_pos hrow]
      simp only [hrow, decide_True]
      rw [fitAggregate_sum, List.length_map]
      congr 1
      ring
    · rw [if_neg hrow]
      simp only [hrow, decide_False, fitAggregate]
      rw [wrap16_add_left]
      rfl
  · rw [add_zero]

theorem containerFitMinWidth_exact (ctx : BaseMeasurementContext) {b : BaseElement}
    (c : ContainerData) (cs : List Element) (h : b.minWidth < 0) :
    containerFitMinWidth b c cs = wrap16 (exactFitMinWidth ctx (.container b c cs)) := by
  rw [exactFitMinWidth]
  unfold containerFitMinWidth sumSpaceWidth
  rw [if_neg (not_le.2 h)]
  split
  · by_cases hrow : c.layoutDirection = .LayoutRow
    · rw [if_pos hrow]
      simp only [hrow, decide_True]
      rw [fitAggregate_sum, List.length_map]
      congr 1
      ring
    · rw [if_neg hrow]
      simp only [hrow, decide_False, fitAggregate]
      rw [wrap16_add_left]
      rfl
  · rw [add_zero]

theorem exactFitMinWidth_le (ctx : BaseMeasurementContext) (b : BaseElement)
    (c : ContainerData) (cs : List Element)
    (h : ∀ child ∈ cs, child.base.layout.minWidth ≤ child.base.layout.width) :
    exactFitMinWidth ctx (.container b c cs) ≤ exactFitWidth ctx (.container b c cs) := by
  rw [exactFitMinWidth, exactFitWidth]
  split
  · split
    · have := List.sum_le_sum h
      omega
    · have := maxLoop_mono cs (fun child => child.base.layout.minWidth)
        (fun child => child.base.layout.width) h 0 0 le_rfl
      omega
  · exact le_rfl

/-- Width fit sizing of a tree without explicit widths and min widths, whose words are not
measured wider than their texts, leaves `layout.minWidth ≤ layout.width` at every node, when
the sums it stores fit 16 bits. -/
theorem fit_minWidth_le_width (ctx : BaseMeasurementContext) (e : Element) :
    (∀ n ∈ nodes e, n.base.width < 0 ∧ n.base.minWidth < 0) →
    (∀ n ∈ nodes e, wordsFit ctx n) →
    (∀ n ∈ nodes (computeWidthFitSizing ctx e),
      inInt16 (exactFitWidth ctx n) ∧ inInt16 (exactFitMinWidth ctx n)) →
    ∀ n ∈ nodes (computeWidthFitSizing ctx e), n.base.layout.minWidth ≤ n.base.layout.width := by
  induction e using Element.induct with
  | hc b c cs ih =>
    intro hauto hwords hfit
    have hself : b.width < 0 ∧ b.minWidth < 0 := hauto _ (mem_nodes_self _)
    have hfitself := hfit _ (mem_nodes_self _)
    rw [computeWidthFitSizing, computeWidthFitSizingList_eq_map] at hfit hfitself ⊢
    have hchild : ∀ child ∈ cs, ∀ n ∈ nodes (computeWidthFitSizing ctx child),
        n.base.layout.minWidth ≤ n.base.layout.width := by
      intro child hc
      exact ih child hc (fun n hn => hauto n (mem_nodes_child hc hn))
        (fun n hn => hwords n (mem_nodes_child hc hn))
        (fun n hn => hfit n (mem_nodes_child (List.mem_map.2 ⟨child, hc, rfl⟩) hn))
    intro n hn
    rw [nodes_container, List.mem_cons] at hn
    rcases hn with rfl | hn
    · show containerFitMinWidth b c (cs.map (computeWidthFitSizing ctx)) ≤
        containerFitWidth b c (cs.map (computeWidthFitSizing ctx))
      rw [containerFitWidth_exact ctx c _ hself.1, containerFitMinWidth_exact ctx c _ hself.2]
      have h1 : inInt16 (exactFitWidth ctx
          (.container b c (cs.map (computeWidthFitSizing ctx)))) := hfitself.1
      have h2 : inInt16 (exactFitMinWidth ctx
          (.container b c (cs.map (computeWidthFitSizing ctx)))) := hfitself.2
      rw [wrap16_of_inInt16 h1, wrap16_of_inInt16 h2]
      apply exactFitMinWidth_le
      intro child1 hc1
      obtain ⟨child, hc, rfl⟩ := List.mem_map.1 hc1
      exact hchild child hc _ (mem_nodes_self _)
    · obtain ⟨l, hl, hnl⟩ := List.mem_flatten.1 hn
      obtain ⟨child1, hc1, rfl⟩ := List.mem_map.1 hl
      obtain ⟨child, hc, rfl⟩ := List.mem_map.1 hc1
      exact hchild child hc n hnl
  | ht b t =>
    intro hauto hwords hfit n hn
    have hself : b.width < 0 ∧ b.minWidth < 0 := hauto _ (mem_nodes_self _)
    have hw : wordsFit ctx (.text b t) := hwords _ (mem_nodes_self _)
    have hfitself := hfit _ (mem_nodes_self _)
    rw [computeWidthFitSizing] at hfitself hn
    simp only [nodes, List.mem_singleton] at hn
    subst hn
    have h1 : inInt16 (exactFitWidth ctx (.text b t)) := hfitself.1
    have h2 : inInt16 (exactFitMinWidth ctx (.text b t)) := hfitself.2
    show textFitMinWidth ctx b t ≤ textFitWidth ctx b t
    unfold textFitWidth textFitMinWidth sumSpaceWidth
    rw [if_neg (not_le.2 hself.1), if_neg (not_le.2 hself.2), wrap16_add_left, wrap16_add_left]
    rw [exactFitWidth] at h1
    rw [exactFitMinWidth] at h2
    rw [wrap16_of_inInt16 h1, wrap16_of_inInt16 h2]
    have := maxLoop_le ((splitStringByWhitesp t.text).map fun word =>
      measureWidth ctx word t.font) (measureWidth ctx t.text t.font)
      (fun v hv => by
        obtain ⟨word, hword, rfl⟩ := List.mem_map.1 hv
        exact hw.2 word hword) 0 hw.1
    omega
  | hp b p =>
    intro hauto hwords hfit n hn
    rw [computeWidthFitSizing] at hn
    simp only [nodes, List.mem_singleton] at hn
    subst hn
    exact le_rfl

theorem nodes_initElements (e : Element) :
    nodes (initElements e) = (nodes e).map initElements := by
  induction e using Element.induct with
  | hc b c cs ih =>
    rw [initElements, initElementsList_eq_map, nodes_container, nodes_container, List.map_cons,
      List.map_flatten, List.map_map, List.map_map]
    congr 2
    · exact (initElementsList_eq_map cs).symm
    · exact List.map_congr_left fun e he => ih e he
  | ht b t => rfl
  | hp b p => rfl

theorem initElements_styles (e : Element) :
    (initElements e).base.width = e.base.width ∧
    (initElements e).base.minWidth = e.base.minWidth ∧
    ∀ ctx, wordsFit ctx (initElements e) = wordsFit ctx e := by
  cases e <;> exact ⟨rfl, rfl, fun _ => rfl⟩

/-- C13 as stated fails: in a row of explicit width 100 that holds the text "aaaa" with the
explicit width 10, the sizes and the measured width 40 are not negative and the total min
width 40 of the children is at most the available width 100 of the row, and after `layout`
the text has the width 10 and the min width 40. -/
theorem explicit_text_width_below_minWidth :
    measureWidth tenPixelFont "aaaa" 0 = 40 ∧
    totalMinWidth
      (computeWidthFitSizing tenPixelFont (initElements explicitTextExample)).children = 40 ∧
    availableWidth
      (computeWidthFitSizing tenPixelFont (initElements explicitTextExample)).base = 100 ∧
    ((layout tenPixelFont explicitTextExample).map fun r =>
      (availableWidth r.base, r.children.map fun child =>
        (child.base.layout.width, child.base.layout.minWidth))) = some (100, [(10, 40)]) := by
  decide

/-! ## The values of width fit sizing -/

/-- The running maximum of the loop is the greatest element of the start value and the
values. -/
theorem maxLoop_greatest (vs : List Int) : ∀ a : Int,
    maxLoop vs a ∈ a :: vs ∧ ∀ v ∈ a :: vs, v ≤ maxLoop vs a := by
  induction vs with
  | nil => intro a; simp [maxLoop]
  | cons v vs ih =>
    intro a
    rw [maxLoop]
    obtain ⟨hmem, hle⟩ := ih (max a v)
    constructor
    · rcases List.mem_cons.1 hmem with h | h
      · rw [h]
        rcases max_choice a v with h2 | h2
        · rw [h2]; exact List.mem_cons_self _ _
        · rw [h2]; exact List.mem_cons_of_mem _ (List.mem_cons_self _ _)
      · exact List.mem_cons_of_mem _ (List.mem_cons_of_mem _ h)
    · intro x hx
      rcases List.mem_cons.1 hx with h | h
      · rw [h]
        exact le_trans (le_max_left a v) (hle _ (List.mem_cons_self _ _))
      · rcases List.mem_cons.1 h with h2 | h2
        · rw [h2]
          exact le_trans (le_max_right a v) (hle _ (List.mem_cons_self _ _))
        · exact hle x (List.mem_cons_of_mem _ h2)

/-- C21 (text fit width and min width), amended: for every text element
`computeWidthFitSizing` sets `layout.width` to the `width` style when it is explicit (`≥ 0`)
and otherwise to `sumSpace` plus the measured width of the whole text, and sets
`layout.minWidth` to the `minWidth` style when it is explicit and otherwise to `sumSpace`
plus `m`, where `m` is the greatest of 0 and the measured widths of the words of the text
(so 0 when the text has no words, and the greatest measured width of a word when some word
has a measured width that is not negative); the sums are stored in 16 bits, and
`sumSpace = paddingLeft + paddingRight + 2 * borderWidth`. -/
theorem text_fit_width_rule (ctx : BaseMeasurementContext) (b : BaseElement) (t : TextData) :
    (computeWidthFitSizing ctx (.text b t)).base.layout.width =
      (if b.width ≥ 0 then b.width
      else wrap16 (b.paddingLeft + b.paddingRight + 2 * b.borderWidth +
        measureWidth ctx t.text t.font)) ∧
    ∃ m : Int,
      (computeWidthFitSizing ctx (.text b t)).base.layout.minWidth =
        (if b.minWidth ≥ 0 then b.minWidth
        else wrap16 (b.paddingLeft + b.paddingRight + 2 * b.borderWidth + m)) ∧
      m ∈ 0 :: (splitStringByWhitesp t.text).map (fun word => measureWidth ctx word t.font) ∧
      (∀ word ∈ splitStringByWhitesp t.text, measureWidth ctx word t.font ≤ m) ∧
      0 ≤ m ∧
      (splitStringByWhitesp t.text = [] → m = 0) ∧
      ((∃ word ∈ splitStringByWhitesp t.text, 0 ≤ measureWidth ctx word t.font) →
        ∃ word ∈ splitStringByWhitesp t.text, measureWidth ctx word t.font = m) := by
  obtain ⟨hmem, hle⟩ := maxLoop_greatest
    ((splitStringByWhitesp t.text).map fun word => measureWidth ctx word t.font) 0
  refine ⟨?_, maxLoop ((splitStringByWhitesp t.text).map fun word =>
    measureWidth ctx word t.font) 0, ?_, hmem, ?_, hle 0 (List.mem_cons_self _ _), ?_, ?_⟩
  · show textFitWidth ctx b t = _
    unfold textFitWidth sumSpaceWidth
    split
    · rfl
    · rw [wrap16_add_left]
      congr 2
      ring
  · show textFitMinWidth ctx b t = _
    unfold textFitMinWidth sumSpaceWidth
    split
    · rfl
    · rw [wrap16_add_left]
      congr 2
      ring
  · intro word hword
    exact hle _ (List.mem_cons_of_mem _ (List.mem_map.2 ⟨word, hword, rfl⟩))
  · intro h
    rw [h]
    rfl
  · rintro ⟨word, hword, hpos⟩
    rcases List.mem_cons.1 hmem with h | h
    · refine ⟨word, hword, ?_⟩
      have := hle _ (List.mem_cons_of_mem _ (List.mem_map.2 ⟨word, hword, rfl⟩))
      omega
    · obtain ⟨w2, hw2, heq⟩ := List.mem_map.1 h
      exact ⟨w2, hw2, heq⟩

/-- C21 as stated fails: with a measurement capability that answers `-1`, the text "a" has
the one word "a" of measured width `-1`, no explicit min width and no padding or border, and
`computeWidthFitSizing` gives it the min width 0, not `-1`. -/
theorem text_fit_minWidth_floor :
    (newBaseElement zeroLayout).minWidth < 0 ∧
    (splitStringByWhitesp "a").map (fun word => measureWidth errorFont word 0) = [-1] ∧
    (computeWidthFitSizing errorFont
      (.text (newBaseElement zeroLayout) (newTextData "a"))).base.layout.minWidth = 0 := by
  decide

/-- C22 (column fit width): for a column without explicit width and with at least one child,
`computeWidthFitSizing` sets `layout.width` to
`paddingLeft + paddingRight + 2 * borderWidth + m` (stored in 16 bits, so exactly that sum
when it fits), where `m` is the greatest of 0 and the computed widths of the children as the
pass has sized them, and the gap does not contribute; for a container with an explicit width
`layout.width` is that width. -/
theorem column_fit_width (ctx : BaseMeasurementContext) (b : BaseElement) (c : ContainerData)
    (cs : List Element) :
    (c.layoutDirection = .LayoutColumn → b.width < 0 → cs ≠ [] →
      ∃ m : Int,
        (computeWidthFitSizing ctx (.container b c cs)).base.layout.width =
          wrap16 (b.paddingLeft + b.paddingRight + 2 * b.borderWidth + m) ∧
        (inInt16 (b.paddingLeft + b.paddingRight + 2 * b.borderWidth + m) →
          (computeWidthFitSizing ctx (.container b c cs)).base.layout.width =
            b.paddingLeft + b.paddingRight + 2 * b.borderWidth + m) ∧
        m ∈ 0 :: (computeWidthFitSizing ctx (.container b c cs)).children.map
          (fun child => child.base.layout.width) ∧
        (∀ child ∈ (computeWidthFitSizing ctx (.container b c cs)).children,
          child.base.layout.width ≤ m) ∧
        0 ≤ m ∧
        ∀ gap : Int,
          (computeWidthFitSizing ctx (.container b { c with gap := gap } cs)).base.layout.width =
            (computeWidthFitSizing ctx (.container b c cs)).base.layout.width) ∧
    (b.width ≥ 0 →
      (computeWidthFitSizing ctx (.container b c cs)).base.layout.width = b.width) := by
  have hW : (computeWidthFitSizing ctx (.container b c cs)).base.layout.width =
      containerFitWidth b c (cs.map (computeWidthFitSizing ctx)) := by
    rw [computeWidthFitSizing, computeWidthFitSizingList_eq_map]
    rfl
  have hC : (computeWidthFitSizing ctx (.container b c cs)).children =
      cs.map (computeWidthFitSizing ctx) := by
    rw [computeWidthFitSizing, computeWidthFitSizingList_eq_map]
    rfl
  constructor
  · intro hcol hauto hne
    obtain ⟨hmem, hle⟩ := maxLoop_greatest
      ((cs.map (computeWidthFitSizing ctx)).map fun child => child.base.layout.width) 0
    have hlen : (cs.map (computeWidthFitSizing ctx)).length > 0 := by
      rw [List.length_map]
      exact List.length_pos.2 hne
    have hval : ∀ c2 : ContainerData, c2.layoutDirection = .LayoutColumn →
        containerFitWidth b c2 (cs.map (computeWidthFitSizing ctx)) =
          wrap16 (b.paddingLeft + b.paddingRight + 2 * b.borderWidth +
            maxLoop ((cs.map (computeWidthFitSizing ctx)).map
              fun child => child.base.layout.width) 0) := by
      intro c2 hc2
      unfold containerFitWidth sumSpaceWidth fitAggregate
      rw [if_neg (not_le.2 hauto), if_pos hlen, hc2]
      simp only [reduceCtorEq, decide_False, Bool.false_eq_true, if_false]
      rw [wrap16_add_left]
      congr 2
      ring
    refine ⟨maxLoop ((cs.map (computeWidthFitSizing ctx)).map
      fun child => child.base.layout.width) 0, ?_, ?_, ?_, ?_, hle 0 (List.mem_cons_self _ _), ?_⟩
    · rw [hW, hval c hcol]
    · intro hin
      rw [hW, hval c hcol, wrap16_of_inInt16 hin]
    · rw [hC]
      exact hmem
    · intro child hchild
      rw [hC] at hchild
      exact hle _ (List.mem_cons_of_mem _ (List.mem_map.2 ⟨child, hchild, rfl⟩))
    · intro gap
      have hW2 : (computeWidthFitSizing ctx
          (.container b { c with gap := gap } cs)).base.layout.width =
          containerFitWidth b { c with gap := gap } (cs.map (computeWidthFitSizing ctx)) := by
        rw [computeWidthFitSizing, computeWidthFitSizingList_eq_map]
        rfl
      rw [hW2, hW, hval c hcol, hval { c with gap := gap } hcol]
  · intro hexp
    rw [hW]
    unfold containerFitWidth
    rw [if_pos hexp]

/-- Instance of C22: a column with `paddingLeft = 3` and gap 7 whose children get the widths
10 and 25 has the width 28. -/
theorem column_fit_width_witness :
    (computeWidthFitSizing tenPixelFont columnFitExample).children.map
      (fun child => child.base.layout.width) = [10, 25] ∧
    (computeWidthFitSizing tenPixelFont columnFitExample).base.layout.width = 28 ∧
    ∃ m : Int,
      (computeWidthFitSizing tenPixelFont columnFitExample).base.layout.width =
        wrap16 (3 + 0 + 2 * 0 + m) ∧
      ∀ child ∈ (computeWidthFitSizing tenPixelFont columnFitExample).children,
        child.base.layout.width ≤ m := by
  refine ⟨by decide, by decide, ?_⟩
  obtain ⟨m, h1, -, -, h4, -⟩ := (column_fit_width tenPixelFont
    { newBaseElement zeroLayout with paddingLeft := 3 }
    { newContainerData with layoutDirection := .LayoutColumn, gap := 7 }
    [.polygon { newBaseElement zeroLayout with paddingLeft := 10 } ⟨[], false, true⟩,
     .polygon { newBaseElement zeroLayout with paddingRight := 25 } ⟨[], false, true⟩]).1
    rfl (by decide) (by simp)
  exact ⟨m, h1, h4⟩

/-! ## The final widths are the fit widths -/

theorem widthProfile_fit_initElements (ctx : BaseMeasurementContext) (e : Element) :
    widthProfile (computeWidthFitSizing ctx (initElements e)) =
      widthProfile (computeWidthFitSizing ctx e) := by
  have hA : ∀ x, widthProfile (computeWidthFitSizing ctx
      (erase ⟨true, true, false, false, false, false, false⟩ true x)) =
      widthProfile (computeWidthFitSizing ctx x) := by
    intro x
    rw [computeWidthFitSizing_erase]
    exact widthProfile_erase rfl rfl _ true
  rw [← hA (initElements e), erase_initElements rfl rfl, hA]

theorem widthProfile_fit (ctx : BaseMeasurementContext) (e : Element) :
    widthProfile (computeWidthFitSizing ctx e) =
      (nodes e).map fun n =>
        ((computeWidthFitSizing ctx n).base.layout.width,
          (computeWidthFitSizing ctx n).base.layout.minWidth) := by
  induction e using Element.induct with
  | hc b c cs ih =>
    rw [nodes_container, List.map_cons, List.map_flatten, List.map_map]
    conv => lhs; rw [computeWidthFitSizing, computeWidthFitSizingList_eq_map]
    rw [widthProfile_container, List.map_map]
    congr 1
    · rw [computeWidthFitSizing, computeWidthFitSizingList_eq_map]
      rfl
    · congr 1
      exact List.map_congr_left fun e he => ih e he
  | ht b t => rfl
  | hp b p => rfl

/-- C26 (final widths are the fit widths): when `layout` returns `r` for a root container,
the computed width and min width of every node of `r` (the root included, and in
particular every node below the root) are the values `computeWidthFitSizing` gives that node
when it is run on the subtree of the node alone; what the width grow and shrink pass wrote is
not in the result. -/
theorem layout_widths_are_fit_widths (ctx : BaseMeasurementContext) (b : BaseElement)
    (c : ContainerData) (cs : List Element) (r : Element)
    (h : layout ctx (.container b c cs) = some r) :
    ((nodes r).map fun n => (n.base.layout.width, n.base.layout.minWidth)) =
      (nodes (.container b c cs)).map fun n =>
        ((computeWidthFitSizing ctx n).base.layout.width,
          (computeWidthFitSizing ctx n).base.layout.minWidth) := by
  have h1 := layout_widthProfile ctx h
  rw [widthProfile_fit_initElements, widthProfile_fit] at h1
  exact h1

/-- Instance of C26: in a row of explicit width 200 and gap 5 holding a text and a column with
grow 1, the column and its text end with the fit width 30 (the grow pass had given them 85). -/
theorem layout_widths_are_fit_widths_witness :
    ∃ r, layout tenPixelFont growResetExample = some r ∧
      ((nodes r).map fun n => (n.base.layout.width, n.base.layout.minWidth)) =
        [(200, 35), (110, 20), (30, 10), (30, 10)] ∧
      ((nodes growResetExample).map fun n =>
        ((computeWidthFitSizing tenPixelFont n).base.layout.width,
          (computeWidthFitSizing tenPixelFont n).base.layout.minWidth)) =
        [(200, 35), (110, 20), (30, 10), (30, 10)] :=
  ⟨_, rfl, (layout_widths_are_fit_widths tenPixelFont
    { newBaseElement zeroLayout with width := 200 } { newContainerData with gap := 5 }
    idempotenceExampleChildren _ rfl).trans (by decide), by decide⟩

/-- C29 (fit sizing keeps the min width below the width), amended: for a tree in which no
node has an explicit width or min width style, every text has a measured width that is not
negative and at least the measured width of each of its words, and the sums width fit sizing
stores at the nodes fit 16 bits, every node has `layout.minWidth ≤ layout.width` after
`computeWidthFitSizing`.  The signs of the gaps, paddings and border widths play no part. -/
theorem fit_keeps_minWidth_le_width (ctx : BaseMeasurementContext) (t : Element)
    (hauto : ∀ n ∈ nodes t, n.base.width < 0 ∧ n.base.minWidth < 0)
    (hwords : ∀ n ∈ nodes t, wordsFit ctx n)
    (hfit : ∀ n ∈ nodes (computeWidthFitSizing ctx t),
      inInt16 (exactFitWidth ctx n) ∧ inInt16 (exactFitMinWidth ctx n)) :
    ∀ n ∈ nodes (computeWidthFitSizing ctx t),
      n.base.layout.minWidth ≤ n.base.layout.width := by
  intro n hn
  exact fit_minWidth_le_width ctx t hauto hwords hfit n hn

/-- Instance of C29, amended: a row with gap 5 holding a text and a column that holds a
text. -/
theorem fit_keeps_minWidth_le_width_witness :
    (∀ n ∈ nodes autoExample, n.base.width < 0 ∧ n.base.minWidth < 0) ∧
    ((nodes (computeWidthFitSizing tenPixelFont autoExample)).map fun n =>
      (n.base.layout.minWidth, n.base.layout.width)) =
      [(35, 145), (20, 110), (10, 30), (10, 30)] ∧
    ∀ n ∈ nodes (computeWidthFitSizing tenPixelFont autoExample),
      n.base.layout.minWidth ≤ n.base.layout.width :=
  ⟨by decide, by decide,
    fit_keeps_minWidth_le_width tenPixelFont autoExample (by decide) (by decide) (by decide)⟩

/-- C29 as stated fails: with a measurement capability that answers `-1` for every text, a
row that holds the text "a" has no explicit size, no padding, border or gap, the word "a" is
not measured wider than the text "a", no sum overflows, and after `computeWidthFitSizing`
the row and the text have the min width 0 and the width `-1`. -/
theorem fit_minWidth_above_negative_measure :
    (∀ n ∈ nodes oneWordExample, n.base.width < 0 ∧ n.base.minWidth < 0 ∧
      0 ≤ n.base.paddingLeft ∧ 0 ≤ n.base.paddingRight ∧ 0 ≤ n.base.borderWidth) ∧
    (∀ word ∈ splitStringByWhitesp "a",
      measureWidth errorFont word 0 ≤ measureWidth errorFont "a" 0) ∧
    (∀ n ∈ nodes (computeWidthFitSizing errorFont oneWordExample),
      inInt16 (exactFitWidth errorFont n) ∧ inInt16 (exactFitMinWidth errorFont n)) ∧
    ((nodes (computeWidthFitSizing errorFont oneWordExample)).map fun n =>
      (n.base.layout.minWidth, n.base.layout.width)) = [(0, -1), (0, -1)] := by
  decide

/-! ## The number of wrapped lines -/

theorem length_le_flatten_length {α : Type} (groups : List (List α))
    (h : ∀ g ∈ groups, g ≠ []) : groups.length ≤ groups.flatten.length := by
  induction groups with
  | nil => simp
  | cons g gs ih =>
    have hg : 0 < g.length := List.length_pos.2 (h g (List.mem_cons_self _ _))
    have := ih fun x hx => h x (List.mem_cons_of_mem _ hx)
    simp only [List.length_cons, List.flatten_cons, List.length_append]
    omega

/-- C30 (line count of wrapping): for every text element and measurement capability, after
`computeTextWrapping` the number of wrapped lines is 0 exactly when the text has no words,
and otherwise it is at least 1 and at most the number of words; the condition of the final
branch of the function, `wrappedText` empty while there are words, never holds when the
branch is reached. -/
theorem wrapped_line_count (ctx : BaseMeasurementContext) (b : BaseElement) (t : TextData) :
    ((computeTextWrapping ctx (.text b t)).wrappedText.length = 0 ↔
      splitStringByWhitesp t.text = []) ∧
    (splitStringByWhitesp t.text ≠ [] →
      1 ≤ (computeTextWrapping ctx (.text b t)).wrappedText.length ∧
      (computeTextWrapping ctx (.text b t)).wrappedText.length ≤
        (splitStringByWhitesp t.text).length) ∧
    ¬ ((if (wrapLoop ctx t.font (textAvailableWidth b) (splitStringByWhitesp t.text)
          [] "").2 ≠ "" then
        (wrapLoop ctx t.font (textAvailableWidth b) (splitStringByWhitesp t.text) [] "").1 ++
          [(wrapLoop ctx t.font (textAvailableWidth b) (splitStringByWhitesp t.text) [] "").2]
      else
        (wrapLoop ctx t.font (textAvailableWidth b) (splitStringByWhitesp t.text) [] "").1) = [] ∧
      splitStringByWhitesp t.text ≠ []) := by
  have hwords : ∀ w ∈ splitStringByWhitesp t.text, w ≠ "" :=
    fun w hw => token_ne_empty (splitStringByWhitesp_tokens t.text w hw).1
  obtain ⟨groups, h1, h2, h3, -, -⟩ :=
    wrapLines_groups ctx t.font (textAvailableWidth b) (splitStringByWhitesp t.text) hwords
  have hlines : (computeTextWrapping ctx (.text b t)).wrappedText =
      groups.map (String.intercalate " ") := by
    rw [computeTextWrapping]
    exact h1
  have hlen := length_le_flatten_length groups h2
  rw [h3] at hlen
  rw [hlines, List.length_map]
  refine ⟨⟨fun h0 => ?_, fun h0 => ?_⟩, fun hne => ⟨?_, hlen⟩, ?_⟩
  · have : groups = [] := List.length_eq_zero.1 h0
    rw [← h3, this]
    rfl
  · rw [h0] at hlen
    exact Nat.le_zero.1 hlen
  · rcases Nat.eq_zero_or_pos groups.length with h0 | h0
    · have : groups = [] := List.length_eq_zero.1 h0
      rw [this] at h3
      exact absurd h3.symm hne
    · exact h0
  · rintro ⟨hempty, hne⟩
    obtain ⟨gs1, g1, k1, k2, k3, -, k5, -, -⟩ :=
      wrapLoop_groups ctx t.font (textAvailableWidth b) (splitStringByWhitesp t.text) [] []
        hwords (by simp) (by simp) (by simp) (by simp) (by simp)
    simp only [List.map_nil, intercalate_nil] at k1
    rw [k1] at hempty
    by_cases hg1 : g1 = []
    · exact hne (k3 hg1).2
    · have hcur : String.intercalate " " g1 ≠ "" := fun h => hg1 (intercalate_eq_empty k2 h)
      simp [hcur] at hempty

/-! ## The tokenizer returns the maximal runs -/

theorem maximalRuns_nil : maximalRuns [] = [] := by
  simp [maximalRuns, List.splitOnP_nil]

theorem maximalRuns_space {ch : Char} (rest : List Char) (h : isSpace ch = true) :
    maximalRuns (ch :: rest) = maximalRuns rest := by
  unfold maximalRuns
  rw [List.splitOnP_cons, if_pos h]
  simp

theorem maximalRuns_skipSpaces (l : List Char) : maximalRuns (skipSpaces l) = maximalRuns l := by
  induction l with
  | nil => rfl
  | cons ch rest ih =>
    rw [skipSpaces]
    split
    · rename_i h
      rw [ih, maximalRuns_space rest h]
    · rfl

/-- The first piece of the cut is the word `takeWord` reads, the other pieces are those of
what follows the whitespace character after the word. -/
theorem splitOnP_takeWord (l : List Char) :
    l.splitOnP isSpace = (takeWord l).1 ::
      (match (takeWord l).2 with
        | [] => []
        | _ :: rest => rest.splitOnP isSpace) := by
  induction l with
  | nil => simp [takeWord, List.splitOnP_nil]
  | cons ch rest ih =>
    rw [List.splitOnP_cons, takeWord]
    split
    · rfl
    · rw [ih]
      rfl

theorem takeWord_snd (l : List Char) :
    (takeWord l).2 = [] ∨ ∃ sp rest, (takeWord l).2 = sp :: rest ∧ isSpace sp = true := by
  induction l with
  | nil => left; rfl
  | cons ch rest ih =>
    rw [takeWord]
    split
    · rename_i h
      exact Or.inr ⟨ch, rest, rfl, h⟩
    · exact ih

theorem maximalRuns_takeWord (l : List Char) :
    maximalRuns l =
      (if (takeWord l).1 = [] then [] else [(takeWord l).1]) ++ maximalRuns (takeWord l).2 := by
  have hsplit := splitOnP_takeWord l
  rcases takeWord_snd l with h | ⟨sp, rest, h, hsp⟩
  · rw [h] at hsplit ⊢
    rw [maximalRuns_nil]
    unfold maximalRuns
    rw [hsplit]
    by_cases h1 : (takeWord l).1 = []
    · simp [h1]
    · have : (takeWord l).1.isEmpty = false := by
        cases hw : (takeWord l).1 with
        | nil => exact absurd hw h1
        | cons _ _ => rfl
      simp [h1, this]
  · rw [h] at hsplit ⊢
    rw [maximalRuns_space rest hsp]
    unfold maximalRuns
    rw [hsplit]
    by_cases h1 : (takeWord l).1 = []
    · simp [h1]
    · have : (takeWord l).1.isEmpty = false := by
        cases hw : (takeWord l).1 with
        | nil => exact absurd hw h1
        | cons _ _ => rfl
      simp [h1, this]

theorem splitLoop_runs : ∀ (fuel : Nat) (l : List Char), l.length ≤ fuel →
    splitLoop fuel l = (maximalRuns l).map String.mk := by
  intro fuel
  induction fuel with
  | zero =>
    intro l hl
    have : l = [] := by simpa using hl
    subst this
    rw [maximalRuns_nil]
    rfl
  | succ fuel ih =>
    intro l hl
    cases l with
    | nil => rw [maximalRuns_nil]; rfl
    | cons ch rest =>
      have hfuel : (takeWord (skipSpaces (ch :: rest))).2.length ≤ fuel :=
        le_trans (round_length ch rest) (by simpa using hl)
      rw [← maximalRuns_skipSpaces (ch :: rest), maximalRuns_takeWord, splitLoop]
      rw [ih _ hfuel]
      split
      · rfl
      · rfl

theorem flatten_splitOnP (l : List Char) :
    (l.splitOnP isSpace).flatten = l.filter fun ch => !isSpace ch := by
  induction l with
  | nil => simp [List.splitOnP_nil]
  | cons ch rest ih =>
    rw [List.splitOnP_cons]
    by_cases h : isSpace ch = true
    · rw [if_pos h, List.flatten_cons, List.nil_append, ih]
      simp [h]
    · rw [if_neg h]
      cases hs : rest.splitOnP isSpace with
      | nil => exact absurd hs (List.splitOnP_ne_nil _ _)
      | cons x xs =>
        rw [hs] at ih
        simp only [List.modifyHead_cons, List.flatten_cons, List.cons_append]
        rw [List.flatten_cons] at ih
        rw [ih]
        simp [h]

theorem flatten_filter_nonempty (xs : List (List Char)) :
    (xs.filter fun run => !run.isEmpty).flatten = xs.flatten := by
  induction xs with
  | nil => rfl
  | cons x xs ih =>
    cases x with
    | nil => simpa using ih
    | cons c cs => simp [List.filter_cons, ih]

theorem flatten_maximalRuns (l : List Char) :
    (maximalRuns l).flatten = l.filter fun ch => !isSpace ch := by
  unfold maximalRuns
  rw [flatten_filter_nonempty, flatten_splitOnP]

/-- C25 (tokenizer correctness): for every string `splitStringByWhitesp` returns, in order,
the maximal runs of non-whitespace characters, where the whitespace characters are space,
tab, newline, carriage return, vertical tab and form feed; every token is non-empty and holds
no whitespace character, the tokens concatenated are the string with its whitespace
characters removed, the result is empty exactly when every character of the string is
whitespace, and the tokens joined by single spaces tokenize to the same tokens. -/
theorem tokenizer_correct (s : String) :
    splitStringByWhitesp s = (maximalRuns s.data).map String.mk ∧
    (∀ ch : Char, isSpace ch = true ↔
      ch ∈ [' ', '\t', '\n', '\r', Char.ofNat 11, Char.ofNat 12]) ∧
    (∀ w ∈ splitStringByWhitesp s, w.data ≠ [] ∧ ∀ ch ∈ w.data, isSpace ch = false) ∧
    ((splitStringByWhitesp s).map String.data).flatten =
      s.data.filter (fun ch => !isSpace ch) ∧
    (splitStringByWhitesp s = [] ↔ ∀ ch ∈ s.data, isSpace ch = true) ∧
    splitStringByWhitesp (String.intercalate " " (splitStringByWhitesp s)) =
      splitStringByWhitesp s := by
  have hruns : splitStringByWhitesp s = (maximalRuns s.data).map String.mk :=
    splitLoop_runs _ _ (le_refl _)
  have hconcat : ((splitStringByWhitesp s).map String.data).flatten =
      s.data.filter (fun ch => !isSpace ch) := by
    rw [hruns, List.map_map]
    have : (String.data ∘ String.mk) = id := by
      funext l
      rfl
    rw [this, List.map_id, flatten_maximalRuns]
  have htokens := splitStringByWhitesp_tokens s
  refine ⟨hruns, ?_, htokens, hconcat, ⟨fun h => ?_, fun h => ?_⟩,
    splitStringByWhitesp_intercalate _ htokens⟩
  · intro ch
    simp only [isSpace, Bool.or_eq_true, decide_eq_true_eq, List.mem_cons, List.mem_singleton,
      List.mem_nil_iff, or_false, or_assoc]
  · rw [h] at hconcat
    intro ch hch
    by_contra hns
    have hmem : ch ∈ s.data.filter (fun ch => !isSpace ch) :=
      List.mem_filter.2 ⟨hch, by simpa using hns⟩
    rw [← hconcat] at hmem
    simp at hmem
  · cases hts : splitStringByWhitesp s with
    | nil => rfl
    | cons w ws =>
      exfalso
      have hw := htokens w (by rw [hts]; exact List.mem_cons_self _ _)
      have hfil : s.data.filter (fun ch => !isSpace ch) = [] := by
        rw [List.filter_eq_nil_iff]
        intro ch hch
        simp [h ch hch]
      rw [hts, hfil] at hconcat
      simp only [List.map_cons, List.flatten_cons, List.append_eq_nil] at hconcat
      exact hw.1 hconcat.1

/-! ## The content grow branch of the width pass -/

theorem distributeWidths_contentGrow {b : BaseElement} {c : ContainerData} {cs : List Element}
    (hrow : c.layoutDirection = .LayoutRow) (hrem : remainingWidth b c cs < 0)
    (hmin : 0 ≤ remainingMinWidth b c cs) :
    distributeWidths b c cs = some (cs.map fun child =>
        setWidth (contentGrowSize (remainingMinWidth b c cs) (contentGrowTotalWidth cs)
          child.base.layout.width child.base.layout.minWidth) child) := by
  unfold distributeWidths
  rw [if_pos hrow, if_neg (by omega), if_pos hmin]

theorem sum_contentGrow (cs : List Element) :
    (cs.map fun child =>
      contentGrow child.base.layout.width child.base.layout.minWidth).sum =
      (contentGrowCount cs : Int) := by
  unfold contentGrowCount
  induction cs with
  | nil => rfl
  | cons e es ih =>
    rw [List.map_cons, List.sum_cons, ih, List.countP_cons]
    unfold contentGrow
    by_cases h : e.base.layout.width > e.base.layout.minWidth
    · simp [h]
      ring
    · simp [h]

theorem contentGrowTotalWidth_eq (cs : List Element) :
    contentGrowTotalWidth cs = wrap16 (contentGrowCount cs : Int) := by
  unfold contentGrowTotalWidth
  rw [addLoop_of_inInt16 _ _ (by decide), zero_add, sum_contentGrow]

theorem contentGrowCount_pos {cs : List Element} {child : Element} (hc : child ∈ cs)
    (h : child.base.layout.width > child.base.layout.minWidth) : 0 < contentGrowCount cs := by
  unfold contentGrowCount
  exact List.countP_pos_iff.2 ⟨child, hc, by simpa using h⟩

/-- The width the content grow branch gives a child, when the number of growing children fits
16 bits. -/
theorem contentGrowSize_eq {cs : List Element} {child : Element} (hc : child ∈ cs)
    (R : Int) (hR : 0 ≤ R) (hk : inInt16 (contentGrowCount cs : Int)) :
    contentGrowSize R (contentGrowTotalWidth cs) child.base.layout.width
        child.base.layout.minWidth =
      if child.base.layout.width > child.base.layout.minWidth then
        wrap16 (child.base.layout.minWidth + R / (contentGrowCount cs : Int))
      else child.base.layout.width := by
  unfold contentGrowSize
  rw [contentGrowTotalWidth_eq, wrap16_of_inInt16 hk]
  by_cases h : child.base.layout.width > child.base.layout.minWidth
  · have hpos : (0 : Int) < (contentGrowCount cs : Int) := by
      exact_mod_cast contentGrowCount_pos hc h
    have hcg : contentGrow child.base.layout.width child.base.layout.minWidth = 1 := by
      unfold contentGrow
      rw [if_pos h]
    rw [if_pos h, hcg, if_pos ⟨hpos, by decide⟩, mul_one, wrap16_add_right,
      Int.tdiv_eq_ediv hR hpos.le]
  · have hcg : contentGrow child.base.layout.width child.base.layout.minWidth = 0 := by
      unfold contentGrow
      rw [if_neg h]
    rw [if_neg h, hcg, if_neg (by omega)]

/-- C24 (content grow formula): in a row with `remainingWidth < 0` and
`remainingMinWidth ≥ 0`, the pass at this container performs no division by zero, and
whenever the pass returns, a child whose width was greater than its min width has the width
`minWidth + floor(remainingMinWidth / k)`, where `k` is the number of such children (in
16-bit arithmetic, `k` fitting 16 bits, and exactly when the sum fits 16 bits), and a child
whose width was at most its min width keeps its width. -/
theorem content_grow_formula (b : BaseElement) (c : ContainerData) (cs : List Element)
    (hrow : c.layoutDirection = .LayoutRow) (hrem : remainingWidth b c cs < 0)
    (hmin : 0 ≤ remainingMinWidth b c cs) :
    (distributeWidths b c cs).isSome = true ∧
    ∀ r, computeWidthsGrowSizing (.container b c cs) = some r →
      List.Forall₂ (fun child child1 =>
        (child.base.layout.width > child.base.layout.minWidth →
          inInt16 (contentGrowCount cs : Int) →
          child1.base.layout.width = wrap16 (child.base.layout.minWidth +
            ⌊(remainingMinWidth b c cs : ℚ) / (contentGrowCount cs : ℚ)⌋) ∧
          (inInt16 (child.base.layout.minWidth +
            ⌊(remainingMinWidth b c cs : ℚ) / (contentGrowCount cs : ℚ)⌋) →
            child1.base.layout.width = child.base.layout.minWidth +
              ⌊(remainingMinWidth b c cs : ℚ) / (contentGrowCount cs : ℚ)⌋)) ∧
        (child.base.layout.width ≤ child.base.layout.minWidth →
          child1.base.layout.width = child.base.layout.width))
        cs r.children := by
  have hdist := distributeWidths_contentGrow hrow hrem hmin
  refine ⟨by rw [hdist]; rfl, ?_⟩
  intro r hr
  obtain ⟨cs1, cs2, h1, rfl, h2⟩ := computeWidthsGrowSizing_container hr
  rw [hdist] at h1
  cases h1
  refine forall₂_of_map_base
    (P := fun child b1 =>
      (child.base.layout.width > child.base.layout.minWidth →
          inInt16 (contentGrowCount cs : Int) →
          b1.layout.width = wrap16 (child.base.layout.minWidth +
            ⌊(remainingMinWidth b c cs : ℚ) / (contentGrowCount cs : ℚ)⌋) ∧
          (inInt16 (child.base.layout.minWidth +
            ⌊(remainingMinWidth b c cs : ℚ) / (contentGrowCount cs : ℚ)⌋) →
            b1.layout.width = child.base.layout.minWidth +
              ⌊(remainingMinWidth b c cs : ℚ) / (contentGrowCount cs : ℚ)⌋)) ∧
        (child.base.layout.width ≤ child.base.layout.minWidth →
          b1.layout.width = child.base.layout.width))
    cs cs2 h2 ?_
  intro child hc
  rw [setWidth_layout_width]
  refine ⟨fun hgt hk => ?_, fun hle => ?_⟩
  · have hpos : (0 : Int) < (contentGrowCount cs : Int) := by
      exact_mod_cast contentGrowCount_pos hc hgt
    have hfloor : ⌊(remainingMinWidth b c cs : ℚ) / (contentGrowCount cs : ℚ)⌋ =
        remainingMinWidth b c cs / (contentGrowCount cs : Int) := by
      have := floor_div_eq_ediv (remainingMinWidth b c cs) (contentGrowCount cs : Int) hpos
      simpa using this
    rw [contentGrowSize_eq hc _ hmin hk, if_pos hgt, hfloor]
    exact ⟨rfl, fun hin => wrap16_of_inInt16 hin⟩
  · unfold contentGrowSize contentGrow
    rw [if_neg (by omega)]

/-- Instance of C24: with the available width 50, a child of width 40 and min width 10 and a
child of width 30 and min width 30 get the widths 20 and 30. -/
theorem content_grow_formula_witness :
    remainingWidth shrinkExampleBase newContainerData
      [looseExampleChild, tightExampleChild] = -20 ∧
    remainingMinWidth shrinkExampleBase newContainerData
      [looseExampleChild, tightExampleChild] = 10 ∧
    contentGrowCount [looseExampleChild, tightExampleChild] = 1 ∧
    (computeWidthsGrowSizing (.container shrinkExampleBase newContainerData
      [looseExampleChild, tightExampleChild])).map
      (fun r => r.children.map fun child => child.base.layout.width) = some [20, 30] ∧
    (distributeWidths shrinkExampleBase newContainerData
      [looseExampleChild, tightExampleChild]).isSome = true :=
  ⟨by decide, by decide, by decide, by decide,
    (content_grow_formula shrinkExampleBase newContainerData
      [looseExampleChild, tightExampleChild] rfl (by decide) (by decide)).1⟩

/-! ## The result of the content grow branch fits -/

/-- The new widths sum to at most the min widths plus one share for every growing child. -/
theorem sum_contentGrow_le (q : Int) (cs : List Element) :
    (cs.map fun child =>
      if child.base.layout.width > child.base.layout.minWidth then
        child.base.layout.minWidth + q
      else child.base.layout.width).sum ≤
      (cs.map fun child => child.base.layout.minWidth).sum + q * (contentGrowCount cs : Int) := by
  unfold contentGrowCount
  induction cs with
  | nil => simp
  | cons e es ih =>
    simp only [List.map_cons, List.sum_cons, List.countP_cons]
    by_cases h : e.base.layout.width > e.base.layout.minWidth
    · simp only [h, if_true, decide_True, Nat.cast_add, Nat.cast_one]
      linarith
    · simp only [h, if_false, decide_False, Bool.false_eq_true, Nat.cast_add, Nat.cast_zero,
        add_zero]
      linarith

/-- C27 (content grow result fits): in a row whose exact remaining width
`availableWidth - Σ child.width - gap * (n - 1)` is negative and whose exact remaining min
width `availableWidth - Σ child.minWidth - gap * (n - 1)` is not negative, where both, the
number of growing children and every new width fit 16 bits, the pass at this container
performs no division by zero, and whenever the pass returns,
`Σ child.width + gap * (n - 1) ≤ availableWidth` holds for the children after the pass, no
min width has changed, and every child whose width was at least its min width still has a
width that is at least its min width. -/
theorem content_grow_fits (b : BaseElement) (c : ContainerData) (cs : List Element)
    (hrow : c.layoutDirection = .LayoutRow)
    (hrem : availableWidth b - (cs.map fun child => child.base.layout.width).sum -
      c.gap * ((cs.length : Int) - 1) < 0)
    (hremfit : inInt16 (availableWidth b - (cs.map fun child => child.base.layout.width).sum -
      c.gap * ((cs.length : Int) - 1)))
    (hmin : 0 ≤ availableWidth b - (cs.map fun child => child.base.layout.minWidth).sum -
      c.gap * ((cs.length : Int) - 1))
    (hminfit : inInt16 (availableWidth b -
      (cs.map fun child => child.base.layout.minWidth).sum - c.gap * ((cs.length : Int) - 1)))
    (hk : inInt16 (contentGrowCount cs : Int))
    (hnewfit : ∀ child ∈ cs, child.base.layout.width > child.base.layout.minWidth →
      inInt16 (child.base.layout.minWidth +
        (availableWidth b - (cs.map fun child => child.base.layout.minWidth).sum -
          c.gap * ((cs.length : Int) - 1)) / (contentGrowCount cs : Int))) :
    (distributeWidths b c cs).isSome = true ∧
    ∀ r, computeWidthsGrowSizing (.container b c cs) = some r →
      (r.children.map fun child => child.base.layout.width).sum +
        c.gap * ((r.children.length : Int) - 1) ≤ availableWidth b ∧
      List.Forall₂ (fun child child1 =>
        child1.base.layout.minWidth = child.base.layout.minWidth ∧
        (child.base.layout.width ≥ child.base.layout.minWidth →
          child1.base.layout.width ≥ child1.base.layout.minWidth))
        cs r.children := by
  generalize hW : availableWidth b - (cs.map fun child => child.base.layout.width).sum -
      c.gap * ((cs.length : Int) - 1) = W at hrem hremfit
  generalize hM : availableWidth b - (cs.map fun child => child.base.layout.minWidth).sum -
      c.gap * ((cs.length : Int) - 1) = M at hmin hminfit hnewfit
  have hne : cs ≠ [] := by
    rintro rfl
    simp at hW hM
    omega
  have hlen : ((cs.length - 1 : Nat) : Int) = (cs.length : Int) - 1 := by
    have : 0 < cs.length := List.length_pos.mpr hne
    omega
  have ha : inInt16 (availableWidth b) := inInt16_wrap16 _
  have hWm : remainingWidth b c cs = W := by
    unfold remainingWidth
    rw [remainingLoop_of_inInt16 _ _ _ ha]
    simp only [List.length_map]
    rw [hlen, hW]
    exact wrap16_of_inInt16 hremfit
  have hMm : remainingMinWidth b c cs = M := by
    unfold remainingMinWidth
    rw [remainingLoop_of_inInt16 _ _ _ ha]
    simp only [List.length_map]
    rw [hlen, hM]
    exact wrap16_of_inInt16 hminfit
  have hdist := @distributeWidths_contentGrow b c cs hrow (by rw [hWm]; exact hrem)
    (by rw [hMm]; exact hmin)
  refine ⟨by rw [hdist]; rfl, ?_⟩
  intro r hr
  obtain ⟨cs1, cs2, h1, rfl, h2⟩ := computeWidthsGrowSizing_container hr
  rw [hdist] at h1
  cases h1
  have hnew : ∀ child ∈ cs,
      contentGrowSize (remainingMinWidth b c cs) (contentGrowTotalWidth cs)
        child.base.layout.width child.base.layout.minWidth =
      if child.base.layout.width > child.base.layout.minWidth then
        child.base.layout.minWidth + M / (contentGrowCount cs : Int)
      else child.base.layout.width := by
    intro child hc
    rw [hMm, contentGrowSize_eq hc M hmin hk]
    split
    · rename_i hgt
      exact wrap16_of_inInt16 (hnewfit child hc hgt)
    · rfl
  have hq : 0 ≤ M / (contentGrowCount cs : Int) :=
    Int.ediv_nonneg hmin (Int.natCast_nonneg _)
  constructor
  · have hw : (cs2.map fun child => child.base.layout.width) =
        cs.map fun child =>
          if child.base.layout.width > child.base.layout.minWidth then
            child.base.layout.minWidth + M / (contentGrowCount cs : Int)
          else child.base.layout.width := by
      have : (cs2.map fun child => child.base.layout.width) =
          (cs2.map Element.base).map fun b1 => b1.layout.width := by
        rw [List.map_map]; rfl
      rw [this, h2, List.map_map, List.map_map]
      apply List.map_congr_left
      intro child hc
      simp only [Function.comp_apply, setWidth_layout_width]
      exact hnew child hc
    have hlen2 : cs2.length = cs.length := by
      have := congrArg List.length h2
      simpa using this
    simp only [Element.children]
    rw [hw, hlen2]
    have h3 := sum_contentGrow_le (M / (contentGrowCount cs : Int)) cs
    have h4 : M / (contentGrowCount cs : Int) * (contentGrowCount cs : Int) ≤ M := by
      rcases Nat.eq_zero_or_pos (contentGrowCount cs) with h0 | h0
      · rw [h0]
        simpa using hmin
      · exact Int.ediv_mul_le _ (by exact_mod_cast h0.ne')
    linarith
  · refine forall₂_of_map_base
      (P := fun child b1 =>
        b1.layout.minWidth = child.base.layout.minWidth ∧
        (child.base.layout.width ≥ child.base.layout.minWidth →
          b1.layout.width ≥ b1.layout.minWidth))
      cs cs2 h2 ?_
    intro child hc
    have hmw : (setWidth (contentGrowSize (remainingMinWidth b c cs) (contentGrowTotalWidth cs)
        child.base.layout.width child.base.layout.minWidth) child).base.layout.minWidth =
        child.base.layout.minWidth := by
      cases child <;> rfl
    refine ⟨hmw, fun hge => ?_⟩
    rw [hmw, setWidth_layout_width, hnew child hc]
    split
    · omega
    · exact hge

/-- Instance of C27: with the available width 50, a child of width 40 and min width 10 and a
child of width 30 and min width 30 get the widths 20 and 30, which sum to 50. -/
theorem content_grow_fits_witness :
    availableWidth shrinkExampleBase = 50 ∧
    (computeWidthsGrowSizing (.container shrinkExampleBase newContainerData
      [looseExampleChild, tightExampleChild])).map
      (fun r => r.children.map fun child => child.base.layout.width) = some [20, 30] ∧
    (distributeWidths shrinkExampleBase newContainerData
      [looseExampleChild, tightExampleChild]).isSome = true :=
  ⟨by decide, by decide,
    (content_grow_fits shrinkExampleBase newContainerData
      [looseExampleChild, tightExampleChild] rfl (by decide) (by decide) (by decide)
      (by decide) (by decide) (by decide)).1⟩

/-! ## The children of a row stay inside the content box -/

theorem forall₂_map_eq {α : Type} {R : Element → Element → Prop} (f g : Element → α)
    (hR : ∀ a b, R a b → f a = g b) :
    ∀ {l1 l2 : List Element}, List.Forall₂ R l1 l2 → l1.map f = l2.map g := by
  intro l1 l2 h
  induction h with
  | nil => rfl
  | cons hab _ ih => rw [List.map_cons, List.map_cons, hR _ _ hab, ih]

theorem positionChildren_widths (b : BaseElement) (c : ContainerData) (cs : List Element) :
    ((positionChildren b c cs).map fun child => child.base.layout.width) =
      cs.map fun child => child.base.layout.width := by
  refine (forall₂_map_eq (fun child => child.base.layout.width)
    (fun child => child.base.layout.width) ?_ (positionChildren_forall₂ b c cs)).symm
  rintro a b0 ⟨x, y, rfl⟩
  cases a <;> rfl

theorem prefix_sum_succ (f : Element → Int) (cs : List Element) (i : Nat) (child : Element)
    (h : cs[i]? = some child) :
    ((cs.take (i + 1)).map f).sum = ((cs.take i).map f).sum + f child := by
  rw [List.take_succ, h]
  simp

theorem prefix_sum_mono (f : Element → Int) (cs : List Element)
    (hf : ∀ child ∈ cs, 0 ≤ f child) :
    ∀ i j : Nat, i ≤ j → ((cs.take i).map f).sum ≤ ((cs.take j).map f).sum := by
  induction cs with
  | nil => intro i j _; simp
  | cons e es ih =>
    intro i j hij
    cases i with
    | zero =>
      simp only [List.take_zero, List.map_nil, List.sum_nil]
      apply List.sum_nonneg
      intro x hx
      obtain ⟨child, hc, rfl⟩ := List.mem_map.1 hx
      exact hf child (List.mem_of_mem_take hc)
    | succ i =>
      cases j with
      | zero => omega
      | succ j =>
        simp only [List.take_succ_cons, List.map_cons, List.sum_cons]
        have := ih (fun child hc => hf child (List.mem_cons_of_mem _ hc)) i j (by omega)
        omega

theorem prefix_sum_total (gap : Int) (cs : List Element) :
    ((cs.take cs.length).map fun child => child.base.layout.width + gap).sum =
      (cs.map fun child => child.base.layout.width).sum + gap * (cs.length : Int) := by
  rw [List.take_length]
  induction cs with
  | nil => simp
  | cons e es ih =>
    simp only [List.map_cons, List.sum_cons, List.length_cons, Nat.cast_add, Nat.cast_one]
    rw [ih]
    ring

/-- C28 (row children stay inside the content box), amended: in a row with `gap ≥ 0` whose
children have widths `≥ 0` with `Σ child.width + gap * (n - 1) ≤ availableWidth`, where the
available width and the two edges of the content box fit 16 bits, after `computePositions`
every child
has `parent.x + paddingLeft + borderWidth ≤ child.x` and
`child.x + child.width ≤ parent.x + parent.width - paddingRight - borderWidth`, and an
earlier child ends where a later child starts or before it. -/
theorem row_children_inside (b : BaseElement) (c : ContainerData) (cs : List Element)
    (hrow : c.layoutDirection = .LayoutRow) (hgap : 0 ≤ c.gap)
    (hwidth : ∀ child ∈ cs, 0 ≤ child.base.layout.width)
    (hsum : (cs.map fun child => child.base.layout.width).sum +
      c.gap * ((cs.length : Int) - 1) ≤ availableWidth b)
    (havail : inInt16 (b.layout.width -
      (b.paddingLeft + b.paddingRight + b.borderWidth + b.borderWidth)))
    (hstart : inInt16 (b.layout.x + b.paddingLeft + b.borderWidth))
    (hend : inInt16 (b.layout.x + b.layout.width - b.paddingRight - b.borderWidth)) :
    (∀ (i : Nat) (child1 : Element),
      (computePositions (.container b c cs)).children[i]? = some child1 →
      b.layout.x + b.paddingLeft + b.borderWidth ≤ child1.base.layout.x ∧
      child1.base.layout.x + child1.base.layout.width ≤
        b.layout.x + b.layout.width - b.paddingRight - b.borderWidth) ∧
    ∀ (i j : Nat) (child1 child2 : Element), i < j →
      (computePositions (.container b c cs)).children[i]? = some child1 →
      (computePositions (.container b c cs)).children[j]? = some child2 →
      child1.base.layout.x + child1.base.layout.width ≤ child2.base.layout.x := by
  have hb : (computePositions (.container b c cs)).children.map Element.base =
      (positionChildren b c cs).map Element.base := by
    unfold computePositions
    rw [base_container, positionsFrom, children_container]
    exact positionsChildren_bases cs _ (by simp [positionChildren_length])
  have havail2 : availableWidth b =
      b.layout.width - (b.paddingLeft + b.paddingRight + b.borderWidth + b.borderWidth) :=
    wrap16_of_inInt16 havail
  have hf : ∀ child ∈ cs, 0 ≤ child.base.layout.width + c.gap :=
    fun child hc => add_nonneg (hwidth child hc) hgap
  -- what a child of the result holds
  have key : ∀ (i : Nat) (child1 : Element),
      (computePositions (.container b c cs)).children[i]? = some child1 →
      ∃ child, cs[i]? = some child ∧
        child1.base.layout.width = child.base.layout.width ∧
        child1.base.layout.x = wrap16 (b.layout.x + b.paddingLeft + b.borderWidth +
          ((cs.take i).map fun child => child.base.layout.width + c.gap).sum) := by
    intro i child1 h
    have h1 : ((computePositions (.container b c cs)).children.map Element.base)[i]? =
        some child1.base := by
      rw [List.getElem?_map, h]; rfl
    rw [hb, List.getElem?_map] at h1
    cases h0 : (positionChildren b c cs)[i]? with
    | none => rw [h0] at h1; simp at h1
    | some child0 =>
      rw [h0] at h1
      simp only [Option.map_some', Option.some.injEq] at h1
      have hx := positionChildren_row_x hrow i child0 h0
      rw [h1] at hx
      have hw0 : ((positionChildren b c cs).map fun child => child.base.layout.width)[i]? =
          some child0.base.layout.width := by
        rw [List.getElem?_map, h0]; rfl
      rw [positionChildren_widths, List.getElem?_map] at hw0
      cases hc : cs[i]? with
      | none => rw [hc] at hw0; simp at hw0
      | some child =>
        rw [hc] at hw0
        simp only [Option.map_some', Option.some.injEq] at hw0
        exact ⟨child, rfl, by rw [← h1, hw0], hx⟩
  -- the exact coordinates
  have bounds : ∀ (i : Nat) (child : Element), cs[i]? = some child →
      0 ≤ ((cs.take i).map fun child => child.base.layout.width + c.gap).sum ∧
      ((cs.take i).map fun child => child.base.layout.width + c.gap).sum +
        child.base.layout.width ≤
        (cs.map fun child => child.base.layout.width).sum + c.gap * ((cs.length : Int) - 1) := by
    intro i child hc
    have hi : i < cs.length := (List.getElem?_eq_some_iff.1 hc).1
    have h0 := prefix_sum_mono (fun child => child.base.layout.width + c.gap) cs hf 0 i
      (Nat.zero_le _)
    have h1 := prefix_sum_mono (fun child => child.base.layout.width + c.gap) cs hf (i + 1)
      cs.length hi
    rw [prefix_sum_succ _ cs i child hc, prefix_sum_total] at h1
    simp only [List.take_zero, List.map_nil, List.sum_nil] at h0
    refine ⟨h0, ?_⟩
    have e : c.gap * ((cs.length : Int) - 1) = c.gap * (cs.length : Int) - c.gap := by ring
    rw [e]
    omega
  have exact : ∀ (i : Nat) (child1 : Element),
      (computePositions (.container b c cs)).children[i]? = some child1 →
      ∃ child, cs[i]? = some child ∧
        child1.base.layout.width = child.base.layout.width ∧
        child1.base.layout.x = b.layout.x + b.paddingLeft + b.borderWidth +
          ((cs.take i).map fun child => child.base.layout.width + c.gap).sum := by
    intro i child1 h
    obtain ⟨child, hc, hw, hx⟩ := key i child1 h
    obtain ⟨b0, b1⟩ := bounds i child hc
    have hw0 := hwidth child (List.getElem?_mem hc)
    refine ⟨child, hc, hw, ?_⟩
    rw [hx]
    apply wrap16_of_inInt16
    unfold inInt16 at hstart hend ⊢
    rw [havail2] at hsum
    constructor <;> omega
  constructor
  · intro i child1 h
    obtain ⟨child, hc, hw, hx⟩ := exact i child1 h
    obtain ⟨b0, b1⟩ := bounds i child hc
    rw [hx, hw]
    rw [havail2] at hsum
    constructor <;> omega
  · intro i j child1 child2 hij h1 h2
    obtain ⟨c1, hc1, hw1, hx1⟩ := exact i child1 h1
    obtain ⟨c2, hc2, -, hx2⟩ := exact j child2 h2
    have hm := prefix_sum_mono (fun child => child.base.layout.width + c.gap) cs hf (i + 1) j hij
    rw [prefix_sum_succ _ cs i c1 hc1] at hm
    rw [hx1, hx2, hw1]
    omega

/-- Instance of C28, amended: in a row whose content box is from 7 to 40, two children of width 10
with gap 5 are put at 7 and 22. -/
theorem row_children_inside_witness :
    ∃ child0 child1,
      (computePositions (.container insideExampleBase { newContainerData with gap := 5 }
        [positionExampleChild, positionExampleChild])).children = [child0, child1] ∧
      child0.base.layout.x = 7 ∧ child1.base.layout.x = 22 ∧
      child0.base.layout.x + child0.base.layout.width ≤ child1.base.layout.x ∧
      7 ≤ child1.base.layout.x ∧ child1.base.layout.x + child1.base.layout.width ≤ 40 :=
  ⟨_, _, rfl, by decide, by decide,
    (row_children_inside insideExampleBase { newContainerData with gap := 5 }
      [positionExampleChild, positionExampleChild] rfl (by decide) (by decide) (by decide)
      (by decide) (by decide) (by decide)).2 0 1 _ _ (by decide) rfl rfl,
    ((row_children_inside insideExampleBase { newContainerData with gap := 5 }
      [positionExampleChild, positionExampleChild] rfl (by decide) (by decide) (by decide)
      (by decide) (by decide) (by decide)).1 1 _ rfl).1,
    ((row_children_inside insideExampleBase { newContainerData with gap := 5 }
      [positionExampleChild, positionExampleChild] rfl (by decide) (by decide) (by decide)
      (by decide) (by decide) (by decide)).1 1 _ rfl).2⟩

/-! ## The height pass is the width pass transposed -/

theorem transposeList_eq_map (cs : List Element) : transposeList cs = cs.map transpose := by
  induction cs with
  | nil => rw [transposeList]; rfl
  | cons e es ih => rw [transposeList, ih]; rfl

theorem transposeBase_transposeBase (b : BaseElement) : transposeBase (transposeBase b) = b :=
  rfl

theorem transposeData_transposeData (c : ContainerData) :
    transposeData (transposeData c) = c := by
  cases c with
  | mk gap overflow layoutDirection justifyContent alignItems =>
    cases layoutDirection <;> rfl

theorem transpose_transpose (e : Element) : transpose (transpose e) = e := by
  induction e using Element.induct with
  | hc b c cs ih =>
    rw [transpose, transposeList_eq_map, transpose, transposeList_eq_map, List.map_map,
      transposeBase_transposeBase, transposeData_transposeData]
    congr 1
    conv => rhs; rw [← List.map_id cs]
    exact List.map_congr_left fun e he => ih e he
  | ht b t => rfl
  | hp b p => rfl

@[simp] theorem transpose_base (e : Element) : (transpose e).base = transposeBase e.base := by
  cases e <;> simp [transpose]

theorem map_transpose_layout {α : Type} (g h : BaseElement → α)
    (hg : ∀ b, g (transposeBase b) = h b) (cs : List Element) :
    ((cs.map transpose).map fun child => g child.base) = cs.map fun child => h child.base := by
  rw [List.map_map]
  apply List.map_congr_left
  intro e _
  simp only [Function.comp_apply, transpose_base, hg]

theorem transpose_setHeight (v : Int) (e : Element) :
    transpose (setHeight v e) = setWidth v (transpose e) := by
  cases e <;> rfl

theorem map_set_transpose (g h : BaseElement → Int) (hg : ∀ b, g (transposeBase b) = h b)
    (cs : List Element) :
    ((cs.map transpose).map fun child => setWidth (g child.base) child) =
      (cs.map fun child => setHeight (h child.base) child).map transpose := by
  rw [List.map_map, List.map_map]
  apply List.map_congr_left
  intro e _
  simp only [Function.comp_apply, transpose_base, hg, transpose_setHeight]

theorem transposeData_row (c : ContainerData) :
    (transposeData c).layoutDirection = .LayoutRow ↔ c.layoutDirection = .LayoutColumn := by
  cases c with
  | mk gap overflow layoutDirection justifyContent alignItems =>
    cases layoutDirection <;> simp [transposeData, transposeDirection]

theorem distributeWidths_transpose (b : BaseElement) (c : ContainerData) (cs : List Element) :
    distributeWidths (transposeBase b) (transposeData c) (cs.map transpose) =
      (distributeHeights b c cs).map (List.map transpose) := by
  have hrw : remainingWidth (transposeBase b) (transposeData c) (cs.map transpose) =
      remainingHeight b c cs := by
    unfold remainingWidth remainingHeight
    rw [map_transpose_layout (fun b => b.layout.width) (fun b => b.layout.height)
      (fun _ => rfl)]
    rfl
  have hrmw : remainingMinWidth (transposeBase b) (transposeData c) (cs.map transpose) =
      remainingMinHeight b c cs := by
    unfold remainingMinWidth remainingMinHeight
    rw [map_transpose_layout (fun b => b.layout.minWidth) (fun b => b.layout.minHeight)
      (fun _ => rfl)]
    rfl
  have hfg : flexGrowTotal (cs.map transpose) = flexGrowTotal cs := by
    unfold flexGrowTotal
    rw [map_transpose_layout (fun b => b.grow) (fun b => b.grow) (fun _ => rfl)]
  have hcg : contentGrowTotalWidth (cs.map transpose) = contentGrowTotalHeight cs := by
    unfold contentGrowTotalWidth contentGrowTotalHeight
    rw [map_transpose_layout (fun b => contentGrow b.layout.width b.layout.minWidth)
      (fun b => contentGrow b.layout.height b.layout.minHeight) (fun _ => rfl)]
  have htm : totalMinWidth (cs.map transpose) = totalMinHeight cs := by
    unfold totalMinWidth totalMinHeight
    rw [map_transpose_layout (fun b => b.layout.minWidth) (fun b => b.layout.minHeight)
      (fun _ => rfl)]
  have hav : availableWidth (transposeBase b) = availableHeight b := rfl
  unfold distributeWidths distributeHeights
  rw [hrw, hrmw, hfg, hcg, htm, hav, shrinkWidths_eq, shrinkHeights_eq]
  by_cases hcol : c.layoutDirection = .LayoutColumn
  · rw [if_pos ((transposeData_row c).2 hcol), if_pos hcol]
    split
    · rw [Option.map_some']
      congr 1
      exact map_set_transpose
        (fun b0 => flexGrowSize (remainingHeight b c cs) (flexGrowTotal cs) b0.grow
          b0.layout.width)
        (fun b0 => flexGrowSize (remainingHeight b c cs) (flexGrowTotal cs) b0.grow
          b0.layout.height) (fun _ => rfl) cs
    · split
      · rw [Option.map_some']
        congr 1
        exact map_set_transpose
          (fun b0 => contentGrowSize (remainingMinHeight b c cs)
            (contentGrowTotalHeight cs) b0.layout.width b0.layout.minWidth)
          (fun b0 => contentGrowSize (remainingMinHeight b c cs)
            (contentGrowTotalHeight cs) b0.layout.height b0.layout.minHeight)
          (fun _ => rfl) cs
      · simp only [List.length_map]
        split
        · rfl
        · rw [Option.map_some']
          congr 1
          exact map_set_transpose
            (fun b0 => wrap16 (Int.tdiv (availableHeight b * b0.layout.minWidth)
              (totalMinHeight cs)))
            (fun b0 => wrap16 (Int.tdiv (availableHeight b * b0.layout.minHeight)
              (totalMinHeight cs))) (fun _ => rfl) cs
  · rw [if_neg (fun h => hcol ((transposeData_row c).1 h)), if_neg hcol, Option.map_some']
    congr 1
    exact map_set_transpose
      (fun b0 => crossSize (availableHeight b) c.alignItems b0.alignSelf b0.layout.width)
      (fun b0 => crossSize (availableHeight b) c.alignItems b0.alignSelf b0.layout.height)
      (fun _ => rfl) cs

theorem map_base_transpose (cs : List Element) :
    (cs.map transpose).map Element.base = (cs.map Element.base).map transposeBase := by
  rw [List.map_map, List.map_map]
  apply List.map_congr_left
  intro e _
  simp

theorem widthsGrowChildren_transpose (cs : List Element)
    (ih : ∀ e ∈ cs, ∀ b : BaseElement,
      widthsGrowFrom (transposeBase b) (transpose e) =
        (heightsGrowFrom b e).map transpose) :
    ∀ bs : List BaseElement,
      widthsGrowChildren (cs.map transpose) (bs.map transposeBase) =
        (heightsGrowChildren cs bs).map (List.map transpose) := by
  induction cs with
  | nil => intro bs; simp [widthsGrowChildren, heightsGrowChildren]
  | cons e es ihl =>
    intro bs
    have hhead : (bs.map transposeBase).headD (transpose e).base =
        transposeBase (bs.headD e.base) := by
      cases bs <;> simp
    have htail : (bs.map transposeBase).tail = bs.tail.map transposeBase := by
      cases bs <;> simp
    simp only [List.map_cons, widthsGrowChildren, heightsGrowChildren]
    rw [hhead, htail, ih e (List.mem_cons_self _ _),
      ihl (fun x hx => ih x (List.mem_cons_of_mem _ hx))]
    cases heightsGrowFrom (bs.headD e.base) e with
    | none => rfl
    | some e1 =>
      cases heightsGrowChildren es bs.tail with
      | none => rfl
      | some es1 => rfl

theorem widthsGrowFrom_transpose (e : Element) : ∀ b : BaseElement,
    widthsGrowFrom (transposeBase b) (transpose e) =
      (heightsGrowFrom b e).map transpose := by
  induction e using Element.induct with
  | hc b0 c cs ih =>
    intro b
    simp only [transpose, widthsGrowFrom, heightsGrowFrom, transposeList_eq_map]
    rw [distributeWidths_transpose]
    cases distributeHeights b c cs with
    | none => rfl
    | some cs1 =>
      simp only [Option.map_some']
      rw [map_base_transpose, widthsGrowChildren_transpose cs ih]
      cases heightsGrowChildren cs (cs1.map Element.base) with
      | none => rfl
      | some cs2 => simp [transpose, transposeList_eq_map]
  | ht b0 t => intro b; simp [transpose, widthsGrowFrom, heightsGrowFrom]
  | hp b0 p => intro b; simp [transpose, widthsGrowFrom, heightsGrowFrom]

/-- C23 (height grow mirrors width grow): with the transposition that swaps, on every node,
width with height and min width with min height in the style and in the computed layout,
`paddingLeft` with `paddingTop`, `paddingRight` with `paddingBottom` and row with column,
and keeps `gap`, `grow`, `alignItems` and `alignSelf`, `computeHeightsGrowSizing` is
`computeWidthsGrowSizing` run on the transposed tree, the result transposed back; one of the
two divides by zero exactly when the other does, and the transposition is its own inverse. -/
theorem height_grow_mirrors_width_grow (e : Element) :
    computeHeightsGrowSizing e = (computeWidthsGrowSizing (transpose e)).map transpose ∧
    transpose (transpose e) = e := by
  refine ⟨?_, transpose_transpose e⟩
  unfold computeHeightsGrowSizing computeWidthsGrowSizing
  rw [transpose_base, widthsGrowFrom_transpose, Option.map_map]
  have : (transpose ∘ transpose) = id := by
    funext x
    exact transpose_transpose x
  rw [this, Option.map_id]
  rfl

/-- Instance of C23: a column of height 100 with gap 5 whose children of height 10 have grow
1 and 3 gives them the heights 28 and 66, and so does the width pass on the transposed
tree. -/
theorem height_grow_mirrors_width_grow_witness :
    ((computeHeightsGrowSizing transposeExample).map fun r =>
      (nodes r).map fun n => n.base.layout.height) = some [100, 28, 28, 66] ∧
    ((computeWidthsGrowSizing (transpose transposeExample)).map fun r =>
      (nodes r).map fun n => n.base.layout.width) = some [100, 28, 28, 66] ∧
    computeHeightsGrowSizing transposeExample =
      (computeWidthsGrowSizing (transpose transposeExample)).map transpose :=
  ⟨by decide, by decide, (height_grow_mirrors_width_grow transposeExample).1⟩

/-! ## The shrink branch does not give out more than the available width -/

theorem le_sum_of_mem_nonneg {vs : List Int} (h : ∀ v ∈ vs, 0 ≤ v) {v : Int} (hv : v ∈ vs) :
    v ≤ vs.sum := by
  induction vs with
  | nil => simp at hv
  | cons u us ih =>
    have hu := h u (List.mem_cons_self _ _)
    have hus : 0 ≤ us.sum := List.sum_nonneg fun x hx => h x (List.mem_cons_of_mem _ hx)
    rw [List.sum_cons]
    rcases List.mem_cons.1 hv with rfl | hv
    · omega
    · have := ih (fun x hx => h x (List.mem_cons_of_mem _ hx)) hv
      omega

/-- The shares `floor(A * m / T)` of the shrink branch, for min widths `m ≥ 0` that sum to
`T > 0` and `A ≥ 0`: each lies between 0 and `A`, and they sum to at most `A`. -/
theorem shrink_shares (A : Int) (hA : 0 ≤ A) (ms : List Int) (hms : ∀ m ∈ ms, 0 ≤ m)
    (hT : 0 < ms.sum) :
    (∀ m ∈ ms, 0 ≤ A * m / ms.sum ∧ A * m / ms.sum ≤ A) ∧
    (ms.map fun m => A * m / ms.sum).sum ≤ A := by
  constructor
  · intro m hm
    have h0 := hms m hm
    have hle := le_sum_of_mem_nonneg hms hm
    refine ⟨Int.ediv_nonneg (mul_nonneg hA h0) hT.le, ?_⟩
    have h1 : A * m ≤ A * ms.sum := mul_le_mul_of_nonneg_left hle hA
    calc A * m / ms.sum ≤ A * ms.sum / ms.sum := Int.ediv_le_ediv hT h1
      _ = A := Int.mul_ediv_cancel _ hT.ne'
  · have h := (share_sum_bounds A ms.sum hT ms hms).1
    have h2 : ms.sum * (ms.map fun m => A * m / ms.sum).sum ≤ ms.sum * A := by
      rw [mul_comm ms.sum A]
      exact h
    exact le_of_mul_le_mul_left h2 hT

/-- C31 (proportional shrink does not over-allocate), amended: in a row that takes the
shrink branch of `computeWidthsGrowSizing` (`remainingWidth < 0` and
`remainingMinWidth < 0`) with
`availableWidth ≥ 0`, every child min width `≥ 0` and `totalMinWidth > 0`, the sum of the
min widths fitting 16 bits, the pass at this container divides by a positive number, and
whenever it returns, every child has a width `≥ 0` and the widths of the children sum to at
most `availableWidth`.  The gaps are not counted: there is such a row where
`Σ child.width + gap * (n - 1)` exceeds `availableWidth` after the pass. -/
theorem shrink_does_not_over_allocate :
    (∀ (b : BaseElement) (c : ContainerData) (cs : List Element),
      c.layoutDirection = .LayoutRow →
      remainingWidth b c cs < 0 → remainingMinWidth b c cs < 0 →
      0 ≤ availableWidth b →
      (∀ child ∈ cs, 0 ≤ child.base.layout.minWidth) →
      0 < totalMinWidth cs →
      inInt16 (cs.map fun child => child.base.layout.minWidth).sum →
      (distributeWidths b c cs).isSome = true ∧
      ∀ r, computeWidthsGrowSizing (.container b c cs) = some r →
        (∀ child1 ∈ r.children, 0 ≤ child1.base.layout.width) ∧
        (r.children.map fun child => child.base.layout.width).sum ≤ availableWidth b) ∧
    ∃ (b : BaseElement) (c : ContainerData) (cs : List Element) (r : Element),
      c.layoutDirection = .LayoutRow ∧
      remainingWidth b c cs < 0 ∧ remainingMinWidth b c cs < 0 ∧
      0 ≤ availableWidth b ∧
      (∀ child ∈ cs, 0 ≤ child.base.layout.minWidth) ∧
      0 < totalMinWidth cs ∧
      inInt16 (cs.map fun child => child.base.layout.minWidth).sum ∧
      computeWidthsGrowSizing (.container b c cs) = some r ∧
      availableWidth b < (r.children.map fun child => child.base.layout.width).sum +
        c.gap * ((r.children.length : Int) - 1) := by
  constructor
  · intro b c cs hrow hrem hmin hA hm hT hfit
    have hTeq : totalMinWidth cs = (cs.map fun child => child.base.layout.minWidth).sum := by
      rw [totalMinWidth_eq, wrap16_of_inInt16 hfit]
    have hdist := distributeWidths_shrink hrow hrem hmin hT.ne'
    refine ⟨by rw [hdist]; rfl, ?_⟩
    intro r hr
    obtain ⟨cs1, cs2, h1, rfl, h2⟩ := computeWidthsGrowSizing_container hr
    rw [hdist] at h1
    cases h1
    have hms : ∀ m ∈ (cs.map fun child => child.base.layout.minWidth), 0 ≤ m := by
      intro m hmem
      obtain ⟨child, hc, rfl⟩ := List.mem_map.1 hmem
      exact hm child hc
    rw [hTeq] at hT
    obtain ⟨hshare, hsum⟩ := shrink_shares (availableWidth b) hA _ hms hT
    have ha : inInt16 (availableWidth b) := inInt16_wrap16 _
    have hw : (cs2.map fun child => child.base.layout.width) =
        (cs.map fun child => child.base.layout.minWidth).map fun m =>
          availableWidth b * m / (cs.map fun child => child.base.layout.minWidth).sum := by
      have : (cs2.map fun child => child.base.layout.width) =
          (cs2.map Element.base).map fun b1 => b1.layout.width := by
        rw [List.map_map]; rfl
      rw [this, h2, List.map_map, List.map_map, List.map_map]
      apply List.map_congr_left
      intro child hc
      simp only [Function.comp_apply, setWidth_layout_width]
      obtain ⟨s0, s1⟩ := hshare _ (List.mem_map.2 ⟨child, hc, rfl⟩)
      rw [hTeq, Int.tdiv_eq_ediv (mul_nonneg hA (hm child hc)) hT.le]
      apply wrap16_of_inInt16
      unfold inInt16 at ha ⊢
      constructor <;> omega
    simp only [Element.children]
    constructor
    · intro child1 hc1
      have hmem : child1.base.layout.width ∈ cs2.map fun child => child.base.layout.width :=
        List.mem_map.2 ⟨child1, hc1, rfl⟩
      rw [hw] at hmem
      obtain ⟨m, hmm, heq⟩ := List.mem_map.1 hmem
      rw [← heq]
      exact (hshare m hmm).1
    · rw [hw]
      exact hsum
  · exact ⟨shrinkExampleBase, { newContainerData with gap := 5 },
      [shrinkExampleChild, shrinkExampleChild], _, rfl, by decide, by decide, by decide,
      by decide, by decide, by decide, rfl, by decide⟩

/-- Instance of C31, amended: with the available width 50 and gap 5, two children of min width 30 get
the width 25 each; the widths sum to 50, and to 55 with the gap. -/
theorem shrink_does_not_over_allocate_witness :
    availableWidth shrinkExampleBase = 50 ∧
    (computeWidthsGrowSizing (.container shrinkExampleBase { newContainerData with gap := 5 }
      [shrinkExampleChild, shrinkExampleChild])).map
      (fun r => r.children.map fun child => child.base.layout.width) = some [25, 25] ∧
    (distributeWidths shrinkExampleBase { newContainerData with gap := 5 }
      [shrinkExampleChild, shrinkExampleChild]).isSome = true :=
  ⟨by decide, by decide,
    (shrink_does_not_over_allocate.1 shrinkExampleBase { newContainerData with gap := 5 }
      [shrinkExampleChild, shrinkExampleChild] rfl (by decide) (by decide) (by decide)
      (by decide) (by decide) (by decide)).1⟩

/-! ## Leaf containment with explicit sizes -/

/-- Width fit sizing leaves `layout.minWidth ≤ layout.width` at every node when every node
of the sized tree meets `widthCovered`. -/
theorem fit_minWidth_le_width_covered (ctx : BaseMeasurementContext) (e : Element) :
    (∀ n ∈ nodes (computeWidthFitSizing ctx e), widthCovered ctx n) →
    ∀ n ∈ nodes (computeWidthFitSizing ctx e), n.base.layout.minWidth ≤ n.base.layout.width := by
  induction e using Element.induct with
  | hc b c cs ih =>
    intro hcov
    have hself := hcov _ (mem_nodes_self _)
    rw [computeWidthFitSizing, computeWidthFitSizingList_eq_map] at hcov hself ⊢
    have hchild : ∀ child ∈ cs, ∀ n ∈ nodes (computeWidthFitSizing ctx child),
        n.base.layout.minWidth ≤ n.base.layout.width := by
      intro child hc
      exact ih child hc
        (fun n hn => hcov n (mem_nodes_child (List.mem_map.2 ⟨child, hc, rfl⟩) hn))
    intro n hn
    rw [nodes_container, List.mem_cons] at hn
    rcases hn with rfl | hn
    · show containerFitMinWidth b c (cs.map (computeWidthFitSizing ctx)) ≤
        containerFitWidth b c (cs.map (computeWidthFitSizing ctx))
      have h1 : b.minWidth ≥ 0 → b.minWidth ≤
          containerFitWidth b c (cs.map (computeWidthFitSizing ctx)) := hself.1
      have h2 : b.minWidth < 0 →
          inInt16 (exactFitMinWidth ctx (.container b c (cs.map (computeWidthFitSizing ctx)))) ∧
          (b.width ≥ 0 →
            exactFitMinWidth ctx (.container b c (cs.map (computeWidthFitSizing ctx))) ≤
              b.width) ∧
          (b.width < 0 →
            inInt16 (exactFitWidth ctx (.container b c (cs.map (computeWidthFitSizing ctx)))) ∧
            True) := hself.2
      by_cases hm : b.minWidth ≥ 0
      · have hM : containerFitMinWidth b c (cs.map (computeWidthFitSizing ctx)) = b.minWidth := by
          unfold containerFitMinWidth
          rw [if_pos hm]
        rw [hM]
        exact h1 hm
      · have hm2 : b.minWidth < 0 := not_le.1 hm
        obtain ⟨hin, hexp, hauto⟩ := h2 hm2
        rw [containerFitMinWidth_exact ctx c _ hm2, wrap16_of_inInt16 hin]
        by_cases hw : b.width ≥ 0
        · have hW : containerFitWidth b c (cs.map (computeWidthFitSizing ctx)) = b.width := by
            unfold containerFitWidth
            rw [if_pos hw]
          rw [hW]
          exact hexp hw
        · have hw2 : b.width < 0 := not_le.1 hw
          rw [containerFitWidth_exact ctx c _ hw2, wrap16_of_inInt16 (hauto hw2).1]
          apply exactFitMinWidth_le
          intro child1 hc1
          obtain ⟨child, hc, rfl⟩ := List.mem_map.1 hc1
          exact hchild child hc _ (mem_nodes_self _)
    · obtain ⟨l, hl, hnl⟩ := List.mem_flatten.1 hn
      obtain ⟨child1, hc1, rfl⟩ := List.mem_map.1 hl
      obtain ⟨child, hc, rfl⟩ := List.mem_map.1 hc1
      exact hchild child hc n hnl
  | ht b t =>
    intro hcov n hn
    have hself := hcov _ (mem_nodes_self _)
    rw [computeWidthFitSizing] at hself hn
    simp only [nodes, List.mem_singleton] at hn
    subst hn
    show textFitMinWidth ctx b t ≤ textFitWidth ctx b t
    have h1 : b.minWidth ≥ 0 → b.minWidth ≤ textFitWidth ctx b t := hself.1
    have h2 : b.minWidth < 0 →
        inInt16 (exactFitMinWidth ctx (.text b t)) ∧
        (b.width ≥ 0 → exactFitMinWidth ctx (.text b t) ≤ b.width) ∧
        (b.width < 0 → inInt16 (exactFitWidth ctx (.text b t)) ∧ wordsFit ctx (.text b t)) :=
      hself.2
    by_cases hm : b.minWidth ≥ 0
    · have hM : textFitMinWidth ctx b t = b.minWidth := by
        unfold textFitMinWidth
        rw [if_pos hm]
      rw [hM]
      exact h1 hm
    · have hm2 : b.minWidth < 0 := not_le.1 hm
      obtain ⟨hin, hexp, hauto⟩ := h2 hm2
      have hM : textFitMinWidth ctx b t = exactFitMinWidth ctx (.text b t) := by
        unfold textFitMinWidth sumSpaceWidth
        rw [if_neg hm, wrap16_add_left]
        exact wrap16_of_inInt16 hin
      rw [hM]
      by_cases hw : b.width ≥ 0
      · have hW : textFitWidth ctx b t = b.width := by
          unfold textFitWidth
          rw [if_pos hw]
        rw [hW]
        exact hexp hw
      · have hw2 : b.width < 0 := not_le.1 hw
        obtain ⟨hinw, hwords⟩ := hauto hw2
        have hW : textFitWidth ctx b t = exactFitWidth ctx (.text b t) := by
          unfold textFitWidth sumSpaceWidth
          rw [if_neg hw, wrap16_add_left]
          exact wrap16_of_inInt16 hinw
        rw [hW, exactFitMinWidth, exactFitWidth]
        have hw3 : 0 ≤ measureWidth ctx t.text t.font ∧
            ∀ word ∈ splitStringByWhitesp t.text,
              measureWidth ctx word t.font ≤ measureWidth ctx t.text t.font := hwords
        have := maxLoop_le ((splitStringByWhitesp t.text).map fun word =>
          measureWidth ctx word t.font) (measureWidth ctx t.text t.font)
          (fun v hv => by
            obtain ⟨word, hword, rfl⟩ := List.mem_map.1 hv
            exact hw3.2 word hword) 0 hw3.1
        omega
  | hp b p =>
    intro hcov n hn
    rw [computeWidthFitSizing] at hn
    simp only [nodes, List.mem_singleton] at hn
    subst hn
    exact le_rfl

/-- C13 (leaf containment for width), amended: take the tree as width fit sizing leaves it
(the widths and min widths it computes are the final ones).  If in that tree every container
and text with an explicit min width has that min width at most its width, every container
and text with an explicit width and no explicit min width has padding, border and the total
min width of its children (summed with the gaps in a row, the greatest in a column; the
widest word for a text) at most that width, so that the total min width is at most the
available width, every text with neither has a measured width that is not negative and at
least the measured width of each of its words, and the sums the pass stores fit 16 bits,
then every node of the tree `layout` returns has `layout.width ≥ layout.minWidth`. -/
theorem layout_width_ge_minWidth (ctx : BaseMeasurementContext) (t r : Element)
    (hcover : ∀ n ∈ nodes (computeWidthFitSizing ctx (initElements t)), widthCovered ctx n)
    (h : layout ctx t = some r) :
    ∀ n ∈ nodes r, n.base.layout.width ≥ n.base.layout.minWidth := by
  have hinv := fit_minWidth_le_width_covered ctx (initElements t) hcover
  have hprofile := layout_widthProfile ctx h
  intro n hn
  have hmem : (n.base.layout.width, n.base.layout.minWidth) ∈ widthProfile r :=
    List.mem_map.2 ⟨n, hn, rfl⟩
  rw [hprofile] at hmem
  obtain ⟨n0, hn0, heq⟩ := List.mem_map.1 hmem
  have := hinv n0 hn0
  simp only [Prod.mk.injEq] at heq
  omega

/-- Instance of C13, amended: a row of explicit width 200 and gap 5 holding a text and a
column with grow 1 that holds a text; the total min width 35 of the children with the gap is
at most the available width 200. -/
theorem layout_width_ge_minWidth_witness :
    exactFitMinWidth tenPixelFont
      (computeWidthFitSizing tenPixelFont (initElements growResetExample)) = 35 ∧
    availableWidth
      (computeWidthFitSizing tenPixelFont (initElements growResetExample)).base = 200 ∧
    ∃ r, layout tenPixelFont growResetExample = some r ∧
      ((nodes r).map fun n => (n.base.layout.width, n.base.layout.minWidth)) =
        [(200, 35), (110, 20), (30, 10), (30, 10)] ∧
      ∀ n ∈ nodes r, n.base.layout.width ≥ n.base.layout.minWidth :=
  ⟨by decide, by decide, _, rfl, by decide,
    layout_width_ge_minWidth tenPixelFont growResetExample _ (by decide) rfl⟩

/-- Two more trees that meet the premises of C13 as stated and end with a width below the
min width: a row of explicit width 100 and explicit min width 500, and, with a capability
that answers 0 for a text of more than three characters, the text "aa bb" whose words measure
20. -/
theorem width_below_minWidth_further_cases :
    ((layout tenPixelFont explicitMinExample).map fun r =>
      (totalMinWidth r.children, availableWidth r.base, r.base.layout.width,
        r.base.layout.minWidth)) = some (0, 100, 100, 500) ∧
    measureWidth shortFont "aa bb" 0 = 0 ∧
    (splitStringByWhitesp "aa bb").map (fun word => measureWidth shortFont word 0) = [20, 20] ∧
    ((layout shortFont twoWordExample).map fun r =>
      (totalMinWidth r.children, availableWidth r.base, r.children.map fun child =>
        (child.base.layout.width, child.base.layout.minWidth))) = some (20, 100, [(0, 20)]) := by
  decide

/-- C28 as stated fails: a row at `x = 32760` of width 30 with `paddingLeft = 10` and gap 0
holds one child of width 10, which is at most the available width 20; the content box starts
at `32760 + 10 = 32770`, and `computePositions` puts the child at `-32766`. -/
theorem row_child_outside_at_edge :
    newContainerData.layoutDirection = .LayoutRow ∧
    0 ≤ newContainerData.gap ∧
    (∀ child ∈ [positionExampleChild], 0 ≤ child.base.layout.width) ∧
    availableWidth edgeExampleBase = 20 ∧
    ([positionExampleChild].map fun child => child.base.layout.width).sum +
      newContainerData.gap * ((([positionExampleChild].length : Nat) : Int) - 1) ≤
      availableWidth edgeExampleBase ∧
    edgeExampleBase.layout.x + edgeExampleBase.paddingLeft + edgeExampleBase.borderWidth =
      32770 ∧
    (computePositions (.container edgeExampleBase newContainerData
      [positionExampleChild])).children.map (fun child => child.base.layout.x) = [-32766] := by
  decide

/-- C31 as stated fails: a row of available width 100 with three children of width and min
width 30000 takes the shrink branch, every min width is `≥ 0`, the 16-bit `totalMinWidth` is
`24464 > 0`, and after the pass every child has the width 122: the widths sum to 366. -/
theorem shrink_over_allocates_on_overflow :
    newContainerData.layoutDirection = .LayoutRow ∧
    remainingWidth wideMinExampleBase newContainerData
      [wideMinExampleChild, wideMinExampleChild, wideMinExampleChild] < 0 ∧
    remainingMinWidth wideMinExampleBase newContainerData
      [wideMinExampleChild, wideMinExampleChild, wideMinExampleChild] < 0 ∧
    availableWidth wideMinExampleBase = 100 ∧
    (∀ child ∈ [wideMinExampleChild, wideMinExampleChild, wideMinExampleChild],
      0 ≤ child.base.layout.minWidth) ∧
    totalMinWidth [wideMinExampleChild, wideMinExampleChild, wideMinExampleChild] = 24464 ∧
    (computeWidthsGrowSizing (.container wideMinExampleBase newContainerData
      [wideMinExampleChild, wideMinExampleChild, wideMinExampleChild])).map
      (fun r => r.children.map fun child => child.base.layout.width) =
      some [122, 122, 122] := by
  decide

end TinyLayoutEngine
